import Mathlib

/-!
# csource: generation of a C reproducer from a serialized execution program

A shallow embedding of `csource.go` (`Write` and `generateCalls`) together with
theorems about the emitted call fragments, the result-slot count, the macro
section and the three program topologies.

Conventions of the embedding.

* The execution program is a `List UInt8`; a machine word (`uintptr`, 64 bits)
  is a `Nat` below `2 ^ 64`, and word arithmetic is reduced modulo `2 ^ 64`
  where the source can overflow.
* A Go `panic` (explicit, or raised by the runtime for an index or a slice out
  of range) is `Except.error` carrying a `Fault`.
* The instruction loop of `generateCalls` is unbounded in the source; here it
  runs on a fuel counter. `generateCalls` supplies `exec.length + 1` units and
  the result `none` stands for "fuel exhausted"; it is shown never to occur.
* Constants and tables of the packages `prog` and `sys` (instruction tags,
  argument type tags, `sys.Calls`, `prog.NewSyscalls`) are parameters.
-/

namespace Csource

/-! ## Environment: what `prog` and `sys` provide -/

/-- Constants and the call table imported from the packages `prog` and `sys`.
`Calls[i]` is `sys.Calls[i].CallName`. -/
structure Env where
  ExecInstrEOF : Nat
  ExecInstrCopyin : Nat
  ExecInstrCopyout : Nat
  ExecInstrSetPad : Nat
  ExecInstrCheckPad : Nat
  ExecArgConst : Nat
  ExecArgResult : Nat
  ExecArgData : Nat
  Calls : List String

/-- The `Options` struct. -/
structure Options where
  Threaded : Bool
  Collide : Bool

/-- The ways in which `generateCalls` can panic. -/
inductive Fault where
  /-- `panic("exec program overflow")` in `read`. -/
  | overflow
  /-- `panic("bad argument type")` in the copy-in switch. -/
  | badArgType
  /-- `panic("unknown arg type")` in the syscall argument switch. -/
  | unknownArgType
  /-- Runtime panic: slice bounds out of range (`exec[:size]`, `exec[k:]`). -/
  | sliceBounds
  /-- Runtime panic: index out of range (`sys.Calls[instr]`). -/
  | indexRange
  deriving DecidableEq, Repr

/-! ## Formatting verbs of `fmt` -/

/-- The word modulus `2 ^ 64`. -/
def wordMod : Nat := 2 ^ 64

/-- `%v` applied to an unsigned integer: decimal digits. -/
def fmtV (n : Nat) : String := String.mk (Nat.toDigits 10 n)

/-- `%x` applied to an unsigned integer: lower-case hexadecimal digits. -/
def fmtX (n : Nat) : String := String.mk (Nat.toDigits 16 n)

/-- The product `size*8` computed in the type `uintptr`. -/
def bits (size : Nat) : Nat := (size * 8) % wordMod

/-! ## The word reader -/

/-- Little-endian value of a byte sequence. -/
def leValue : List UInt8 → Nat
  | [] => 0
  | b :: bs => b.toNat + 256 * leValue bs

/-- The closure `read`: pops a 64-bit little-endian word from the front of the
remaining buffer, or panics when fewer than 8 bytes remain. -/
def read (exec : List UInt8) : Except Fault (Nat × List UInt8) :=
  if exec.length < 8 then .error .overflow
  else .ok (leValue (exec.take 8), exec.drop 8)

/-- The closure `resultRef`: three words (slot, divisor, adder). -/
def resultRef (exec : List UInt8) : Except Fault (String × List UInt8) :=
  match read exec with
  | .error f => .error f
  | .ok (arg, exec) =>
    let res := "r[" ++ fmtV arg ++ "]"
    match read exec with
    | .error f => .error f
    | .ok (opDiv, exec) =>
      let res := if opDiv ≠ 0 then res ++ "/" ++ fmtV opDiv else res
      match read exec with
      | .error f => .error f
      | .ok (opAdd, exec) =>
        let res := if opAdd ≠ 0 then res ++ "+" ++ fmtV opAdd else res
        .ok (res, exec)

/-! ## Inline data escaping -/

/-- The local function `hex` of the inline-data case, on a byte value. -/
def hex (v : Nat) : Char :=
  if v < 10 then Char.ofNat ((48 + v) % 256) else Char.ofNat ((97 + v - 10) % 256)

/-- One iteration of the escaping loop: the four bytes `\`, `x`, `hex(v>>4)`,
`hex(v<<4>>4)` (shifts in the type `byte`). -/
def escByte (v : UInt8) : List Char :=
  ['\\', 'x', hex (v.toNat / 16), hex ((v.toNat * 16) % 256 / 16)]

/-- The escaped form of a data block. -/
def escData (data : List UInt8) : String :=
  String.mk (data.flatMap escByte)

/-! ## Statement texts (the `Fprintf` calls of `generateCalls`) -/

def copyinConstText (addr size arg : Nat) : String :=
  "\t*(uint" ++ fmtV (bits size) ++ "_t*)0x" ++ fmtX addr ++ " = (uint" ++
    fmtV (bits size) ++ "_t)0x" ++ fmtX arg ++ ";\n"

def copyinResultText (addr size : Nat) (ref : String) : String :=
  "\t*(uint" ++ fmtV (bits size) ++ "_t*)0x" ++ fmtX addr ++ " = " ++ ref ++ ";\n"

def copyinDataText (addr size : Nat) (esc : String) : String :=
  "\tmemcpy((void*)0x" ++ fmtX addr ++ ", \"" ++ esc ++ "\", " ++ fmtV size ++ ");\n"

def copyoutGuardText (lastCall : Nat) : String :=
  "\tif (r[" ++ fmtV lastCall ++ "] != -1)\n"

def copyoutAssignText (n size addr : Nat) : String :=
  "\t\tr[" ++ fmtV n ++ "] = *(uint" ++ fmtV (bits size) ++ "_t*)0x" ++ fmtX addr ++ ";\n"

def syscallHeadText (n : Nat) (name : String) : String :=
  "\tr[" ++ fmtV n ++ "] = syscall(SYS_" ++ name

def constArgText (v : Nat) : String := ", 0x" ++ fmtX v ++ "ul"

def resultArgText (ref : String) : String := ", " ++ ref

/-! ## `generateCalls` -/

/-- The mutable variables of `generateCalls`. -/
structure GenState where
  exec : List UInt8
  lastCall : Nat
  seenCall : Bool
  calls : List String
  w : String
  n : Nat

/-- The closure `newCall`. -/
def newCall (st : GenState) : GenState :=
  if st.seenCall then
    { st with seenCall := false, calls := st.calls ++ [st.w], w := "" }
  else st

/-- The argument loop `for i := uintptr(0); i < nargs; i++`, with `k` the number
of iterations still to run; returns the buffer `w` and the remaining input. -/
def argsLoop (env : Env) : Nat → String → List UInt8 → Except Fault (String × List UInt8)
  | 0, w, exec => .ok (w, exec)
  | k + 1, w, exec =>
    match read exec with
    | .error f => .error f
    | .ok (typ, exec) =>
      match read exec with
      | .error f => .error f
      | .ok (_size, exec) =>
        if typ = env.ExecArgConst then
          match read exec with
          | .error f => .error f
          | .ok (v, exec) => argsLoop env k (w ++ constArgText v) exec
        else if typ = env.ExecArgResult then
          match resultRef exec with
          | .error f => .error f
          | .ok (ref, exec) => argsLoop env k (w ++ resultArgText ref) exec
        else .error .unknownArgType

/-- The padding loop `for i := nargs; i < 6; i++`, with `k` the number of
iterations still to run. -/
def padLoop : Nat → String → String
  | 0, w => w
  | k + 1, w => padLoop k (w ++ ", 0")

/-- Outcome of one pass through the body of the instruction loop. -/
inductive Step where
  /-- `break loop` (the state after reading the end marker). -/
  | done (st : GenState)
  /-- The body completed and the post statement `n++` ran. -/
  | next (st : GenState)

/-- The body of the instruction loop, followed by `n++` unless it breaks. -/
def step (env : Env) (st : GenState) : Except Fault Step :=
  match read st.exec with
  | .error f => .error f
  | .ok (instr, exec) =>
    if instr = env.ExecInstrEOF then
      .ok (.done { st with exec := exec })
    else if instr = env.ExecInstrCopyin then
      let st := newCall st
      match read exec with
      | .error f => .error f
      | .ok (addr, exec) =>
        match read exec with
        | .error f => .error f
        | .ok (typ, exec) =>
          match read exec with
          | .error f => .error f
          | .ok (size, exec) =>
            if typ = env.ExecArgConst then
              match read exec with
              | .error f => .error f
              | .ok (arg, exec) =>
                .ok (.next { st with exec := exec, w := st.w ++ copyinConstText addr size arg,
                                     n := st.n + 1 })
            else if typ = env.ExecArgResult then
              match resultRef exec with
              | .error f => .error f
              | .ok (ref, exec) =>
                .ok (.next { st with exec := exec, w := st.w ++ copyinResultText addr size ref,
                                     n := st.n + 1 })
            else if typ = env.ExecArgData then
              if exec.length < size then .error .sliceBounds
              else
                let data := exec.take size
                let off := ((size + 7) % wordMod) / 8 * 8 % wordMod
                if exec.length < off then .error .sliceBounds
                else
                  let exec := exec.drop off
                  .ok (.next { st with exec := exec,
                                       w := st.w ++ copyinDataText addr size (escData data),
                                       n := st.n + 1 })
            else .error .badArgType
    else if instr = env.ExecInstrCopyout then
      match read exec with
      | .error f => .error f
      | .ok (addr, exec) =>
        match read exec with
        | .error f => .error f
        | .ok (size, exec) =>
          .ok (.next { st with exec := exec,
                               w := st.w ++ copyoutGuardText st.lastCall ++
                                      copyoutAssignText st.n size addr,
                               n := st.n + 1 })
    else if instr = env.ExecInstrSetPad then
      let st := newCall st
      match read exec with
      | .error f => .error f
      | .ok (_addr, exec) =>
        match read exec with
        | .error f => .error f
        | .ok (_size, exec) => .ok (.next { st with exec := exec, n := st.n + 1 })
    else if instr = env.ExecInstrCheckPad then
      match read exec with
      | .error f => .error f
      | .ok (_addr, exec) =>
        match read exec with
        | .error f => .error f
        | .ok (_size, exec) => .ok (.next { st with exec := exec, n := st.n + 1 })
    else
      let st := newCall st
      match env.Calls.get? instr with
      | none => .error .indexRange
      | some callName =>
        let w := st.w ++ syscallHeadText st.n callName
        match read exec with
        | .error f => .error f
        | .ok (nargs, exec) =>
          match argsLoop env nargs w exec with
          | .error f => .error f
          | .ok (w, exec) =>
            let w := padLoop (6 - nargs) w
            let w := w ++ ");\n"
            .ok (.next { st with exec := exec, w := w, lastCall := st.n, seenCall := true,
                                 n := st.n + 1 })

/-- The instruction loop `for ; ; n++`, on a fuel counter; `none` means that
the fuel ran out. -/
def loop (env : Env) : Nat → GenState → Option (Except Fault GenState)
  | 0, _ => none
  | fuel + 1, st =>
    match step env st with
    | .error f => some (.error f)
    | .ok (.done st) => some (.ok st)
    | .ok (.next st) => loop env fuel st

/-- The initial values of the variables of `generateCalls`. -/
def initState (exec : List UInt8) : GenState :=
  { exec := exec, lastCall := 0, seenCall := false, calls := [], w := "", n := 0 }

/-- The state in which `generateCalls` returns: the loop, then the final
`newCall()`. -/
def generateCallsState (env : Env) (exec : List UInt8) : Option (Except Fault GenState) :=
  match loop env (exec.length + 1) (initState exec) with
  | none => none
  | some (.error f) => some (.error f)
  | some (.ok st) => some (.ok (newCall st))

/-- The function `generateCalls`: the fragments and the slot count. -/
def generateCalls (env : Env) (exec : List UInt8) : Option (Except Fault (List String × Nat)) :=
  match generateCallsState env exec with
  | none => none
  | some (.error f) => some (.error f)
  | some (.ok st) => some (.ok (st.calls, st.n))

/-! ## The instruction view of the stream

`decodeInstr` performs the reads of one pass through the loop body, in the order
of the source, and returns what was read; `instrText` is the text the pass
appends to `w`, and `applyInstr` its effect on the variables. `step_eq` shows
that `step` is the composition of the two. -/

/-- An argument of a syscall: a constant, or a reference to a result slot. -/
inductive Arg where
  | const (v : Nat)
  | result (slot opDiv opAdd : Nat)
  deriving DecidableEq, Repr

/-- One decoded instruction (the end marker is not an instruction). -/
inductive Instr where
  | copyinConst (addr size arg : Nat)
  | copyinResult (addr size slot opDiv opAdd : Nat)
  | copyinData (addr size : Nat) (data : List UInt8)
  | copyout (addr size : Nat)
  | setPad (addr size : Nat)
  | checkPad (addr size : Nat)
  | syscall (instr : Nat) (callName : String) (args : List Arg)
  deriving DecidableEq, Repr

/-- The three reads of `resultRef`. -/
def readRef (exec : List UInt8) : Except Fault ((Nat × Nat × Nat) × List UInt8) :=
  match read exec with
  | .error f => .error f
  | .ok (arg, exec) =>
    match read exec with
    | .error f => .error f
    | .ok (opDiv, exec) =>
      match read exec with
      | .error f => .error f
      | .ok (opAdd, exec) => .ok ((arg, opDiv, opAdd), exec)

/-- The text built by `resultRef` from its three words. -/
def refText (slot opDiv opAdd : Nat) : String :=
  let res := "r[" ++ fmtV slot ++ "]"
  let res := if opDiv ≠ 0 then res ++ "/" ++ fmtV opDiv else res
  if opAdd ≠ 0 then res ++ "+" ++ fmtV opAdd else res

/-- The reads of `k` iterations of the argument loop. -/
def decodeArgs (env : Env) : Nat → List UInt8 → Except Fault (List Arg × List UInt8)
  | 0, exec => .ok ([], exec)
  | k + 1, exec =>
    match read exec with
    | .error f => .error f
    | .ok (typ, exec) =>
      match read exec with
      | .error f => .error f
      | .ok (_size, exec) =>
        if typ = env.ExecArgConst then
          match read exec with
          | .error f => .error f
          | .ok (v, exec) =>
            match decodeArgs env k exec with
            | .error f => .error f
            | .ok (args, exec) => .ok (Arg.const v :: args, exec)
        else if typ = env.ExecArgResult then
          match readRef exec with
          | .error f => .error f
          | .ok ((slot, opDiv, opAdd), exec) =>
            match decodeArgs env k exec with
            | .error f => .error f
            | .ok (args, exec) => .ok (Arg.result slot opDiv opAdd :: args, exec)
        else .error .unknownArgType

/-- The reads of one pass through the loop body; `none` is the end marker. -/
def decodeInstr (env : Env) (exec : List UInt8) : Except Fault (Option Instr × List UInt8) :=
  match read exec with
  | .error f => .error f
  | .ok (instr, exec) =>
    if instr = env.ExecInstrEOF then .ok (none, exec)
    else if instr = env.ExecInstrCopyin then
      match read exec with
      | .error f => .error f
      | .ok (addr, exec) =>
        match read exec with
        | .error f => .error f
        | .ok (typ, exec) =>
          match read exec with
          | .error f => .error f
          | .ok (size, exec) =>
            if typ = env.ExecArgConst then
              match read exec with
              | .error f => .error f
              | .ok (arg, exec) => .ok (some (.copyinConst addr size arg), exec)
            else if typ = env.ExecArgResult then
              match readRef exec with
              | .error f => .error f
              | .ok ((slot, opDiv, opAdd), exec) =>
                .ok (some (.copyinResult addr size slot opDiv opAdd), exec)
            else if typ = env.ExecArgData then
              if exec.length < size then .error .sliceBounds
              else
                let off := ((size + 7) % wordMod) / 8 * 8 % wordMod
                if exec.length < off then .error .sliceBounds
                else .ok (some (.copyinData addr size (exec.take size)), exec.drop off)
            else .error .badArgType
    else if instr = env.ExecInstrCopyout then
      match read exec with
      | .error f => .error f
      | .ok (addr, exec) =>
        match read exec with
        | .error f => .error f
        | .ok (size, exec) => .ok (some (.copyout addr size), exec)
    else if instr = env.ExecInstrSetPad then
      match read exec with
      | .error f => .error f
      | .ok (addr, exec) =>
        match read exec with
        | .error f => .error f
        | .ok (size, exec) => .ok (some (.setPad addr size), exec)
    else if instr = env.ExecInstrCheckPad then
      match read exec with
      | .error f => .error f
      | .ok (addr, exec) =>
        match read exec with
        | .error f => .error f
        | .ok (size, exec) => .ok (some (.checkPad addr size), exec)
    else
      match env.Calls.get? instr with
      | none => .error .indexRange
      | some callName =>
        match read exec with
        | .error f => .error f
        | .ok (nargs, exec) =>
          match decodeArgs env nargs exec with
          | .error f => .error f
          | .ok (args, exec) => .ok (some (.syscall instr callName args), exec)

/-- Concatenation of a list of texts, in order. -/
def concat : List String → String
  | [] => ""
  | s :: ss => s ++ concat ss

/-- Text of one syscall argument. -/
def argText : Arg → String
  | .const v => constArgText v
  | .result slot opDiv opAdd => resultArgText (refText slot opDiv opAdd)

/-- The statement of a syscall: six argument positions at least. -/
def syscallText (n : Nat) (callName : String) (args : List Arg) : String :=
  syscallHeadText n callName ++ concat (args.map argText) ++
    concat (List.replicate (6 - args.length) ", 0") ++ ");\n"

/-- The statement of a copy-out: the guard line, then the assignment line. -/
def copyoutText (lastCall n size addr : Nat) : String :=
  copyoutGuardText lastCall ++ copyoutAssignText n size addr

/-- The text that the instruction decoded at position `n` appends to `w`,
`lastCall` being the value of that variable when the instruction is decoded. -/
def instrText (n lastCall : Nat) : Instr → String
  | .copyinConst addr size arg => copyinConstText addr size arg
  | .copyinResult addr size slot opDiv opAdd =>
      copyinResultText addr size (refText slot opDiv opAdd)
  | .copyinData addr size data => copyinDataText addr size (escData data)
  | .copyout addr size => copyoutText lastCall n size addr
  | .setPad _ _ => ""
  | .checkPad _ _ => ""
  | .syscall _ callName args => syscallText n callName args

def Instr.isSyscall : Instr → Bool
  | .syscall _ _ _ => true
  | _ => false

def Instr.isCopyout : Instr → Bool
  | .copyout _ _ => true
  | _ => false

/-- Instructions whose case starts with `newCall()` and that are not syscalls:
`CopyIn` and `SetPad`. -/
def Instr.isSetup : Instr → Bool
  | .copyinConst _ _ _ => true
  | .copyinResult _ _ _ _ _ => true
  | .copyinData _ _ _ => true
  | .setPad _ _ => true
  | _ => false

/-- Effect of one decoded instruction on the variables other than `exec`. -/
def applyInstr (st : GenState) (i : Instr) : GenState :=
  match i with
  | .copyout _ _ => { st with w := st.w ++ instrText st.n st.lastCall i, n := st.n + 1 }
  | .checkPad _ _ => { st with n := st.n + 1 }
  | .syscall _ _ _ =>
      let st := newCall st
      { st with w := st.w ++ instrText st.n st.lastCall i, lastCall := st.n,
                seenCall := true, n := st.n + 1 }
  | _ =>
      let st := newCall st
      { st with w := st.w ++ instrText st.n st.lastCall i, n := st.n + 1 }

/-- The instructions of a stream up to the end marker, and the input left
after the marker; `none` when the fuel runs out. -/
def decodeAll (env : Env) : Nat → List UInt8 → Option (Except Fault (List Instr × List UInt8))
  | 0, _ => none
  | fuel + 1, exec =>
    match decodeInstr env exec with
    | .error f => some (.error f)
    | .ok (none, rest) => some (.ok ([], rest))
    | .ok (some i, rest) =>
      match decodeAll env fuel rest with
      | none => none
      | some (.error f) => some (.error f)
      | some (.ok (is, rest)) => some (.ok (i :: is, rest))

/-- The decoded instructions of a program. -/
def decode (env : Env) (exec : List UInt8) : Option (Except Fault (List Instr × List UInt8)) :=
  decodeAll env (exec.length + 1) exec

/-- A decoded instruction with its decode position and its emitted text. -/
structure Stmt where
  pos : Nat
  instr : Instr
  text : String
  deriving DecidableEq, Repr

/-- The statements of an instruction list decoded from position `n` on, with
`lastCall` the position of the last syscall before it (0 when there is none). -/
def annotate : Nat → Nat → List Instr → List Stmt
  | _, _, [] => []
  | n, lastCall, i :: is =>
    ⟨n, i, instrText n lastCall i⟩ :: annotate (n + 1) (if i.isSyscall then n else lastCall) is

/-- The statements of a decoded program. -/
def statements (is : List Instr) : List Stmt := annotate 0 0 is

/-- Concatenated text of a list of statements. -/
def render (g : List Stmt) : String := concat (g.map Stmt.text)

/-! ## `Write` -/

/-- What `Write` uses of its argument `p *prog.Prog`: the names
`c.Meta.CallName` of the calls `p.Calls`, and the bytes `p.SerializeForExec()`. -/
structure Prog where
  Calls : List String
  exec : List UInt8

/-- The text written before the macro section. -/
def header : String :=
  "// autogenerated by syzkaller (http://github.com/google/syzkaller)\n" ++
  "#include <unistd.h>\n" ++
  "#include <sys/syscall.h>\n" ++
  "#include <string.h>\n" ++
  "#include <stdint.h>\n" ++
  "#include <pthread.h>\n" ++
  "\n"

/-- The three lines written for a call name with number `nr`. -/
def macroBlock (name : String) (nr : Nat) : String :=
  "#ifndef SYS_" ++ name ++ "\n" ++
  ("#define SYS_" ++ name ++ " " ++ fmtV nr ++ "\n") ++
  "#endif\n"

/-- The loop `for _, c := range p.Calls` of `Write`; `handled` holds the keys
of the map `handled`, and `NewSyscalls` is the table `prog.NewSyscalls`. -/
def macroLoop (NewSyscalls : String → Option Nat) :
    List String → List String → String → String
  | [], _, w => w
  | name :: cs, handled, w =>
    match NewSyscalls name with
    | none => macroLoop NewSyscalls cs handled w
    | some nr =>
      if name ∈ handled then macroLoop NewSyscalls cs handled w
      else macroLoop NewSyscalls cs (name :: handled) (w ++ macroBlock name nr)

/-- The call `strings.Replace(c, "\t", "\t\t", -1)`. -/
def replaceTabs (c : String) : String :=
  String.mk (c.data.flatMap (fun ch => if ch = '\t' then ['\t', '\t'] else [ch]))

/-- The loop `for _, c := range calls` of the sequential branch. -/
def seqLoop : List String → String → String
  | [], w => w
  | c :: cs, w => seqLoop cs (w ++ c)

/-- The loop `for i, c := range calls` of the threaded branch, from index `i`. -/
def caseLoop : Nat → List String → String → String
  | _, [], w => w
  | i, c :: cs, w =>
    caseLoop (i + 1) cs (w ++ ("\tcase " ++ fmtV i ++ ":\n") ++ replaceTabs c ++ "\t\tbreak;\n")

/-- The function `Write`, given the table `prog.NewSyscalls`. -/
def Write (env : Env) (NewSyscalls : String → Option Nat) (p : Prog) (opts : Options) :
    Option (Except Fault String) :=
  let exec := p.exec
  let w := header
  let w := macroLoop NewSyscalls p.Calls [] w
  let w := w ++ "\n"
  match generateCalls env exec with
  | none => none
  | some (.error f) => some (.error f)
  | some (.ok (calls, nvar)) =>
    let w := w ++ ("long r[" ++ fmtV nvar ++ "];\n\n")
    if !opts.Threaded && !opts.Collide then
      let w := w ++ "int main()\n\x7b\n"
      let w := w ++ "\tmemset(r, -1, sizeof(r));\n"
      let w := seqLoop calls w
      let w := w ++ "\treturn 0;\n\x7d\n"
      some (.ok w)
    else
      let w := w ++ "void *thr(void *arg)\n\x7b\n"
      let w := w ++ "\tswitch ((long)arg) \x7b\n"
      let w := caseLoop 0 calls w
      let w := w ++ "\t\x7d\n"
      let w := w ++ "\treturn 0;\n\x7d\n\n"
      let w := w ++ "int main()\n\x7b\n"
      let w := w ++ "\tlong i;\n"
      let w := w ++ ("\tpthread_t th[" ++ fmtV calls.length ++ "];\n")
      let w := w ++ "\n"
      let w := w ++ "\tmemset(r, -1, sizeof(r));\n"
      let w := w ++ ("\tfor (i = 0; i < " ++ fmtV calls.length ++ "; i++) \x7b\n")
      let w := w ++ "\t\tpthread_create(&th[i], 0, thr, (void*)i);\n"
      let w := w ++ "\t\tusleep(10000);\n"
      let w := w ++ "\t\x7d\n"
      let w :=
        if opts.Collide then
          let w := w ++ ("\tfor (i = 0; i < " ++ fmtV calls.length ++ "; i++) \x7b\n")
          let w := w ++ "\t\tpthread_create(&th[i], 0, thr, (void*)i);\n"
          let w := w ++ "\t\tif (i%2==0)\n"
          let w := w ++ "\t\t\tusleep(10000);\n"
          w ++ "\t\x7d\n"
        else w
      let w := w ++ "\tusleep(100000);\n"
      let w := w ++ "\treturn 0;\n\x7d\n"
      some (.ok w)

/-! ## Test data -/

/-- The eight bytes of a word, least significant first. -/
def wordBytes (v : Nat) : List UInt8 :=
  (List.range 8).map (fun i => UInt8.ofNat (v / 256 ^ i % 256))

/-- A sequence of words as a byte buffer. -/
def encode (ws : List Nat) : List UInt8 := ws.flatMap wordBytes

/-- A sample environment: tags counted down from the largest word, two calls. -/
def sampleEnv : Env :=
  { ExecInstrEOF := 2 ^ 64 - 1, ExecInstrCopyin := 2 ^ 64 - 2, ExecInstrCopyout := 2 ^ 64 - 3,
    ExecInstrSetPad := 2 ^ 64 - 4, ExecInstrCheckPad := 2 ^ 64 - 5,
    ExecArgConst := 0, ExecArgResult := 1, ExecArgData := 2, Calls := ["X", "open"] }

/-- A sample table of new syscall numbers. -/
def sampleNewSyscalls (name : String) : Option Nat :=
  if name = "X" then some 42 else none

/-- A sample program: a copy-in, `open` with a constant and a result argument,
a copy-out, then `X` without arguments. -/
def sampleProgram : List UInt8 :=
  encode [2 ^ 64 - 2, 4096, 0, 4, 42,
          1, 2, 0, 8, 255, 1, 8, 0, 0, 3,
          2 ^ 64 - 3, 8192, 8,
          0, 0,
          2 ^ 64 - 1]

/-- A sample program in which a copy-in follows the only syscall. -/
def trailingCopyin : List UInt8 :=
  encode [0, 0, 2 ^ 64 - 2, 4096, 0, 4, 42, 2 ^ 64 - 1]

/-! ## The run over decoded instructions, and what reaches a fragment -/

/-- The variables after running the loop body on a list of instructions. -/
def run (st : GenState) (is : List Instr) : GenState := is.foldl applyInstr st

/-- The value of `lastCall` after the instructions `is`, decoded from position
`n` on with `lastCall` as the value before. -/
def lastCallAfter : Nat → Nat → List Instr → Nat
  | _, lastCall, [] => lastCall
  | n, lastCall, i :: is => lastCallAfter (n + 1) (if i.isSyscall then n else lastCall) is

def Stmt.isSyscall (s : Stmt) : Bool := s.instr.isSyscall

def Stmt.isSetup (s : Stmt) : Bool := s.instr.isSetup

/-- The statements that reach a returned fragment: while a syscall is still to
come every statement is kept; the last syscall is kept together with what
follows it up to the first `CopyIn` or `SetPad`; without any syscall nothing
is kept. -/
def kept : List Stmt → List Stmt
  | [] => []
  | s :: rest =>
    if rest.any Stmt.isSyscall then s :: kept rest
    else if s.isSyscall then s :: rest.takeWhile (fun x => !x.isSetup)
    else []

/-- A group of statements that forms one fragment: statements without a
syscall, one syscall, then statements that are neither a syscall nor a
`CopyIn`/`SetPad`. -/
def IsFragmentGroup (g : List Stmt) : Prop :=
  ∃ pre s post, g = pre ++ s :: post ∧ s.isSyscall = true ∧
    (∀ x ∈ pre, x.isSyscall = false) ∧
    (∀ x ∈ post, x.isSyscall = false ∧ x.isSetup = false)

/-- The relation between the statements decoded so far and the variables
`calls`, `w` and `seenCall`: the closed fragments are groups of statements, the
open buffer `w` holds the statements after them. -/
def Grouped (S : List Stmt) (calls : List String) (w : String) (seen : Bool) : Prop :=
  ∃ groups tail, calls = groups.map render ∧ w = render tail ∧ S = groups.flatten ++ tail ∧
    (∀ g ∈ groups, IsFragmentGroup g) ∧
    (seen = true → IsFragmentGroup tail) ∧
    (seen = false → (∀ s ∈ tail, s.isSyscall = false) ∧
      (groups = [] ∨ ∃ s t, tail = s :: t ∧ s.isSetup = true))

/-- The states in which the instruction loop of `generateCalls` starts a pass
on the buffer `exec`, together with the instructions decoded by the passes
before it. -/
inductive Reaches (env : Env) (exec : List UInt8) : List Instr → GenState → Prop where
  | init : Reaches env exec [] (initState exec)
  | pass {is : List Instr} {st st2 : GenState} {i : Instr} {rest : List UInt8} :
      Reaches env exec is st →
      decodeInstr env st.exec = .ok (some i, rest) →
      step env st = .ok (.next st2) →
      Reaches env exec (is ++ [i]) st2

/-- A copy-out decoded after an `X` call, then the end marker. -/
def copyoutAfterCall : List UInt8 :=
  encode [0, 0, 2 ^ 64 - 3, 8192, 8, 2 ^ 64 - 1]

/-- The variables after the first pass on `copyoutAfterCall`. -/
def afterCallState : GenState :=
  { exec := encode [2 ^ 64 - 3, 8192, 8, 2 ^ 64 - 1], lastCall := 0, seenCall := true,
    calls := [], w := "\tr[0] = syscall(SYS_X, 0, 0, 0, 0, 0, 0);\n", n := 1 }

/-- A text without its tab characters. -/
def removeTabs (s : String) : String := String.mk (s.data.filter (fun ch => ch ≠ '\t'))

/-- A program that is only the end marker, with no calls. -/
def emptyProg : Prog := { Calls := [], exec := encode [2 ^ 64 - 1] }

/-- The program `sampleProgram` with the names of its calls. -/
def sampleProg : Prog := { Calls := ["open", "X"], exec := sampleProgram }

/-- The fragments generated for `sampleProgram`. -/
def sampleFragments : List String :=
  ["\t*(uint32_t*)0x1000 = (uint32_t)0x2a;\n" ++
     "\tr[1] = syscall(SYS_open, 0xfful, r[0]+3, 0, 0, 0, 0);\n" ++
     "\tif (r[1] != -1)\n\t\tr[2] = *(uint64_t*)0x2000;\n",
   "\tr[3] = syscall(SYS_X, 0, 0, 0, 0, 0, 0);\n"]

/-- The program of one call of table index `c` with constant arguments, each
given as (size, value), followed by the end marker. -/
def singleCall (env : Env) (c : Nat) (args : List (Nat × Nat)) : List UInt8 :=
  encode ([c, args.length] ++ args.flatMap (fun a => [env.ExecArgConst, a.1, a.2]) ++
    [env.ExecInstrEOF])

/-- Number of positions of a text at which a pattern occurs. -/
def occurrences (pat : List Char) : List Char → Nat
  | [] => 0
  | c :: s => (if pat.isPrefixOf (c :: s) then 1 else 0) + occurrences pat s

/-- A text without tab characters. -/
def NoTab (s : String) : Prop := '\t' ∉ s.data

/-- The value `sum_{i<8} b[i] * 256^i` of the first eight bytes of a buffer. -/
def wordValue (b : List UInt8) : Nat :=
  ((List.range 8).map (fun i => (b.getD i 0).toNat * 256 ^ i)).sum

/-- A call of `X` whose single argument has the inline-data type tag. -/
def dataArgProgram : List UInt8 := encode [0, 1, 2, 8, 0, 2 ^ 64 - 1]

/-- A copy-in whose type tag is 7. -/
def badCopyinProgram : List UInt8 := encode [2 ^ 64 - 2, 4096, 7, 4, 42, 2 ^ 64 - 1]

/-- A stream without end marker: a call of `X` whose argument-count word is
the largest word, followed by one constant argument. -/
def hugeCountProgram : List UInt8 := encode [0, 2 ^ 64 - 1, 0, 8, 5]

/-- The words of one syscall argument of the given size: the type tag, the
size, then the value of a constant or the three words of a result reference. -/
def argWords (env : Env) (size : Nat) : Arg → List Nat
  | .const v => [env.ExecArgConst, size, v]
  | .result slot opDiv opAdd => [env.ExecArgResult, size, slot, opDiv, opAdd]

/-- All words of an argument fit in 64 bits. -/
def Arg.IsWord : Arg → Prop
  | .const v => v < 2 ^ 64
  | .result slot opDiv opAdd => slot < 2 ^ 64 ∧ opDiv < 2 ^ 64 ∧ opAdd < 2 ^ 64

/-- The program of one call of table index `c` with the given arguments, each
with its size, followed by the end marker. -/
def callProgram (env : Env) (c : Nat) (args : List (Nat × Arg)) : List UInt8 :=
  encode ([c, args.length] ++ args.flatMap (fun a => argWords env a.1 a.2) ++
    [env.ExecInstrEOF])

/-- Seven arguments for a call: six constants and a result reference. -/
def sevenArgs : List (Nat × Arg) :=
  [(8, .const 1), (8, .const 2), (8, .const 3), (8, .const 4), (8, .const 5), (8, .const 6),
   (8, .result 0 0 7)]

/-- The number written by a list of decimal digits. -/
def decimalValue (cs : List Char) : Nat :=
  cs.foldl (fun a c => 10 * a + (c.toNat - 48)) 0

/-- The value of a lower-case hexadecimal digit. -/
def hexValue (c : Char) : Nat :=
  if c.toNat < 58 then c.toNat - 48 else c.toNat - 87

/-- The bytes written by an escaped text: every group of four characters
`\`, `x`, high digit, low digit gives one byte. -/
def unescape : List Char → List UInt8
  | _ :: _ :: hi :: lo :: rest => UInt8.ofNat (16 * hexValue hi + hexValue lo) :: unescape rest
  | _ => []

/-- A copy-in of the three bytes `0x01 0xab 0xff` (padded to eight bytes) at
address `0x2000`, then the end marker. -/
def dataCopyinProgram : List UInt8 :=
  encode [2 ^ 64 - 2, 8192, 2, 3] ++ [1, 171, 255, 9, 9, 9, 9, 9] ++ encode [2 ^ 64 - 1]

def Instr.isCopyin : Instr → Bool
  | .copyinConst _ _ _ => true
  | .copyinResult _ _ _ _ _ => true
  | .copyinData _ _ _ => true
  | _ => false

/-- A copy-in of the 4-byte constant `0x2a` at address `0x1000`, a call of
`X`, then the end marker. -/
def copyinThenCall : List UInt8 :=
  encode [2 ^ 64 - 2, 4096, 0, 4, 42, 0, 0, 2 ^ 64 - 1]

/-- No opening parenthesis of the text directly follows one of the letters
`p`, `e`, `r`; `prev` is the character before the text. -/
def parenOK : Char → List Char → Bool
  | _, [] => true
  | prev, c :: s =>
    (!(c == '(') || !(prev == 'p' || prev == 'e' || prev == 'r')) && parenOK c s

/-- A text in which no opening parenthesis follows `p`, `e` or `r`, whatever
stands before the text. -/
def ParenSafe (s : String) : Prop := parenOK 'p' s.data = true

instance (s : String) : Decidable (ParenSafe s) :=
  inferInstanceAs (Decidable (parenOK 'p' s.data = true))

/-- A text without opening parenthesis. -/
def NoParen (s : String) : Prop := '(' ∉ s.data

instance (s : String) : Decidable (NoParen s) :=
  inferInstanceAs (Decidable ('(' ∉ s.data))

/-- The buffer and the finished fragments of a state are paren-safe. -/
def GenState.Safe (st : GenState) : Prop :=
  ParenSafe st.w ∧ ∀ c ∈ st.calls, ParenSafe c

/-- The call names of the syscalls of an instruction are among `names`. -/
def Instr.NamesIn (names : List String) : Instr → Prop
  | .syscall _ name _ => name ∈ names
  | _ => True

/-! ## `step` in terms of the instruction view -/

theorem concat_append (xs ys : List String) : concat (xs ++ ys) = concat xs ++ concat ys := by
  induction xs with
  | nil => simp [concat]
  | cons x xs ih => simp [concat, ih, String.append_assoc]

theorem padLoop_eq (k : Nat) (w : String) :
    padLoop k w = w ++ concat (List.replicate k ", 0") := by
  induction k generalizing w with
  | zero => simp [padLoop, concat]
  | succ k ih =>
    rw [padLoop, ih, List.replicate_succ, concat, String.append_assoc]

theorem resultRef_eq (exec : List UInt8) :
    resultRef exec =
      match readRef exec with
      | .error f => .error f
      | .ok ((slot, opDiv, opAdd), rest) => .ok (refText slot opDiv opAdd, rest) := by
  unfold resultRef readRef
  cases h1 : read exec with
  | error f => rfl
  | ok p1 =>
    obtain ⟨a, e1⟩ := p1
    simp only
    cases h2 : read e1 with
    | error f => rfl
    | ok p2 =>
      obtain ⟨d, e2⟩ := p2
      simp only
      cases h3 : read e2 with
      | error f => rfl
      | ok p3 =>
        obtain ⟨s, e3⟩ := p3
        simp only [refText]

theorem argsLoop_eq (env : Env) (k : Nat) (w : String) (exec : List UInt8) :
    argsLoop env k w exec =
      match decodeArgs env k exec with
      | .error f => .error f
      | .ok (args, rest) => .ok (w ++ concat (args.map argText), rest) := by
  induction k generalizing w exec with
  | zero => simp [argsLoop, decodeArgs, concat]
  | succ k ih =>
    unfold argsLoop decodeArgs
    cases h1 : read exec with
    | error f => rfl
    | ok p1 =>
      obtain ⟨typ, e1⟩ := p1
      simp only
      cases h2 : read e1 with
      | error f => rfl
      | ok p2 =>
        obtain ⟨sz, e2⟩ := p2
        simp only
        by_cases hc : typ = env.ExecArgConst
        · simp only [hc, if_true]
          cases h3 : read e2 with
          | error f => rfl
          | ok p3 =>
            obtain ⟨v, e3⟩ := p3
            simp only [ih]
            cases h4 : decodeArgs env k e3 with
            | error f => rfl
            | ok p4 =>
              obtain ⟨args, e4⟩ := p4
              simp [concat, argText, String.append_assoc]
        · simp only [hc, if_false]
          by_cases hr : typ = env.ExecArgResult
          · simp only [hr, if_true, resultRef_eq]
            cases h3 : readRef e2 with
            | error f => rfl
            | ok p3 =>
              obtain ⟨⟨slot, opDiv, opAdd⟩, e3⟩ := p3
              simp only [ih]
              cases h4 : decodeArgs env k e3 with
              | error f => rfl
              | ok p4 =>
                obtain ⟨args, e4⟩ := p4
                simp [concat, argText, String.append_assoc]
          · simp only [hr, if_false]

theorem decodeArgs_length (env : Env) (k : Nat) (exec : List UInt8) (args : List Arg)
    (rest : List UInt8) (h : decodeArgs env k exec = .ok (args, rest)) : args.length = k := by
  induction k generalizing exec args rest with
  | zero =>
    simp only [decodeArgs, Except.ok.injEq, Prod.mk.injEq] at h
    simp [← h.1]
  | succ k ih =>
    unfold decodeArgs at h
    split at h
    · cases h
    · split at h
      · cases h
      · split at h
        · split at h
          · cases h
          · split at h
            · cases h
            · rename_i hd
              simp only [Except.ok.injEq, Prod.mk.injEq] at h
              rw [← h.1, List.length_cons, ih _ _ _ hd]
        · split at h
          · split at h
            · cases h
            · split at h
              · cases h
              · rename_i hd
                simp only [Except.ok.injEq, Prod.mk.injEq] at h
                rw [← h.1, List.length_cons, ih _ _ _ hd]
          · cases h

theorem step_eq (env : Env) (st : GenState) :
    step env st =
      match decodeInstr env st.exec with
      | .error f => .error f
      | .ok (none, rest) => .ok (.done { st with exec := rest })
      | .ok (some i, rest) => .ok (.next { applyInstr st i with exec := rest }) := by
  unfold step decodeInstr
  cases h0 : read st.exec with
  | error f => rfl
  | ok p0 =>
    obtain ⟨instr, e0⟩ := p0
    simp only
    split_ifs with hEOF hCopyin hCopyout hSetPad hCheckPad
    · rfl
    · cases h1 : read e0 with
      | error f => rfl
      | ok p1 =>
        obtain ⟨addr, e1⟩ := p1
        simp only
        cases h2 : read e1 with
        | error f => rfl
        | ok p2 =>
          obtain ⟨typ, e2⟩ := p2
          simp only
          cases h3 : read e2 with
          | error f => rfl
          | ok p3 =>
            obtain ⟨size, e3⟩ := p3
            simp only
            split_ifs with hC hR hD hlen hoff
            · cases h4 : read e3 with
              | error f => rfl
              | ok p4 => rfl
            · rw [resultRef_eq]
              cases h4 : readRef e3 with
              | error f => rfl
              | ok p4 => rfl
            · rfl
            · rfl
            · rfl
            · rfl
    · cases h1 : read e0 with
      | error f => rfl
      | ok p1 =>
        obtain ⟨addr, e1⟩ := p1
        simp only
        cases h2 : read e1 with
        | error f => rfl
        | ok p2 =>
          obtain ⟨size, e2⟩ := p2
          simp only [applyInstr, instrText, copyoutText, String.append_assoc]
    · cases h1 : read e0 with
      | error f => rfl
      | ok p1 =>
        obtain ⟨addr, e1⟩ := p1
        simp only
        cases h2 : read e1 with
        | error f => rfl
        | ok p2 =>
          obtain ⟨size, e2⟩ := p2
          simp only [applyInstr, instrText, String.append_empty]
    · cases h1 : read e0 with
      | error f => rfl
      | ok p1 =>
        obtain ⟨addr, e1⟩ := p1
        simp only
        cases h2 : read e1 with
        | error f => rfl
        | ok p2 =>
          obtain ⟨size, e2⟩ := p2
          simp only [applyInstr]
    · cases h1 : env.Calls.get? instr with
      | none => rfl
      | some callName =>
        simp only
        cases h2 : read e0 with
        | error f => rfl
        | ok p2 =>
          obtain ⟨nargs, e2⟩ := p2
          simp only [argsLoop_eq]
          cases h3 : decodeArgs env nargs e2 with
          | error f => rfl
          | ok p3 =>
            obtain ⟨args, e3⟩ := p3
            simp only [padLoop_eq, applyInstr, instrText, syscallText,
              decodeArgs_length env nargs e2 args e3 h3, String.append_assoc]

theorem applyInstr_exec (st : GenState) (i : Instr) (e : List UInt8) :
    applyInstr { st with exec := e } i = { applyInstr st i with exec := e } := by
  cases i <;> simp only [applyInstr, newCall] <;> split <;> rfl

theorem run_exec (st : GenState) (is : List Instr) (e : List UInt8) :
    run { st with exec := e } is = { run st is with exec := e } := by
  induction is generalizing st with
  | nil => rfl
  | cons i is ih => simp only [run, List.foldl_cons] at ih ⊢; rw [applyInstr_exec, ih]

theorem loop_eq (env : Env) (fuel : Nat) (st : GenState) :
    loop env fuel st =
      match decodeAll env fuel st.exec with
      | none => none
      | some (.error f) => some (.error f)
      | some (.ok (is, rest)) => some (.ok { run st is with exec := rest }) := by
  induction fuel generalizing st with
  | zero => rfl
  | succ fuel ih =>
    unfold loop decodeAll
    rw [step_eq]
    cases h : decodeInstr env st.exec with
    | error f => rfl
    | ok p =>
      obtain ⟨oi, rest⟩ := p
      cases oi with
      | none => rfl
      | some i =>
        simp only [ih]
        cases h2 : decodeAll env fuel rest with
        | none => rfl
        | some r =>
          cases r with
          | error f => rfl
          | ok q =>
            obtain ⟨is, rest2⟩ := q
            simp only [run, List.foldl_cons]
            have := run_exec (applyInstr st i) is rest
            simp only [run] at this
            rw [this]

/-! ## What one pass consumes -/

theorem read_inv {exec rest : List UInt8} {v : Nat} (h : read exec = .ok (v, rest)) :
    ∃ c, c.length = 8 ∧ exec = c ++ rest ∧ v = leValue c ∧
      ∀ x, read (c ++ x) = .ok (v, x) := by
  unfold read at h
  split at h
  · cases h
  · rename_i hlen
    simp only [Except.ok.injEq, Prod.mk.injEq] at h
    obtain ⟨hv, hr⟩ := h
    have h8 : (exec.take 8).length = 8 := by simp; omega
    refine ⟨exec.take 8, h8, ?_, hv.symm, fun x => ?_⟩
    · rw [← hr, List.take_append_drop]
    · unfold read
      have : ¬ (List.take 8 exec ++ x).length < 8 := by
        rw [List.length_append, h8]; omega
      rw [if_neg this, List.take_left' h8, List.drop_left' h8, hv]

theorem readRef_inv {exec rest : List UInt8} {r : Nat × Nat × Nat}
    (h : readRef exec = .ok (r, rest)) :
    ∃ c, c.length = 24 ∧ exec = c ++ rest ∧ ∀ x, readRef (c ++ x) = .ok (r, x) := by
  unfold readRef at h
  split at h
  · cases h
  · rename_i a e1 h1
    split at h
    · cases h
    · rename_i d e2 h2
      split at h
      · cases h
      · rename_i s e3 h3
        simp only [Except.ok.injEq, Prod.mk.injEq] at h
        obtain ⟨hr, rfl⟩ := h
        obtain ⟨c1, l1, rfl, -, k1⟩ := read_inv h1
        obtain ⟨c2, l2, rfl, -, k2⟩ := read_inv h2
        obtain ⟨c3, l3, rfl, -, k3⟩ := read_inv h3
        refine ⟨c1 ++ c2 ++ c3, by simp [l1, l2, l3], by simp, fun x => ?_⟩
        simp only [readRef, List.append_assoc, k1, k2, k3, hr]

theorem decodeArgs_inv (env : Env) {k : Nat} {exec rest : List UInt8} {args : List Arg}
    (h : decodeArgs env k exec = .ok (args, rest)) :
    ∃ c, exec = c ++ rest ∧ ∀ x, decodeArgs env k (c ++ x) = .ok (args, x) := by
  induction k generalizing exec args rest with
  | zero =>
    simp only [decodeArgs, Except.ok.injEq, Prod.mk.injEq] at h
    obtain ⟨rfl, rfl⟩ := h
    exact ⟨[], rfl, fun x => rfl⟩
  | succ k ih =>
    unfold decodeArgs at h
    split at h
    · cases h
    · rename_i typ e1 h1
      split at h
      · cases h
      · rename_i sz e2 h2
        obtain ⟨c1, -, rfl, -, k1⟩ := read_inv h1
        obtain ⟨c2, -, rfl, -, k2⟩ := read_inv h2
        split at h
        · rename_i hc
          split at h
          · cases h
          · rename_i v e3 h3
            split at h
            · cases h
            · rename_i as e4 h4
              simp only [Except.ok.injEq, Prod.mk.injEq] at h
              obtain ⟨rfl, rfl⟩ := h
              obtain ⟨c3, -, rfl, -, k3⟩ := read_inv h3
              obtain ⟨c4, rfl, k4⟩ := ih h4
              refine ⟨c1 ++ c2 ++ c3 ++ c4, by simp, fun x => ?_⟩
              simp only [decodeArgs, List.append_assoc, k1, k2, k3, k4, hc, if_true]
        · rename_i hc
          split at h
          · rename_i hr
            split at h
            · cases h
            · rename_i slot opDiv opAdd e3 h3
              split at h
              · cases h
              · rename_i as e4 h4
                simp only [Except.ok.injEq, Prod.mk.injEq] at h
                obtain ⟨rfl, rfl⟩ := h
                obtain ⟨c3, -, rfl, k3⟩ := readRef_inv h3
                obtain ⟨c4, rfl, k4⟩ := ih h4
                refine ⟨c1 ++ c2 ++ c3 ++ c4, by simp, fun x => ?_⟩
                have hc2 : ¬ env.ExecArgResult = env.ExecArgConst := hr ▸ hc
                simp only [decodeArgs, List.append_assoc, k1, k2, k3, k4, hc2, hr, if_true,
                  if_false]
          · cases h

theorem decodeInstr_inv (env : Env) {exec rest : List UInt8} {oi : Option Instr}
    (h : decodeInstr env exec = .ok (oi, rest)) :
    ∃ c, 8 ≤ c.length ∧ exec = c ++ rest ∧
      (exec.length < 2 ^ 63 → ∀ x, decodeInstr env (c ++ x) = .ok (oi, x)) := by
  unfold decodeInstr at h
  split at h
  · cases h
  · rename_i instr e0 h0
    obtain ⟨c0, l0, rfl, -, k0⟩ := read_inv h0
    split at h
    · -- end marker
      rename_i hEOF
      simp only [Except.ok.injEq, Prod.mk.injEq] at h
      obtain ⟨rfl, rfl⟩ := h
      refine ⟨c0, by omega, rfl, fun _ x => ?_⟩
      simp only [decodeInstr, k0, if_pos hEOF]
    · rename_i hEOF
      split at h
      · -- copy-in
        rename_i hCopyin
        split at h
        · cases h
        · rename_i addr e1 h1
          obtain ⟨c1, l1, rfl, -, k1⟩ := read_inv h1
          split at h
          · cases h
          · rename_i typ e2 h2
            obtain ⟨c2, l2, rfl, -, k2⟩ := read_inv h2
            split at h
            · cases h
            · rename_i size e3 h3
              obtain ⟨c3, l3, rfl, -, k3⟩ := read_inv h3
              split at h
              · rename_i hC
                split at h
                · cases h
                · rename_i arg e4 h4
                  obtain ⟨c4, l4, rfl, -, k4⟩ := read_inv h4
                  simp only [Except.ok.injEq, Prod.mk.injEq] at h
                  obtain ⟨rfl, rfl⟩ := h
                  refine ⟨c0 ++ c1 ++ c2 ++ c3 ++ c4, by simp; omega, by simp, fun _ x => ?_⟩
                  simp only [decodeInstr, List.append_assoc, k0, k1, k2, k3, k4, if_neg hEOF,
                    if_pos hCopyin, if_pos hC]
              · rename_i hC
                split at h
                · rename_i hR
                  split at h
                  · cases h
                  · rename_i slot opDiv opAdd e4 h4
                    obtain ⟨c4, l4, rfl, k4⟩ := readRef_inv h4
                    simp only [Except.ok.injEq, Prod.mk.injEq] at h
                    obtain ⟨rfl, rfl⟩ := h
                    refine ⟨c0 ++ c1 ++ c2 ++ c3 ++ c4, by simp; omega, by simp, fun _ x => ?_⟩
                    simp only [decodeInstr, List.append_assoc, k0, k1, k2, k3, k4, if_neg hEOF,
                      if_pos hCopyin, if_pos hR, if_neg hC]
                · rename_i hR
                  split at h
                  · rename_i hD
                    split at h
                    · cases h
                    · rename_i hsz
                      simp only at h
                      split at h
                      · cases h
                      · rename_i hoff
                        simp only [Except.ok.injEq, Prod.mk.injEq] at h
                        obtain ⟨rfl, rfl⟩ := h
                        refine ⟨c0 ++ c1 ++ c2 ++ c3 ++
                            e3.take ((size + 7) % wordMod / 8 * 8 % wordMod),
                          by simp; omega, by simp, fun hlen x => ?_⟩
                        simp only [List.length_append] at hlen
                        have hsz3 : size < 2 ^ 63 := by omega
                        have hoffeq : (size + 7) % wordMod / 8 * 8 % wordMod
                            = (size + 7) / 8 * 8 := by
                          unfold wordMod; omega
                        rw [hoffeq] at hoff ⊢
                        have hle : size ≤ (size + 7) / 8 * 8 := by omega
                        have htl : (e3.take ((size + 7) / 8 * 8)).length = (size + 7) / 8 * 8 := by
                          rw [List.length_take]; omega
                        have hlen2 : ¬ (List.take ((size + 7) / 8 * 8) e3 ++ x).length < size := by
                          rw [List.length_append, htl]; omega
                        have hlen3 : ¬ (List.take ((size + 7) / 8 * 8) e3 ++ x).length
                            < (size + 7) / 8 * 8 := by
                          rw [List.length_append, htl]; omega
                        have htake : List.take size (List.take ((size + 7) / 8 * 8) e3 ++ x)
                            = List.take size e3 := by
                          rw [List.take_append_of_le_length (by omega), List.take_take,
                            Nat.min_eq_left hle]
                        simp only [decodeInstr, List.append_assoc, k0, k1, k2, k3, if_neg hEOF,
                          if_pos hCopyin, if_pos hD, hoffeq, if_neg hlen2, if_neg hlen3, htake,
                          List.drop_left' htl, if_neg hC, if_neg hR]
                  · cases h
      · rename_i hCopyin
        split at h
        · -- copy-out
          rename_i hCopyout
          split at h
          · cases h
          · rename_i addr e1 h1
            obtain ⟨c1, l1, rfl, -, k1⟩ := read_inv h1
            split at h
            · cases h
            · rename_i size e2 h2
              obtain ⟨c2, l2, rfl, -, k2⟩ := read_inv h2
              simp only [Except.ok.injEq, Prod.mk.injEq] at h
              obtain ⟨rfl, rfl⟩ := h
              refine ⟨c0 ++ c1 ++ c2, by simp; omega, by simp, fun _ x => ?_⟩
              simp only [decodeInstr, List.append_assoc, k0, k1, k2, if_neg hEOF, if_neg hCopyin,
                if_pos hCopyout]
        · rename_i hCopyout
          split at h
          · -- set-pad
            rename_i hSetPad
            split at h
            · cases h
            · rename_i addr e1 h1
              obtain ⟨c1, l1, rfl, -, k1⟩ := read_inv h1
              split at h
              · cases h
              · rename_i size e2 h2
                obtain ⟨c2, l2, rfl, -, k2⟩ := read_inv h2
                simp only [Except.ok.injEq, Prod.mk.injEq] at h
                obtain ⟨rfl, rfl⟩ := h
                refine ⟨c0 ++ c1 ++ c2, by simp; omega, by simp, fun _ x => ?_⟩
                simp only [decodeInstr, List.append_assoc, k0, k1, k2, if_neg hEOF,
                  if_neg hCopyin, if_neg hCopyout, if_pos hSetPad]
          · rename_i hSetPad
            split at h
            · -- check-pad
              rename_i hCheckPad
              split at h
              · cases h
              · rename_i addr e1 h1
                obtain ⟨c1, l1, rfl, -, k1⟩ := read_inv h1
                split at h
                · cases h
                · rename_i size e2 h2
                  obtain ⟨c2, l2, rfl, -, k2⟩ := read_inv h2
                  simp only [Except.ok.injEq, Prod.mk.injEq] at h
                  obtain ⟨rfl, rfl⟩ := h
                  refine ⟨c0 ++ c1 ++ c2, by simp; omega, by simp, fun _ x => ?_⟩
                  simp only [decodeInstr, List.append_assoc, k0, k1, k2, if_neg hEOF,
                    if_neg hCopyin, if_neg hCopyout, if_neg hSetPad, if_pos hCheckPad]
            · -- syscall
              rename_i hCheckPad
              split at h
              · cases h
              · rename_i callName hcall
                split at h
                · cases h
                · rename_i nargs e1 h1
                  obtain ⟨c1, l1, rfl, -, k1⟩ := read_inv h1
                  split at h
                  · cases h
                  · rename_i args e2 h2
                    obtain ⟨c2, rfl, k2⟩ := decodeArgs_inv env h2
                    simp only [Except.ok.injEq, Prod.mk.injEq] at h
                    obtain ⟨rfl, rfl⟩ := h
                    refine ⟨c0 ++ c1 ++ c2, by simp; omega, by simp, fun _ x => ?_⟩
                    simp only [decodeInstr, List.append_assoc, k0, k1, k2, if_neg hEOF,
                      if_neg hCopyin, if_neg hCopyout, if_neg hSetPad, if_neg hCheckPad, hcall]

/-! ## The whole stream -/

theorem decodeAll_ne_none (env : Env) (fuel : Nat) (exec : List UInt8)
    (h : exec.length < fuel) : decodeAll env fuel exec ≠ none := by
  induction fuel generalizing exec with
  | zero => omega
  | succ fuel ih =>
    unfold decodeAll
    cases hd : decodeInstr env exec with
    | error f => simp
    | ok p =>
      obtain ⟨oi, rest⟩ := p
      cases oi with
      | none => simp
      | some i =>
        obtain ⟨c, hc, rfl, -⟩ := decodeInstr_inv env hd
        have hr : rest.length < fuel := by
          simp only [List.length_append] at h; omega
        have := ih rest hr
        simp only
        cases hd2 : decodeAll env fuel rest with
        | none => exact absurd hd2 this
        | some r => cases r <;> simp

theorem decodeAll_mono (env : Env) {fuel fuel2 : Nat} {exec : List UInt8}
    {r : Except Fault (List Instr × List UInt8)} (hle : fuel ≤ fuel2)
    (h : decodeAll env fuel exec = some r) : decodeAll env fuel2 exec = some r := by
  induction fuel generalizing exec fuel2 r with
  | zero => simp [decodeAll] at h
  | succ fuel ih =>
    obtain ⟨f2, rfl⟩ : ∃ f2, fuel2 = f2 + 1 := ⟨fuel2 - 1, by omega⟩
    unfold decodeAll at h ⊢
    cases hd : decodeInstr env exec with
    | error f => rw [hd] at h; exact h
    | ok p =>
      obtain ⟨oi, rest⟩ := p
      rw [hd] at h
      cases oi with
      | none => exact h
      | some i =>
        simp only at h ⊢
        cases hd2 : decodeAll env fuel rest with
        | none => rw [hd2] at h; cases h
        | some r2 =>
          rw [ih (by omega) hd2]
          rw [hd2] at h
          exact h

theorem decodeAll_inv (env : Env) {fuel : Nat} {exec rest : List UInt8} {is : List Instr}
    (h : decodeAll env fuel exec = some (.ok (is, rest))) :
    ∃ c, 8 ≤ c.length ∧ exec = c ++ rest ∧
      (exec.length < 2 ^ 63 → ∀ x, decodeAll env fuel (c ++ x) = some (.ok (is, x))) := by
  induction fuel generalizing exec is with
  | zero => simp [decodeAll] at h
  | succ fuel ih =>
    unfold decodeAll at h
    cases hd : decodeInstr env exec with
    | error f => rw [hd] at h; cases h
    | ok p =>
      obtain ⟨oi, r1⟩ := p
      rw [hd] at h
      obtain ⟨c1, hc1, rfl, k1⟩ := decodeInstr_inv env hd
      cases oi with
      | none =>
        simp only [Option.some.injEq, Except.ok.injEq, Prod.mk.injEq] at h
        obtain ⟨rfl, rfl⟩ := h
        refine ⟨c1, hc1, rfl, fun hlen x => ?_⟩
        unfold decodeAll
        rw [k1 hlen x]
      | some i =>
        simp only at h
        cases hd2 : decodeAll env fuel r1 with
        | none => rw [hd2] at h; cases h
        | some r2 =>
          rw [hd2] at h
          cases r2 with
          | error f => cases h
          | ok q =>
            obtain ⟨is2, rest2⟩ := q
            simp only [Option.some.injEq, Except.ok.injEq, Prod.mk.injEq] at h
            obtain ⟨rfl, rfl⟩ := h
            obtain ⟨c2, hc2, rfl, k2⟩ := ih hd2
            refine ⟨c1 ++ c2, by simp; omega, by simp, fun hlen x => ?_⟩
            have hlen2 : (c2 ++ rest2).length < 2 ^ 63 := by
              simp only [List.length_append] at hlen ⊢; omega
            unfold decodeAll
            rw [List.append_assoc, k1 hlen (c2 ++ x)]
            simp only [k2 hlen2 x]

/-- The fuel that `generateCalls` gives to the loop is never exhausted. -/
theorem generateCalls_ne_none (env : Env) (exec : List UInt8) :
    generateCalls env exec ≠ none := by
  unfold generateCalls generateCallsState
  rw [loop_eq]
  have := decodeAll_ne_none env (exec.length + 1) exec (Nat.lt_succ_self _)
  simp only [initState]
  cases h : decodeAll env (exec.length + 1) exec with
  | none => exact absurd h this
  | some r => cases r <;> simp

theorem newCall_n (st : GenState) : (newCall st).n = st.n := by
  unfold newCall; split <;> rfl

theorem applyInstr_n (st : GenState) (i : Instr) : (applyInstr st i).n = st.n + 1 := by
  cases i <;> simp [applyInstr, newCall_n]

theorem run_n (st : GenState) (is : List Instr) : (run st is).n = st.n + is.length := by
  induction is generalizing st with
  | nil => rfl
  | cons i is ih =>
    simp only [run, List.foldl_cons, List.length_cons] at ih ⊢
    rw [ih, applyInstr_n]; omega

theorem newCall_calls_exec (st : GenState) (e : List UInt8) :
    (newCall { st with exec := e }).calls = (newCall st).calls := by
  unfold newCall; split <;> rfl

/-- `generateCalls` as decoding followed by the pure run over the decoded
instructions and the final `newCall()`. -/
theorem generateCalls_eq (env : Env) (exec : List UInt8) :
    generateCalls env exec =
      match decode env exec with
      | none => none
      | some (.error f) => some (.error f)
      | some (.ok (is, _)) =>
          some (.ok ((newCall (run (initState exec) is)).calls, is.length)) := by
  unfold generateCalls generateCallsState decode
  rw [loop_eq]
  simp only [initState]
  cases h : decodeAll env (exec.length + 1) exec with
  | none => rfl
  | some r =>
    cases r with
    | error f => rfl
    | ok q =>
      obtain ⟨is, rest⟩ := q
      simp only [newCall_calls_exec, newCall_n]
      simp only [run_n, Nat.zero_add]

/-! ## Fragments as groups of statements -/

theorem render_nil : render [] = "" := rfl

theorem render_append (a b : List Stmt) : render (a ++ b) = render a ++ render b := by
  simp [render, concat_append]

theorem render_singleton (x : Stmt) : render [x] = x.text := by
  simp [render, concat]

theorem annotate_append (n lc : Nat) (is js : List Instr) :
    annotate n lc (is ++ js) =
      annotate n lc is ++ annotate (n + is.length) (lastCallAfter n lc is) js := by
  induction is generalizing n lc with
  | nil => simp [annotate, lastCallAfter]
  | cons i is ih =>
    have : n + 1 + is.length = n + (is.length + 1) := by omega
    show annotate n lc (i :: (is ++ js)) = _
    rw [annotate, ih, this]
    simp only [annotate, lastCallAfter, List.length_cons, List.cons_append]

theorem newCall_lastCall (st : GenState) : (newCall st).lastCall = st.lastCall := by
  unfold newCall; split <;> rfl

theorem applyInstr_lastCall (st : GenState) (i : Instr) :
    (applyInstr st i).lastCall = if i.isSyscall then st.n else st.lastCall := by
  cases i <;> simp [applyInstr, newCall_lastCall, newCall_n, Instr.isSyscall]

theorem run_lastCall (st : GenState) (is : List Instr) :
    (run st is).lastCall = lastCallAfter st.n st.lastCall is := by
  induction is generalizing st with
  | nil => rfl
  | cons i is ih =>
    simp only [run, List.foldl_cons, lastCallAfter] at ih ⊢
    rw [ih, applyInstr_n, applyInstr_lastCall]

theorem run_snoc (st : GenState) (is : List Instr) (i : Instr) :
    run st (is ++ [i]) = applyInstr (run st is) i := by
  simp [run, List.foldl_append]

theorem applyInstr_calls (st : GenState) (i : Instr) :
    (applyInstr st i).calls =
      if (i.isSyscall || i.isSetup) && st.seenCall then st.calls ++ [st.w] else st.calls := by
  cases i <;> cases h : st.seenCall <;>
    simp [applyInstr, newCall, Instr.isSyscall, Instr.isSetup, h]

theorem applyInstr_w (st : GenState) (i : Instr) :
    (applyInstr st i).w =
      (if (i.isSyscall || i.isSetup) && st.seenCall then "" else st.w) ++
        instrText st.n st.lastCall i := by
  cases i <;> cases h : st.seenCall <;>
    simp [applyInstr, newCall, Instr.isSyscall, Instr.isSetup, h, instrText]

theorem applyInstr_seenCall (st : GenState) (i : Instr) :
    (applyInstr st i).seenCall =
      if i.isSyscall then true else if i.isSetup then false else st.seenCall := by
  cases i <;> cases h : st.seenCall <;>
    simp [applyInstr, newCall, Instr.isSyscall, Instr.isSetup, h]

theorem Instr.not_setup_of_syscall {i : Instr} (h : i.isSyscall = true) : i.isSetup = false := by
  cases i <;> simp_all [Instr.isSyscall, Instr.isSetup]

/-- One pass of the loop body keeps the grouping. -/
theorem Grouped.step {S : List Stmt} {st : GenState} (i : Instr)
    (h : Grouped S st.calls st.w st.seenCall) :
    Grouped (S ++ [⟨st.n, i, instrText st.n st.lastCall i⟩])
      (applyInstr st i).calls (applyInstr st i).w (applyInstr st i).seenCall := by
  obtain ⟨groups, tail, hcalls, hw, hS, hgood, hseen, hnot⟩ := h
  rw [applyInstr_calls, applyInstr_w, applyInstr_seenCall]
  set x : Stmt := ⟨st.n, i, instrText st.n st.lastCall i⟩ with hx
  have hxs : x.isSyscall = i.isSyscall := rfl
  have hxp : x.isSetup = i.isSetup := rfl
  have hxt : instrText st.n st.lastCall i = x.text := rfl
  rw [hxt]
  cases hseenv : st.seenCall with
  | true =>
    have hgt := hseen hseenv
    cases hsys : i.isSyscall with
    | true =>
      -- flush, then the syscall opens a new group
      refine ⟨groups ++ [tail], [x], ?_, ?_, ?_, ?_, ?_, ?_⟩
      · simp [hcalls, hw]
      · simp [render_singleton]
      · simp [hS]
      · intro g hg
        rcases List.mem_append.1 hg with hg | hg
        · exact hgood g hg
        · rw [List.mem_singleton.1 hg]; exact hgt
      · intro _
        exact ⟨[], x, [], rfl, by rw [hxs, hsys], by simp, by simp⟩
      · intro hf; simp at hf
    | false =>
      cases hset : i.isSetup with
      | true =>
        refine ⟨groups ++ [tail], [x], ?_, ?_, ?_, ?_, ?_, ?_⟩
        · simp [hcalls, hw]
        · simp [render_singleton]
        · simp [hS]
        · intro g hg
          rcases List.mem_append.1 hg with hg | hg
          · exact hgood g hg
          · rw [List.mem_singleton.1 hg]; exact hgt
        · intro hf; simp at hf
        · intro _
          refine ⟨?_, Or.inr ⟨x, [], rfl, by rw [hxp, hset]⟩⟩
          intro s hs
          rw [List.mem_singleton.1 hs, hxs, hsys]
      | false =>
        obtain ⟨pre, s, post, htail, hs, hpre, hpost⟩ := hgt
        refine ⟨groups, tail ++ [x], ?_, ?_, ?_, hgood, ?_, ?_⟩
        · simp [hcalls]
        · simp [render_append, render_singleton, hw]
        · simp [hS]
        · intro _
          refine ⟨pre, s, post ++ [x], by simp [htail], hs, hpre, ?_⟩
          intro y hy
          rcases List.mem_append.1 hy with hy | hy
          · exact hpost y hy
          · rw [List.mem_singleton.1 hy, hxs, hxp, hsys, hset]; exact ⟨rfl, rfl⟩
        · intro hf; simp at hf
  | false =>
    obtain ⟨hfree, hhead⟩ := hnot hseenv
    cases hsys : i.isSyscall with
    | true =>
      refine ⟨groups, tail ++ [x], ?_, ?_, ?_, hgood, ?_, ?_⟩
      · simp [hcalls]
      · simp [render_append, render_singleton, hw]
      · simp [hS]
      · intro _
        exact ⟨tail, x, [], rfl, by rw [hxs, hsys], hfree, by simp⟩
      · intro hf; simp at hf
    | false =>
      refine ⟨groups, tail ++ [x], ?_, ?_, ?_, hgood, ?_, ?_⟩
      · simp [hcalls]
      · simp [render_append, render_singleton, hw]
      · simp [hS]
      · intro hf
        cases hset : i.isSetup <;> simp [hset] at hf
      · intro _
        refine ⟨?_, ?_⟩
        · intro y hy
          rcases List.mem_append.1 hy with hy | hy
          · exact hfree y hy
          · rw [List.mem_singleton.1 hy, hxs, hsys]
        · rcases hhead with hg | ⟨s, t, ht, hs⟩
          · exact Or.inl hg
          · exact Or.inr ⟨s, t ++ [x], by simp [ht], hs⟩

theorem statements_snoc (is : List Instr) (i : Instr) :
    statements (is ++ [i]) =
      statements is ++ [⟨is.length, i, instrText is.length (lastCallAfter 0 0 is) i⟩] := by
  simp [statements, annotate_append, annotate]

/-- The grouping holds after any run from the initial state. -/
theorem run_grouped (exec : List UInt8) (is : List Instr) :
    Grouped (statements is) (run (initState exec) is).calls (run (initState exec) is).w
      (run (initState exec) is).seenCall := by
  induction is using List.reverseRecOn with
  | nil =>
    refine ⟨[], [], rfl, rfl, rfl, by simp, by simp [run, initState], ?_⟩
    intro _
    exact ⟨by simp, Or.inl rfl⟩
  | append_singleton is i ih =>
    have hn : (run (initState exec) is).n = is.length := by
      rw [run_n]; simp [initState]
    have hl : (run (initState exec) is).lastCall = lastCallAfter 0 0 is := by
      rw [run_lastCall]; simp [initState]
    have := Grouped.step i ih
    rw [hn, hl] at this
    rw [run_snoc, statements_snoc]
    exact this

/-! ## The state in which `generateCalls` returns -/

/-- After the final `newCall()` the fragments are groups of statements that
cover a prefix of the decoded statements; what is left over holds no syscall. -/
theorem final_grouped (exec : List UInt8) (is : List Instr) :
    ∃ groups lost, (newCall (run (initState exec) is)).calls = groups.map render ∧
      statements is = groups.flatten ++ lost ∧
      (∀ g ∈ groups, IsFragmentGroup g) ∧
      (∀ s ∈ lost, s.isSyscall = false) ∧
      (lost = [] ∨ groups = [] ∨ ∃ s t, lost = s :: t ∧ s.isSetup = true) := by
  obtain ⟨groups, tail, hcalls, hw, hS, hgood, hseen, hnot⟩ := run_grouped exec is
  cases hs : (run (initState exec) is).seenCall with
  | true =>
    refine ⟨groups ++ [tail], [], ?_, ?_, ?_, by simp, Or.inl rfl⟩
    · simp [newCall, hs, hcalls, hw]
    · simp [hS]
    · intro g hg
      rcases List.mem_append.1 hg with hg | hg
      · exact hgood g hg
      · rw [List.mem_singleton.1 hg]; exact hseen hs
  | false =>
    obtain ⟨hfree, hhead⟩ := hnot hs
    refine ⟨groups, tail, ?_, hS, hgood, hfree, Or.inr hhead⟩
    simp [newCall, hs, hcalls]

theorem IsFragmentGroup.filter {g : List Stmt} (h : IsFragmentGroup g) :
    ∃ pre s post, g = pre ++ s :: post ∧ g.filter Stmt.isSyscall = [s] ∧
      (∀ x ∈ pre, x.isSyscall = false) ∧ (∀ x ∈ post, x.isSyscall = false) := by
  obtain ⟨pre, s, post, rfl, hs, hpre, hpost⟩ := h
  refine ⟨pre, s, post, rfl, ?_, hpre, fun x hx => (hpost x hx).1⟩
  have h1 : pre.filter Stmt.isSyscall = [] := by
    rw [List.filter_eq_nil_iff]; intro x hx; simp [hpre x hx]
  have h2 : post.filter Stmt.isSyscall = [] := by
    rw [List.filter_eq_nil_iff]; intro x hx; simp [(hpost x hx).1]
  simp [List.filter_append, List.filter_cons, h1, h2, hs]

theorem filter_flatten_groups (groups : List (List Stmt))
    (h : ∀ g ∈ groups, IsFragmentGroup g) :
    groups.map (List.filter Stmt.isSyscall) =
      (groups.flatten.filter Stmt.isSyscall).map (fun s => [s]) := by
  induction groups with
  | nil => rfl
  | cons g gs ih =>
    obtain ⟨pre, s, post, -, hf, -, -⟩ := (h g (List.mem_cons_self _ _)).filter
    have := ih (fun g' hg' => h g' (List.mem_cons_of_mem _ hg'))
    rw [List.map_cons, List.flatten_cons, List.filter_append, hf, this]
    rfl

theorem filter_eq_nil_of_free {l : List Stmt} (h : ∀ s ∈ l, s.isSyscall = false) :
    l.filter Stmt.isSyscall = [] := by
  rw [List.filter_eq_nil_iff]; intro x hx; simp [h x hx]

/-! ## The kept statements -/

theorem any_false_of_free {l : List Stmt} (h : ∀ s ∈ l, s.isSyscall = false) :
    l.any Stmt.isSyscall = false := by
  rw [List.any_eq_false]; intro x hx; simp [h x hx]

theorem kept_of_free {l : List Stmt} (h : ∀ s ∈ l, s.isSyscall = false) : kept l = [] := by
  cases l with
  | nil => rfl
  | cons s rest =>
    have h1 : rest.any Stmt.isSyscall = false :=
      any_false_of_free (fun x hx => h x (List.mem_cons_of_mem _ hx))
    have h2 : s.isSyscall = false := h s (List.mem_cons_self _ _)
    simp [kept, h1, h2]

theorem kept_append_of_any (pre rest : List Stmt) (h : rest.any Stmt.isSyscall = true) :
    kept (pre ++ rest) = pre ++ kept rest := by
  induction pre with
  | nil => rfl
  | cons x pre ih =>
    have : (pre ++ rest).any Stmt.isSyscall = true := by
      rw [List.any_append, h, Bool.or_true]
    rw [List.cons_append, kept, if_pos this, ih, List.cons_append]

theorem takeWhile_append_of_all {p : Stmt → Bool} (a b : List Stmt) (h : ∀ x ∈ a, p x = true) :
    (a ++ b).takeWhile p = a ++ b.takeWhile p := by
  induction a with
  | nil => rfl
  | cons x a ih =>
    have hx := h x (List.mem_cons_self _ _)
    simp only [List.cons_append, List.takeWhile_cons, hx, if_true,
      ih (fun y hy => h y (List.mem_cons_of_mem _ hy))]

theorem kept_group_append {g R : List Stmt} (hg : IsFragmentGroup g) :
    kept (g ++ R) =
      if R.any Stmt.isSyscall then g ++ kept R
      else g ++ R.takeWhile (fun x => !x.isSetup) := by
  obtain ⟨pre, s, post, rfl, hs, hpre, hpost⟩ := hg
  have hany : (s :: (post ++ R)).any Stmt.isSyscall = true := by
    simp [List.any_cons, hs]
  have hpostany : post.any Stmt.isSyscall = false :=
    any_false_of_free (fun x hx => (hpost x hx).1)
  simp only [List.append_assoc, List.cons_append]
  rw [kept_append_of_any _ _ hany]
  cases hR : R.any Stmt.isSyscall with
  | true =>
    have h1 : (post ++ R).any Stmt.isSyscall = true := by
      rw [List.any_append, hR, Bool.or_true]
    rw [kept, if_pos h1, kept_append_of_any post R hR]
    simp
  | false =>
    have h1 : ¬ (post ++ R).any Stmt.isSyscall = true := by
      rw [List.any_append, hR, hpostany]; simp
    have h2 : (post ++ R).takeWhile (fun x => !x.isSetup)
        = post ++ R.takeWhile (fun x => !x.isSetup) :=
      takeWhile_append_of_all post R (fun x hx => by simp [(hpost x hx).2])
    rw [kept, if_neg h1, if_pos hs, h2]
    simp

theorem kept_flatten (groups : List (List Stmt)) (lost : List Stmt)
    (hg : ∀ g ∈ groups, IsFragmentGroup g) (hl : ∀ s ∈ lost, s.isSyscall = false)
    (hh : lost = [] ∨ groups = [] ∨ ∃ s t, lost = s :: t ∧ s.isSetup = true) :
    kept (groups.flatten ++ lost) = groups.flatten := by
  induction groups with
  | nil => simpa using kept_of_free hl
  | cons g gs ih =>
    have hg1 := hg g (List.mem_cons_self _ _)
    have hgs : ∀ g' ∈ gs, IsFragmentGroup g' := fun g' hg' => hg g' (List.mem_cons_of_mem _ hg')
    have hh2 : lost = [] ∨ ∃ s t, lost = s :: t ∧ s.isSetup = true := by
      rcases hh with h | h | h
      · exact Or.inl h
      · cases h
      · exact Or.inr h
    rw [List.flatten_cons, List.append_assoc, kept_group_append hg1]
    cases gs with
    | nil =>
      have : ([] ++ lost : List Stmt).any Stmt.isSyscall = false := by
        simpa using any_false_of_free hl
      simp only [List.flatten_nil, this]
      rcases hh2 with h | ⟨s, t, h, hs⟩
      · simp [h]
      · simp [h, hs]
    | cons g2 gs2 =>
      obtain ⟨pre, s, post, h2, hs, -, -⟩ := hg g2 (by simp)
      have hany : ((g2 :: gs2).flatten ++ lost).any Stmt.isSyscall = true := by
        rw [List.any_eq_true]
        exact ⟨s, by simp [h2], hs⟩
      rw [hany, if_pos rfl, ih hgs (hh2.elim Or.inl (fun x => Or.inr (Or.inr x)))]

/-! ## Claims on fragments and slots -/

theorem generateCalls_ok {env : Env} {exec : List UInt8} {calls : List String} {n : Nat}
    (h : generateCalls env exec = some (.ok (calls, n))) :
    ∃ is rest, decode env exec = some (.ok (is, rest)) ∧
      calls = (newCall (run (initState exec) is)).calls ∧ n = is.length := by
  rw [generateCalls_eq] at h
  cases hd : decode env exec with
  | none => rw [hd] at h; cases h
  | some r =>
    rw [hd] at h
    cases r with
    | error f => cases h
    | ok q =>
      obtain ⟨is, rest⟩ := q
      simp only [Option.some.injEq, Except.ok.injEq, Prod.mk.injEq] at h
      exact ⟨is, rest, rfl, h.1.symm, h.2.symm⟩

/-! ## C1: one fragment per syscall -/

/-- C1: when `generateCalls` succeeds, there are as many fragments as decoded
syscalls; the fragments are the texts of consecutive groups of decoded
statements, in decode order, and the `k`-th group consists of statements
without a syscall, the statement of the `k`-th decoded syscall, and again
statements without a syscall. -/
theorem generateCalls_fragment_per_syscall (env : Env) (exec : List UInt8)
    (calls : List String) (n : Nat) (h : generateCalls env exec = some (.ok (calls, n))) :
    ∃ (is : List Instr) (rest : List UInt8) (groups : List (List Stmt)),
      decode env exec = some (.ok (is, rest)) ∧
      calls.length = ((statements is).filter Stmt.isSyscall).length ∧
      calls = groups.map render ∧
      groups.flatten <+: statements is ∧
      ∀ k, k < calls.length → ∃ pre s post,
        groups[k]? = some (pre ++ s :: post) ∧
        ((statements is).filter Stmt.isSyscall)[k]? = some s ∧
        (∀ x ∈ pre, x.isSyscall = false) ∧ (∀ x ∈ post, x.isSyscall = false) ∧
        calls[k]? = some (render pre ++ s.text ++ render post) := by
  obtain ⟨is, rest, hd, hcalls, -⟩ := generateCalls_ok h
  obtain ⟨groups, lost, hg, hS, hgood, hfree, -⟩ := final_grouped exec is
  rw [← hcalls] at hg
  have hfilter : (statements is).filter Stmt.isSyscall = groups.flatten.filter Stmt.isSyscall := by
    rw [hS, List.filter_append, filter_eq_nil_of_free hfree, List.append_nil]
  have hmap := filter_flatten_groups groups hgood
  rw [← hfilter] at hmap
  have hlen : calls.length = ((statements is).filter Stmt.isSyscall).length := by
    have := congrArg List.length hmap
    simp only [List.length_map] at this
    rw [hg, List.length_map, this]
  refine ⟨is, rest, groups, hd, hlen, hg, ⟨lost, hS.symm⟩, ?_⟩
  intro k hk
  have hkg : k < groups.length := by rw [hg, List.length_map] at hk; exact hk
  obtain ⟨pre, s, post, hgk, hf, hpre, hpost⟩ :=
    (hgood groups[k] (List.getElem_mem hkg)).filter
  refine ⟨pre, s, post, ?_, ?_, hpre, hpost, ?_⟩
  · rw [List.getElem?_eq_getElem hkg, hgk]
  · have h1 := congrArg (fun l => l[k]?) hmap
    simp only [List.getElem?_map, List.getElem?_eq_getElem hkg, Option.map_some', hf] at h1
    cases hq : (List.filter Stmt.isSyscall (statements is))[k]? with
    | none => rw [hq] at h1; cases h1
    | some s2 =>
      rw [hq] at h1
      simp only [Option.map_some', Option.some.injEq, List.cons.injEq, and_true] at h1
      rw [h1]
  · rw [hg, List.getElem?_map, List.getElem?_eq_getElem hkg, hgk]
    simp [render, concat_append, concat, String.append_assoc]

set_option maxRecDepth 100000 in
/-- C1 on `sampleProgram`: two syscalls, two fragments. -/
theorem generateCalls_fragment_per_syscall_witness :
    generateCalls sampleEnv sampleProgram =
      some (.ok (["\t*(uint32_t*)0x1000 = (uint32_t)0x2a;\n" ++
                  "\tr[1] = syscall(SYS_open, 0xfful, r[0]+3, 0, 0, 0, 0);\n" ++
                  "\tif (r[1] != -1)\n\t\tr[2] = *(uint64_t*)0x2000;\n",
                 "\tr[3] = syscall(SYS_X, 0, 0, 0, 0, 0, 0);\n"], 4)) ∧
    ∃ (is : List Instr) (rest : List UInt8) (groups : List (List Stmt)),
      decode sampleEnv sampleProgram = some (.ok (is, rest)) ∧
      (["\t*(uint32_t*)0x1000 = (uint32_t)0x2a;\n" ++
          "\tr[1] = syscall(SYS_open, 0xfful, r[0]+3, 0, 0, 0, 0);\n" ++
          "\tif (r[1] != -1)\n\t\tr[2] = *(uint64_t*)0x2000;\n",
        "\tr[3] = syscall(SYS_X, 0, 0, 0, 0, 0, 0);\n"] : List String).length =
        ((statements is).filter Stmt.isSyscall).length ∧
      ["\t*(uint32_t*)0x1000 = (uint32_t)0x2a;\n" ++
          "\tr[1] = syscall(SYS_open, 0xfful, r[0]+3, 0, 0, 0, 0);\n" ++
          "\tif (r[1] != -1)\n\t\tr[2] = *(uint64_t*)0x2000;\n",
        "\tr[3] = syscall(SYS_X, 0, 0, 0, 0, 0, 0);\n"] = groups.map render ∧
      groups.flatten <+: statements is ∧
      ∀ k, k < (["\t*(uint32_t*)0x1000 = (uint32_t)0x2a;\n" ++
          "\tr[1] = syscall(SYS_open, 0xfful, r[0]+3, 0, 0, 0, 0);\n" ++
          "\tif (r[1] != -1)\n\t\tr[2] = *(uint64_t*)0x2000;\n",
        "\tr[3] = syscall(SYS_X, 0, 0, 0, 0, 0, 0);\n"] : List String).length →
        ∃ pre s post,
          groups[k]? = some (pre ++ s :: post) ∧
          ((statements is).filter Stmt.isSyscall)[k]? = some s ∧
          (∀ x ∈ pre, x.isSyscall = false) ∧ (∀ x ∈ post, x.isSyscall = false) ∧
          (["\t*(uint32_t*)0x1000 = (uint32_t)0x2a;\n" ++
              "\tr[1] = syscall(SYS_open, 0xfful, r[0]+3, 0, 0, 0, 0);\n" ++
              "\tif (r[1] != -1)\n\t\tr[2] = *(uint64_t*)0x2000;\n",
            "\tr[3] = syscall(SYS_X, 0, 0, 0, 0, 0, 0);\n"] : List String)[k]? =
            some (render pre ++ s.text ++ render post) :=
  ⟨by rfl, generateCalls_fragment_per_syscall sampleEnv sampleProgram _ 4 (by rfl)⟩

/-! ## C2: the slot count -/

/-- C2, as stated, fails: a copy-in followed by one syscall gives slot count 2,
while one syscall and no copy-out are decoded. -/
theorem slot_count_counterexample :
    generateCalls sampleEnv (encode [2 ^ 64 - 2, 4096, 0, 4, 42, 0, 0, 2 ^ 64 - 1]) =
      some (.ok (["\t*(uint32_t*)0x1000 = (uint32_t)0x2a;\n" ++
                  "\tr[1] = syscall(SYS_X, 0, 0, 0, 0, 0, 0);\n"], 2)) ∧
    decode sampleEnv (encode [2 ^ 64 - 2, 4096, 0, 4, 42, 0, 0, 2 ^ 64 - 1]) =
      some (.ok ([.copyinConst 4096 4 42, .syscall 0 "X" []], [])) ∧
    2 ≠ ([Instr.copyinConst 4096 4 42, Instr.syscall 0 "X" []].filter Instr.isSyscall).length +
        ([Instr.copyinConst 4096 4 42, Instr.syscall 0 "X" []].filter Instr.isCopyout).length :=
  ⟨by rfl, by rfl, by decide⟩

/-- C2 (amended): the returned slot count is the number of decoded
instructions of every kind (`CopyIn`, `CopyOut`, `SetPad`, `CheckPad` and
syscalls), the end marker excluded. -/
theorem generateCalls_slot_count (env : Env) (exec : List UInt8)
    (calls : List String) (n : Nat) (h : generateCalls env exec = some (.ok (calls, n))) :
    ∃ (is : List Instr) (rest : List UInt8),
      decode env exec = some (.ok (is, rest)) ∧ n = is.length := by
  obtain ⟨is, rest, hd, -, hn⟩ := generateCalls_ok h
  exact ⟨is, rest, hd, hn⟩

set_option maxRecDepth 100000 in
/-- C2 (amended) on `sampleProgram`: four instructions, slot count 4. -/
theorem generateCalls_slot_count_witness :
    generateCalls sampleEnv sampleProgram =
      some (.ok (["\t*(uint32_t*)0x1000 = (uint32_t)0x2a;\n" ++
                  "\tr[1] = syscall(SYS_open, 0xfful, r[0]+3, 0, 0, 0, 0);\n" ++
                  "\tif (r[1] != -1)\n\t\tr[2] = *(uint64_t*)0x2000;\n",
                 "\tr[3] = syscall(SYS_X, 0, 0, 0, 0, 0, 0);\n"], 4)) ∧
    ∃ (is : List Instr) (rest : List UInt8),
      decode sampleEnv sampleProgram = some (.ok (is, rest)) ∧ 4 = is.length :=
  ⟨by rfl, generateCalls_slot_count sampleEnv sampleProgram _ 4 (by rfl)⟩

/-! ## C3: one call with constant arguments -/

theorem wordBytes_length (v : Nat) : (wordBytes v).length = 8 := by
  simp [wordBytes]

theorem leValue_wordBytes {v : Nat} (h : v < 2 ^ 64) : leValue (wordBytes v) = v := by
  have hb : ∀ x, (UInt8.ofNat (x % 256)).toNat = x % 256 := fun x =>
    UInt8.toNat_ofNat_of_lt (Nat.mod_lt _ (by decide))
  show leValue [UInt8.ofNat (v / 256 ^ 0 % 256), UInt8.ofNat (v / 256 ^ 1 % 256),
    UInt8.ofNat (v / 256 ^ 2 % 256), UInt8.ofNat (v / 256 ^ 3 % 256),
    UInt8.ofNat (v / 256 ^ 4 % 256), UInt8.ofNat (v / 256 ^ 5 % 256),
    UInt8.ofNat (v / 256 ^ 6 % 256), UInt8.ofNat (v / 256 ^ 7 % 256)] = v
  simp only [leValue, hb]
  norm_num
  omega

theorem read_wordBytes {v : Nat} (h : v < 2 ^ 64) (rest : List UInt8) :
    read (wordBytes v ++ rest) = .ok (v, rest) := by
  unfold read
  have h1 : ¬ (wordBytes v ++ rest).length < 8 := by
    rw [List.length_append, wordBytes_length]; omega
  rw [if_neg h1, List.take_left' (wordBytes_length v), List.drop_left' (wordBytes_length v),
    leValue_wordBytes h]

theorem encode_cons (v : Nat) (ws : List Nat) : encode (v :: ws) = wordBytes v ++ encode ws := by
  simp [encode]

theorem encode_append (a b : List Nat) : encode (a ++ b) = encode a ++ encode b := by
  simp [encode]

theorem encode_nil : encode [] = [] := rfl

theorem decodeArgs_consts (env : Env) (args : List (Nat × Nat)) (rest : List UInt8)
    (hargs : ∀ a ∈ args, a.1 < 2 ^ 64 ∧ a.2 < 2 ^ 64) (hconst : env.ExecArgConst < 2 ^ 64) :
    decodeArgs env args.length
        (encode (args.flatMap (fun a => [env.ExecArgConst, a.1, a.2])) ++ rest) =
      .ok (args.map (fun a => Arg.const a.2), rest) := by
  induction args with
  | nil => rfl
  | cons a args ih =>
    obtain ⟨h1, h2⟩ := hargs a (List.mem_cons_self _ _)
    have ih2 := ih (fun b hb => hargs b (List.mem_cons_of_mem _ hb))
    rw [List.flatMap_cons, encode_append]
    simp only [encode_cons, encode_nil, List.append_nil, List.append_assoc, List.length_cons,
      decodeArgs, read_wordBytes hconst, read_wordBytes h1, read_wordBytes h2, if_true, ih2,
      List.map_cons]

theorem decode_singleCall (env : Env) (c : Nat) (name : String) (args : List (Nat × Nat))
    (hname : env.Calls.get? c = some name) (hc : c < 2 ^ 64)
    (hres : c ≠ env.ExecInstrEOF ∧ c ≠ env.ExecInstrCopyin ∧ c ≠ env.ExecInstrCopyout ∧
      c ≠ env.ExecInstrSetPad ∧ c ≠ env.ExecInstrCheckPad)
    (hargs : ∀ a ∈ args, a.1 < 2 ^ 64 ∧ a.2 < 2 ^ 64)
    (hlen : args.length < 2 ^ 64)
    (hconst : env.ExecArgConst < 2 ^ 64) (heof : env.ExecInstrEOF < 2 ^ 64) :
    decode env (singleCall env c args) =
      some (.ok ([.syscall c name (args.map (fun a => Arg.const a.2))], [])) := by
  obtain ⟨r1, r2, r3, r4, r5⟩ := hres
  have hfuel : 2 ≤ (singleCall env c args).length + 1 := by
    simp only [singleCall, encode_append, encode_cons, List.length_append, wordBytes_length,
      List.cons_append, List.nil_append]
    omega
  have hmain : decodeAll env 2 (singleCall env c args) =
      some (.ok ([.syscall c name (args.map (fun a => Arg.const a.2))], [])) := by
    have hd := decodeArgs_consts env args (wordBytes env.ExecInstrEOF) hargs hconst
    simp only [singleCall, encode_append, encode_cons, encode_nil, List.append_nil,
      List.cons_append, List.nil_append, List.append_assoc, decodeAll, decodeInstr,
      read_wordBytes hc, read_wordBytes hlen, if_neg r1, if_neg r2, if_neg r3, if_neg r4,
      if_neg r5, hname, hd]
    have := read_wordBytes heof []
    rw [List.append_nil] at this
    simp only [this, if_true]
  exact decodeAll_mono env hfuel hmain

theorem generateCalls_singleCall (env : Env) (c : Nat) (name : String) (args : List (Nat × Nat))
    (hname : env.Calls.get? c = some name) (hc : c < 2 ^ 64)
    (hres : c ≠ env.ExecInstrEOF ∧ c ≠ env.ExecInstrCopyin ∧ c ≠ env.ExecInstrCopyout ∧
      c ≠ env.ExecInstrSetPad ∧ c ≠ env.ExecInstrCheckPad)
    (hargs : ∀ a ∈ args, a.1 < 2 ^ 64 ∧ a.2 < 2 ^ 64)
    (hlen : args.length < 2 ^ 64)
    (hconst : env.ExecArgConst < 2 ^ 64) (heof : env.ExecInstrEOF < 2 ^ 64) :
    generateCalls env (singleCall env c args) =
      some (.ok ([syscallText 0 name (args.map (fun a => Arg.const a.2))], 1)) := by
  rw [generateCalls_eq, decode_singleCall env c name args hname hc hres hargs hlen hconst heof]
  simp [run, applyInstr, newCall, initState, instrText]

theorem seqLoop_eq (cs : List String) (w : String) : seqLoop cs w = w ++ concat cs := by
  induction cs generalizing w with
  | nil => simp [seqLoop, concat]
  | cons c cs ih => rw [seqLoop, ih, concat, String.append_assoc]

theorem NoTab_append {a b : String} : NoTab (a ++ b) ↔ NoTab a ∧ NoTab b := by
  simp [NoTab, not_or]

theorem digitChar_ne_tab (d : Nat) : Nat.digitChar d ≠ '\t' := by
  by_cases h : d < 16
  · have hall : ∀ k, k < 16 → Nat.digitChar k ≠ '\t' := by decide
    exact hall d h
  · unfold Nat.digitChar
    iterate 16 rw [if_neg (by omega)]
    decide

theorem toDigitsCore_no_tab (b : Nat) (fuel n : Nat) (ds : List Char) (h : '\t' ∉ ds) :
    '\t' ∉ Nat.toDigitsCore b fuel n ds := by
  induction fuel generalizing n ds with
  | zero => simpa [Nat.toDigitsCore] using h
  | succ fuel ih =>
    have hcons : '\t' ∉ Nat.digitChar (n % b) :: ds := by
      intro hm
      rcases List.mem_cons.1 hm with hm | hm
      · exact digitChar_ne_tab _ hm.symm
      · exact h hm
    unfold Nat.toDigitsCore
    simp only
    split
    · exact hcons
    · exact ih _ _ hcons

theorem NoTab_fmtV (n : Nat) : NoTab (fmtV n) :=
  toDigitsCore_no_tab 10 _ _ _ (by simp)

theorem NoTab_fmtX (n : Nat) : NoTab (fmtX n) :=
  toDigitsCore_no_tab 16 _ _ _ (by simp)

theorem NoTab_concat {l : List String} (h : ∀ s ∈ l, NoTab s) : NoTab (concat l) := by
  induction l with
  | nil => simp [concat, NoTab]
  | cons s l ih =>
    rw [concat, NoTab_append]
    exact ⟨h s (List.mem_cons_self _ _), ih (fun t ht => h t (List.mem_cons_of_mem _ ht))⟩

theorem NoTab_macroBlock {name : String} (nr : Nat) (h : NoTab name) :
    NoTab (macroBlock name nr) := by
  unfold macroBlock
  simp only [NoTab_append, h, NoTab_fmtV nr, and_true, true_and]
  unfold NoTab
  decide

theorem NoTab_macroLoop (tbl : String → Option Nat) (cs handled : List String) (w : String)
    (hw : NoTab w) (hcs : ∀ nm ∈ cs, NoTab nm) : NoTab (macroLoop tbl cs handled w) := by
  induction cs generalizing handled w with
  | nil => simpa [macroLoop] using hw
  | cons c cs ih =>
    have hcs2 : ∀ nm ∈ cs, NoTab nm := fun nm h => hcs nm (List.mem_cons_of_mem _ h)
    unfold macroLoop
    split
    · exact ih _ _ hw hcs2
    · split
      · exact ih _ _ hw hcs2
      · exact ih _ _ (NoTab_append.2 ⟨hw, NoTab_macroBlock _ (hcs c (List.mem_cons_self _ _))⟩)
          hcs2

theorem occurrences_skip (q s t : List Char) (h : '\t' ∉ s) :
    occurrences ('\t' :: q) (s ++ t) = occurrences ('\t' :: q) t := by
  induction s with
  | nil => rfl
  | cons c s ih =>
    have hc : c ≠ '\t' := fun hc => h (hc ▸ List.mem_cons_self _ _)
    have hs : '\t' ∉ s := fun hs => h (List.mem_cons_of_mem _ hs)
    have hb : ('\t' == c) = false := by simpa using fun h2 : '\t' = c => hc h2.symm
    rw [List.cons_append, occurrences, ih hs]
    simp [List.isPrefixOf, hb]

/-- A pattern that starts with the three characters of `\tr[` and has no other
tab occurs once in a text made of a tab-free part, the line of `memset`, the
pattern, and the line of `return`. -/
theorem occurrences_between (A M B R : List Char) (hA : '\t' ∉ A) (hM : '\t' ∉ M)
    (hB : '\t' ∉ B) (hR : '\t' ∉ R) :
    occurrences ('\t' :: 'r' :: '[' :: B)
      (A ++ ('\t' :: 'm' :: M ++ (('\t' :: 'r' :: '[' :: B) ++ '\t' :: 'r' :: 'e' :: R))) = 1 := by
  have hmM : '\t' ∉ 'm' :: M := by
    intro h; rcases List.mem_cons.1 h with h | h
    · exact absurd h (by decide)
    · exact hM h
  have hrB : '\t' ∉ 'r' :: '[' :: B := by
    intro h
    rcases List.mem_cons.1 h with h | h
    · exact absurd h (by decide)
    · rcases List.mem_cons.1 h with h | h
      · exact absurd h (by decide)
      · exact hB h
  have hrR : '\t' ∉ 'r' :: 'e' :: R := by
    intro h
    rcases List.mem_cons.1 h with h | h
    · exact absurd h (by decide)
    · rcases List.mem_cons.1 h with h | h
      · exact absurd h (by decide)
      · exact hR h
  rw [occurrences_skip _ _ _ hA]
  have e1 : ('\t' :: 'm' :: M ++ (('\t' :: 'r' :: '[' :: B) ++ '\t' :: 'r' :: 'e' :: R))
      = '\t' :: (('m' :: M) ++ (('\t' :: 'r' :: '[' :: B) ++ '\t' :: 'r' :: 'e' :: R)) := rfl
  rw [e1, occurrences, occurrences_skip _ _ _ hmM]
  have e2 : (('\t' :: 'r' :: '[' :: B) ++ '\t' :: 'r' :: 'e' :: R)
      = '\t' :: (('r' :: '[' :: B) ++ ('\t' :: 'r' :: 'e' :: R)) := rfl
  have p2 : ('\t' :: 'r' :: '[' :: B).isPrefixOf
      ('\t' :: (('r' :: '[' :: B) ++ ('\t' :: 'r' :: 'e' :: R))) = true := by
    rw [List.isPrefixOf_iff_prefix]
    exact ⟨'\t' :: 'r' :: 'e' :: R, rfl⟩
  rw [e2, occurrences, if_pos p2, occurrences_skip _ _ _ hrB, occurrences]
  have e3 : 'r' :: 'e' :: R = ('r' :: 'e' :: R) ++ [] := by simp
  rw [e3, occurrences_skip _ _ _ hrR]
  simp [List.isPrefixOf, occurrences]

theorem syscallText_consts (name : String) (args : List (Nat × Nat)) :
    syscallText 0 name (args.map (fun a => Arg.const a.2)) =
      "\tr[0] = syscall(SYS_" ++ name ++
        concat (args.map (fun a => ", 0x" ++ fmtX a.2 ++ "ul")) ++
        concat (List.replicate (6 - args.length) ", 0") ++ ");\n" := by
  have h1 : syscallHeadText 0 name = "\tr[0] = syscall(SYS_" ++ name := rfl
  have h2 : (args.map (fun a => Arg.const a.2)).map argText
      = args.map (fun a => ", 0x" ++ fmtX a.2 ++ "ul") := by
    rw [List.map_map]; rfl
  rw [syscallText, h1, h2, List.length_map]

theorem NoTab_constArgs (args : List (Nat × Nat)) :
    NoTab (concat (args.map (fun a => ", 0x" ++ fmtX a.2 ++ "ul"))) := by
  apply NoTab_concat
  intro s hs
  obtain ⟨a, -, rfl⟩ := List.mem_map.1 hs
  simp only [NoTab_append, NoTab_fmtX, and_true, true_and]
  unfold NoTab
  decide

theorem NoTab_zeros (k : Nat) : NoTab (concat (List.replicate k ", 0")) := by
  apply NoTab_concat
  intro s hs
  rw [List.eq_of_mem_replicate hs]
  unfold NoTab
  decide

/-- C3: the program of one call of table index `c`, named `name`, with `k ≤ 6`
constant arguments and the end marker decodes to slot count 1 and to the one
fragment `r[0] = syscall(SYS_name, ...)` with the `k` constants in lower-case
hexadecimal followed by `6-k` literal zeros; the Sequential output of `Write`
has this statement as the whole body between the line of `memset` and the line
of `return`, and, names being free of tabs, contains it exactly once. -/
theorem single_call_statement (env : Env) (tbl : String → Option Nat) (pcalls : List String)
    (c : Nat) (name : String) (args : List (Nat × Nat))
    (hname : env.Calls.get? c = some name) (hc : c < 2 ^ 64)
    (hres : c ≠ env.ExecInstrEOF ∧ c ≠ env.ExecInstrCopyin ∧ c ≠ env.ExecInstrCopyout ∧
      c ≠ env.ExecInstrSetPad ∧ c ≠ env.ExecInstrCheckPad)
    (hk : args.length ≤ 6)
    (hargs : ∀ a ∈ args, a.1 < 2 ^ 64 ∧ a.2 < 2 ^ 64)
    (hconst : env.ExecArgConst < 2 ^ 64) (heof : env.ExecInstrEOF < 2 ^ 64) :
    ∃ stmt : String,
      stmt = "\tr[0] = syscall(SYS_" ++ name ++
        concat (args.map (fun a => ", 0x" ++ fmtX a.2 ++ "ul")) ++
        concat (List.replicate (6 - args.length) ", 0") ++ ");\n" ∧
      args.length + (List.replicate (6 - args.length) ", 0").length = 6 ∧
      generateCalls env (singleCall env c args) = some (.ok ([stmt], 1)) ∧
      Write env tbl ⟨pcalls, singleCall env c args⟩ ⟨false, false⟩ = some (.ok (
        macroLoop tbl pcalls [] header ++ "\n" ++ "long r[1];\n\n" ++ "int main()\n\x7b\n" ++
          "\tmemset(r, -1, sizeof(r));\n" ++ stmt ++ "\treturn 0;\n\x7d\n")) ∧
      (NoTab name → (∀ nm ∈ pcalls, NoTab nm) →
        ∀ out, Write env tbl ⟨pcalls, singleCall env c args⟩ ⟨false, false⟩ = some (.ok out) →
          occurrences stmt.data out.data = 1) := by
  have hgen := generateCalls_singleCall env c name args hname hc hres hargs
    (by omega) hconst heof
  rw [syscallText_consts] at hgen
  have hW : Write env tbl ⟨pcalls, singleCall env c args⟩ ⟨false, false⟩ = some (.ok (
      macroLoop tbl pcalls [] header ++ "\n" ++ "long r[1];\n\n" ++ "int main()\n\x7b\n" ++
        "\tmemset(r, -1, sizeof(r));\n" ++
        ("\tr[0] = syscall(SYS_" ++ name ++
          concat (args.map (fun a => ", 0x" ++ fmtX a.2 ++ "ul")) ++
          concat (List.replicate (6 - args.length) ", 0") ++ ");\n") ++
        "\treturn 0;\n\x7d\n")) := by
    unfold Write
    simp only [hgen, Bool.not_false, Bool.and_self, if_true, seqLoop_eq, concat,
      String.append_empty]
    rfl
  refine ⟨_, rfl, by rw [List.length_replicate]; omega, hgen, hW, ?_⟩
  intro hn hp out hout
  rw [hW] at hout
  simp only [Option.some.injEq, Except.ok.injEq] at hout
  have hA : NoTab (macroLoop tbl pcalls [] header ++ "\n" ++ "long r[1];\n\n" ++
      "int main()\n\x7b\n") := by
    simp only [NoTab_append]
    refine ⟨⟨⟨NoTab_macroLoop tbl pcalls [] header (by unfold NoTab; decide) hp, ?_⟩, ?_⟩, ?_⟩
    all_goals (unfold NoTab; decide)
  have hB : NoTab ("0] = syscall(SYS_" ++ name ++
      concat (args.map (fun a => ", 0x" ++ fmtX a.2 ++ "ul")) ++
      concat (List.replicate (6 - args.length) ", 0") ++ ");\n") := by
    simp only [NoTab_append]
    refine ⟨⟨⟨⟨?_, hn⟩, NoTab_constArgs args⟩, NoTab_zeros _⟩, ?_⟩
    all_goals (unfold NoTab; decide)
  have hM : '\t' ∉ "emset(r, -1, sizeof(r));\n".data := by decide
  have hR : '\t' ∉ "turn 0;\n\x7d\n".data := by decide
  have := occurrences_between _ _ _ _ hA hM hB hR
  rw [← hout]
  simp only [String.data_append, List.append_assoc, List.cons_append, List.nil_append]
    at this ⊢
  exact this

set_option maxRecDepth 100000 in
/-- C3 for the call `X` without arguments: `r[0] = syscall(SYS_X, 0, 0, 0, 0, 0, 0);`. -/
theorem single_call_statement_witness :
    (sampleEnv.Calls.get? 0 = some "X" ∧ 0 < 2 ^ 64 ∧
      (0 ≠ sampleEnv.ExecInstrEOF ∧ 0 ≠ sampleEnv.ExecInstrCopyin ∧
        0 ≠ sampleEnv.ExecInstrCopyout ∧ 0 ≠ sampleEnv.ExecInstrSetPad ∧
        0 ≠ sampleEnv.ExecInstrCheckPad) ∧
      ([] : List (Nat × Nat)).length ≤ 6 ∧
      (∀ a ∈ ([] : List (Nat × Nat)), a.1 < 2 ^ 64 ∧ a.2 < 2 ^ 64) ∧
      sampleEnv.ExecArgConst < 2 ^ 64 ∧ sampleEnv.ExecInstrEOF < 2 ^ 64) ∧
    generateCalls sampleEnv (singleCall sampleEnv 0 []) =
      some (.ok (["\tr[0] = syscall(SYS_X, 0, 0, 0, 0, 0, 0);\n"], 1)) ∧
    ∃ stmt : String,
      stmt = "\tr[0] = syscall(SYS_" ++ "X" ++
        concat (([] : List (Nat × Nat)).map (fun a => ", 0x" ++ fmtX a.2 ++ "ul")) ++
        concat (List.replicate (6 - ([] : List (Nat × Nat)).length) ", 0") ++ ");\n" ∧
      ([] : List (Nat × Nat)).length +
        (List.replicate (6 - ([] : List (Nat × Nat)).length) ", 0").length = 6 ∧
      generateCalls sampleEnv (singleCall sampleEnv 0 []) = some (.ok ([stmt], 1)) ∧
      Write sampleEnv sampleNewSyscalls ⟨["X"], singleCall sampleEnv 0 []⟩ ⟨false, false⟩ =
        some (.ok (
          macroLoop sampleNewSyscalls ["X"] [] header ++ "\n" ++ "long r[1];\n\n" ++
            "int main()\n\x7b\n" ++ "\tmemset(r, -1, sizeof(r));\n" ++ stmt ++
            "\treturn 0;\n\x7d\n")) ∧
      (NoTab "X" → (∀ nm ∈ ["X"], NoTab nm) →
        ∀ out,
          Write sampleEnv sampleNewSyscalls ⟨["X"], singleCall sampleEnv 0 []⟩ ⟨false, false⟩ =
            some (.ok out) →
          occurrences stmt.data out.data = 1) :=
  ⟨⟨by rfl, by decide, by decide, by decide, by simp, by decide, by decide⟩, by rfl,
    single_call_statement sampleEnv sampleNewSyscalls ["X"] 0 "X" [] (by rfl) (by decide)
      (by decide) (by decide) (by simp) (by decide) (by decide)⟩

/-! ## C4: copy-out statements -/

theorem lastCallAfter_append (n lc : Nat) (a b : List Instr) :
    lastCallAfter n lc (a ++ b) = lastCallAfter (n + a.length) (lastCallAfter n lc a) b := by
  induction a generalizing n lc with
  | nil => rfl
  | cons i a ih =>
    show lastCallAfter n lc (i :: (a ++ b)) = _
    rw [lastCallAfter, ih, lastCallAfter, List.length_cons]
    have : n + 1 + a.length = n + (a.length + 1) := by omega
    rw [this]

theorem lastCallAfter_of_free (n lc : Nat) (is : List Instr)
    (h : ∀ x ∈ is, x.isSyscall = false) : lastCallAfter n lc is = lc := by
  induction is generalizing n with
  | nil => rfl
  | cons i is ih =>
    rw [lastCallAfter, h i (List.mem_cons_self _ _)]
    exact ih (n + 1) (fun x hx => h x (List.mem_cons_of_mem _ hx))

theorem lastCallAfter_last (n lc : Nat) (pre post : List Instr) (i : Instr)
    (hi : i.isSyscall = true) (h : ∀ x ∈ post, x.isSyscall = false) :
    lastCallAfter n lc (pre ++ i :: post) = n + pre.length := by
  rw [lastCallAfter_append, lastCallAfter, hi, lastCallAfter_of_free _ _ _ h]
  rfl

theorem Reaches.eq_run {env : Env} {exec : List UInt8} {is : List Instr} {st : GenState}
    (h : Reaches env exec is st) :
    st = { run (initState exec) is with exec := st.exec } := by
  induction h with
  | init => rfl
  | pass hr hd hs ih =>
    rename_i is st st2 i rest
    rw [step_eq, hd] at hs
    simp only [Except.ok.injEq, Step.next.injEq] at hs
    rw [← hs, run_snoc]
    simp only
    rw [ih, applyInstr_exec]

theorem Reaches.n_eq {env : Env} {exec : List UInt8} {is : List Instr} {st : GenState}
    (h : Reaches env exec is st) : st.n = is.length := by
  rw [h.eq_run]; simp [run_n, initState]

theorem Reaches.lastCall_eq {env : Env} {exec : List UInt8} {is : List Instr} {st : GenState}
    (h : Reaches env exec is st) : st.lastCall = lastCallAfter 0 0 is := by
  rw [h.eq_run]; simp [run_lastCall, initState]

/-- Every instruction of a decoded stream is decoded in a state that the loop
reaches. -/
theorem Reaches.of_decodeAll {env : Env} {exec : List UInt8} {fuel : Nat} {is0 is : List Instr}
    {st0 : GenState} {rest : List UInt8} (h0 : Reaches env exec is0 st0)
    (hd : decodeAll env fuel st0.exec = some (.ok (is, rest)))
    (pre post : List Instr) (i : Instr) (his : is = pre ++ i :: post) :
    ∃ st e, Reaches env exec (is0 ++ pre) st ∧ decodeInstr env st.exec = .ok (some i, e) := by
  induction fuel generalizing is0 is st0 pre with
  | zero => simp [decodeAll] at hd
  | succ fuel ih =>
    unfold decodeAll at hd
    cases h1 : decodeInstr env st0.exec with
    | error f => rw [h1] at hd; cases hd
    | ok p =>
      obtain ⟨oi, r1⟩ := p
      rw [h1] at hd
      cases oi with
      | none =>
        simp only [Option.some.injEq, Except.ok.injEq, Prod.mk.injEq] at hd
        rw [← hd.1] at his
        cases pre <;> cases his
      | some i1 =>
        simp only at hd
        cases h2 : decodeAll env fuel r1 with
        | none => rw [h2] at hd; cases hd
        | some r2 =>
          rw [h2] at hd
          cases r2 with
          | error f => cases hd
          | ok q =>
            obtain ⟨is2, rest2⟩ := q
            simp only [Option.some.injEq, Except.ok.injEq, Prod.mk.injEq] at hd
            obtain ⟨hd1, rfl⟩ := hd
            have hstep : step env st0 = .ok (.next { applyInstr st0 i1 with exec := r1 }) := by
              rw [step_eq, h1]
            have hr1 := Reaches.pass h0 h1 hstep
            cases pre with
            | nil =>
              rw [← hd1] at his
              simp only [List.nil_append, List.cons.injEq] at his
              refine ⟨st0, r1, by simpa using h0, ?_⟩
              rw [h1, his.1]
            | cons a pre2 =>
              rw [← hd1] at his
              simp only [List.cons_append, List.cons.injEq] at his
              obtain ⟨rfl, his2⟩ := his
              obtain ⟨st, e, hr, he⟩ := ih hr1 h2 pre2 his2
              refine ⟨st, e, ?_, he⟩
              simpa using hr

/-- C4: when the loop, having decoded the instructions `is`, decodes a
`CopyOut(addr, size)`, the pass appends exactly the guard line on `r[m]` and
the assignment line to `r[n]`; `n` is the decode position of the copy-out, the
width is `size*8` as a machine word, and `m` is the position of the most
recently decoded syscall when there is one (then `m ≠ n`), and 0 otherwise. -/
theorem copyout_emits_guarded_assignment (env : Env) (exec : List UInt8) (is : List Instr)
    (st : GenState) (addr size : Nat) (rest : List UInt8)
    (hr : Reaches env exec is st)
    (hd : decodeInstr env st.exec = .ok (some (.copyout addr size), rest)) :
    ∃ (st2 : GenState) (m : Nat),
      step env st = .ok (.next st2) ∧
      st2.w = st.w ++ ("\tif (r[" ++ fmtV m ++ "] != -1)\n" ++
        ("\t\tr[" ++ fmtV is.length ++ "] = *(uint" ++ fmtV (size * 8 % 2 ^ 64) ++ "_t*)0x" ++
          fmtX addr ++ ";\n")) ∧
      st2.calls = st.calls ∧ st2.n = is.length + 1 ∧
      (∀ pre i post, is = pre ++ i :: post → i.isSyscall = true →
        (∀ x ∈ post, x.isSyscall = false) → m = pre.length ∧ m ≠ is.length) ∧
      ((∀ x ∈ is, x.isSyscall = false) → m = 0) := by
  refine ⟨{ applyInstr st (.copyout addr size) with exec := rest }, st.lastCall, ?_, ?_, ?_, ?_,
    ?_, ?_⟩
  · rw [step_eq, hd]
  · simp only [applyInstr, instrText, copyoutText, copyoutGuardText, copyoutAssignText, bits,
      wordMod, hr.n_eq]
  · rfl
  · simp only [applyInstr, hr.n_eq]
  · intro pre i post his hi hpost
    rw [hr.lastCall_eq, his, lastCallAfter_last 0 0 pre post i hi hpost]
    simp
  · intro hfree
    rw [hr.lastCall_eq, lastCallAfter_of_free 0 0 is hfree]

/-- C4 on `copyoutAfterCall`: the copy-out at position 1 is guarded by `r[0]`. -/
theorem copyout_emits_guarded_assignment_witness :
    Reaches sampleEnv copyoutAfterCall [.syscall 0 "X" []] afterCallState ∧
    decodeInstr sampleEnv afterCallState.exec =
      .ok (some (.copyout 8192 8), encode [2 ^ 64 - 1]) ∧
    ∃ (st2 : GenState) (m : Nat),
      step sampleEnv afterCallState = .ok (.next st2) ∧
      st2.w = afterCallState.w ++ ("\tif (r[" ++ fmtV m ++ "] != -1)\n" ++
        ("\t\tr[" ++ fmtV [Instr.syscall 0 "X" []].length ++ "] = *(uint" ++
          fmtV (8 * 8 % 2 ^ 64) ++ "_t*)0x" ++ fmtX 8192 ++ ";\n")) ∧
      st2.calls = afterCallState.calls ∧ st2.n = [Instr.syscall 0 "X" []].length + 1 ∧
      (∀ pre i post, [Instr.syscall 0 "X" []] = pre ++ i :: post → i.isSyscall = true →
        (∀ x ∈ post, x.isSyscall = false) →
          m = pre.length ∧ m ≠ [Instr.syscall 0 "X" []].length) ∧
      ((∀ x ∈ [Instr.syscall 0 "X" []], x.isSyscall = false) → m = 0) :=
  have hr : Reaches sampleEnv copyoutAfterCall [.syscall 0 "X" []] afterCallState :=
    @Reaches.pass sampleEnv copyoutAfterCall [] (initState copyoutAfterCall) afterCallState
      (.syscall 0 "X" []) (encode [2 ^ 64 - 3, 8192, 8, 2 ^ 64 - 1])
      Reaches.init (by rfl) (by rfl)
  ⟨hr, by rfl,
    copyout_emits_guarded_assignment sampleEnv copyoutAfterCall _ afterCallState 8192 8
      (encode [2 ^ 64 - 1]) hr (by rfl)⟩

/-! ## C5: the macro section -/

/-- The macro loop appends one block per name that has a table entry and was
not handled before, in the order of first occurrence. -/
theorem macroLoop_spec (tbl : String → Option Nat) (cs handled : List String) (w : String) :
    ∃ names : List (String × Nat),
      macroLoop tbl cs handled w = w ++ concat (names.map (fun x => macroBlock x.1 x.2)) ∧
      (∀ nm nr, (nm, nr) ∈ names ↔ nm ∈ cs ∧ tbl nm = some nr ∧ nm ∉ handled) ∧
      (names.map Prod.fst).Nodup ∧
      names.Pairwise (fun a b => cs.indexOf a.1 < cs.indexOf b.1) := by
  induction cs generalizing handled w with
  | nil => exact ⟨[], by simp [macroLoop, concat], by simp, by simp, by simp⟩
  | cons c cs ih =>
    unfold macroLoop
    cases hc : tbl c with
    | none =>
      obtain ⟨names, hout, hmem, hnd, hpw⟩ := ih handled w
      refine ⟨names, hout, ?_, hnd, ?_⟩
      · intro nm nr
        rw [hmem, List.mem_cons]
        constructor
        · rintro ⟨h1, h2, h3⟩; exact ⟨Or.inr h1, h2, h3⟩
        · rintro ⟨h1 | h1, h2, h3⟩
          · rw [h1, hc] at h2; cases h2
          · exact ⟨h1, h2, h3⟩
      · refine hpw.imp_of_mem ?_
        intro a b ha hb hab
        have hane : c ≠ a.1 := by
          intro h; have := ((hmem a.1 a.2).1 ha).2.1; rw [← h, hc] at this; cases this
        have hbne : c ≠ b.1 := by
          intro h; have := ((hmem b.1 b.2).1 hb).2.1; rw [← h, hc] at this; cases this
        rw [List.indexOf_cons_ne _ hane, List.indexOf_cons_ne _ hbne]
        omega
    | some nr0 =>
      simp only
      by_cases hh : c ∈ handled
      · rw [if_pos hh]
        obtain ⟨names, hout, hmem, hnd, hpw⟩ := ih handled w
        refine ⟨names, hout, ?_, hnd, ?_⟩
        · intro nm nr
          rw [hmem, List.mem_cons]
          constructor
          · rintro ⟨h1, h2, h3⟩; exact ⟨Or.inr h1, h2, h3⟩
          · rintro ⟨h1 | h1, h2, h3⟩
            · rw [h1] at h3; exact absurd hh h3
            · exact ⟨h1, h2, h3⟩
        · refine hpw.imp_of_mem ?_
          intro a b ha hb hab
          have hane : c ≠ a.1 := by
            intro h; exact ((hmem a.1 a.2).1 ha).2.2 (h ▸ hh)
          have hbne : c ≠ b.1 := by
            intro h; exact ((hmem b.1 b.2).1 hb).2.2 (h ▸ hh)
          rw [List.indexOf_cons_ne _ hane, List.indexOf_cons_ne _ hbne]
          omega
      · rw [if_neg hh]
        obtain ⟨names, hout, hmem, hnd, hpw⟩ := ih (c :: handled) (w ++ macroBlock c nr0)
        have hne : ∀ a ∈ names, c ≠ a.1 := by
          intro a ha h
          exact ((hmem a.1 a.2).1 ha).2.2 (h ▸ List.mem_cons_self _ _)
        refine ⟨(c, nr0) :: names, ?_, ?_, ?_, ?_⟩
        · rw [hout, List.map_cons, concat, String.append_assoc]
        · intro nm nr
          constructor
          · intro h
            rcases List.mem_cons.1 h with h | h
            · simp only [Prod.mk.injEq] at h
              obtain ⟨rfl, rfl⟩ := h
              exact ⟨List.mem_cons_self _ _, hc, hh⟩
            · obtain ⟨h1, h2, h3⟩ := (hmem nm nr).1 h
              exact ⟨List.mem_cons_of_mem _ h1, h2, fun h => h3 (List.mem_cons_of_mem _ h)⟩
          · rintro ⟨h1, h2, h3⟩
            by_cases hnc : nm = c
            · subst hnc
              rw [hc] at h2
              simp only [Option.some.injEq] at h2
              rw [h2]; exact List.mem_cons_self _ _
            · refine List.mem_cons_of_mem _ ((hmem nm nr).2 ⟨?_, h2, ?_⟩)
              · exact (List.mem_cons.1 h1).resolve_left hnc
              · intro h
                rcases List.mem_cons.1 h with h | h
                · exact hnc h
                · exact h3 h
        · rw [List.map_cons, List.nodup_cons]
          refine ⟨?_, hnd⟩
          intro h
          obtain ⟨a, ha, hac⟩ := List.mem_map.1 h
          exact hne a ha hac.symm
        · rw [List.pairwise_cons]
          constructor
          · intro b hb
            rw [List.indexOf_cons_self, List.indexOf_cons_ne _ (hne b hb)]
            omega
          · refine hpw.imp_of_mem ?_
            intro a b ha hb hab
            rw [List.indexOf_cons_ne _ (hne a ha), List.indexOf_cons_ne _ (hne b hb)]
            omega

theorem caseLoop_eq (i : Nat) (cs : List String) (w : String) :
    caseLoop i cs w = w ++ concat ((cs.enumFrom i).map (fun ic =>
      "\tcase " ++ fmtV ic.1 ++ ":\n" ++ replaceTabs ic.2 ++ "\t\tbreak;\n")) := by
  induction cs generalizing i w with
  | nil => simp [caseLoop, concat]
  | cons c cs ih =>
    rw [caseLoop, ih, List.enumFrom_cons, List.map_cons, concat]
    simp only [String.append_assoc]

/-- Every output of `Write` starts with the header, the text of the macro loop
and a blank line. -/
theorem Write_begins (env : Env) (tbl : String → Option Nat) (p : Prog) (opts : Options)
    (out : String) (h : Write env tbl p opts = some (.ok out)) :
    ∃ tail, out = macroLoop tbl p.Calls [] header ++ "\n" ++ tail := by
  have key : ∀ A T : String, A ++ ("\n" ++ T) = out → ∃ tail, out = A ++ "\n" ++ tail :=
    fun A T hT => ⟨T, by rw [← hT, String.append_assoc]⟩
  unfold Write at h
  cases hg : generateCalls env p.exec with
  | none => simp only [hg] at h; cases h
  | some r =>
    cases r with
    | error f => simp only [hg] at h; cases h
    | ok q =>
      obtain ⟨calls, n⟩ := q
      obtain ⟨t, c⟩ := opts
      cases t <;> cases c <;>
        simp only [hg, Bool.not_true, Bool.not_false, Bool.and_true, Bool.and_false,
          Bool.and_self, Bool.false_eq_true, if_true, if_false, seqLoop_eq, caseLoop_eq,
          String.append_assoc, Option.some.injEq, Except.ok.injEq] at h <;>
        exact key _ _ h

/-- C5: the macro section written by `Write`, between the header and the blank
line that follows it, is the concatenation of one block per distinct call name
that has an entry in the table of new syscall numbers, in the order of first
occurrence in the call list; names without an entry give no block, and a
repeated name gives its block once. -/
theorem macro_section_first_occurrence (tbl : String → Option Nat) (calls : List String) :
    ∃ names : List (String × Nat),
      macroLoop tbl calls [] header =
        header ++ concat (names.map (fun x =>
          "#ifndef SYS_" ++ x.1 ++ "\n" ++ ("#define SYS_" ++ x.1 ++ " " ++ fmtV x.2 ++ "\n") ++
            "#endif\n")) ∧
      (∀ (env : Env) (exec : List UInt8) (opts : Options) (out : String),
        Write env tbl ⟨calls, exec⟩ opts = some (.ok out) →
          ∃ tail, out = header ++ concat (names.map (fun x =>
            "#ifndef SYS_" ++ x.1 ++ "\n" ++
              ("#define SYS_" ++ x.1 ++ " " ++ fmtV x.2 ++ "\n") ++ "#endif\n")) ++ "\n" ++
            tail) ∧
      (∀ nm nr, (nm, nr) ∈ names ↔ nm ∈ calls ∧ tbl nm = some nr) ∧
      (names.map Prod.fst).Nodup ∧
      names.Pairwise (fun a b => calls.indexOf a.1 < calls.indexOf b.1) := by
  obtain ⟨names, hout, hmem, hnd, hpw⟩ := macroLoop_spec tbl calls [] header
  refine ⟨names, hout, ?_, ?_, hnd, hpw⟩
  · intro env exec opts out h
    obtain ⟨tail, ht⟩ := Write_begins env tbl ⟨calls, exec⟩ opts out h
    exact ⟨tail, by rw [ht]; exact congrArg (fun x => x ++ "\n" ++ tail) hout⟩
  · intro nm nr
    rw [hmem]
    simp

/-! ## C6: dispatch branches -/

theorem removeTabs_replaceTabs (c : String) : removeTabs (replaceTabs c) = removeTabs c := by
  unfold removeTabs replaceTabs
  congr 1
  simp only
  induction c.data with
  | nil => rfl
  | cons ch l ih =>
    rw [List.flatMap_cons, List.filter_append, ih]
    by_cases h : ch = '\t'
    · subst h; rfl
    · simp [h, List.filter_cons]

theorem length_replaceTabs (c : String) :
    (replaceTabs c).length = c.length + c.data.count '\t' := by
  unfold replaceTabs
  show (c.data.flatMap _).length = c.data.length + _
  induction c.data with
  | nil => rfl
  | cons ch l ih =>
    rw [List.flatMap_cons, List.length_append, ih, List.length_cons, List.count_cons]
    by_cases h : ch = '\t'
    · subst h; simp; omega
    · have h2 : (ch == '\t') = false := by simpa using h
      simp [h, h2]; omega

/-- C6: in Threaded mode the dispatch function has one branch per fragment,
labelled `case 0:` to `case m-1:` in order; the body of branch `i` is fragment
`i` with every tab doubled, so that it equals the fragment once tabs are
deleted; the Sequential output holds the fragments themselves. -/
theorem threaded_branch_per_fragment (env : Env) (tbl : String → Option Nat) (p : Prog)
    (calls : List String) (n : Nat) (h : generateCalls env p.exec = some (.ok (calls, n))) :
    Write env tbl p ⟨true, false⟩ = some (.ok (
      (macroLoop tbl p.Calls [] header ++ "\n" ++ ("long r[" ++ fmtV n ++ "];\n\n") ++
        "void *thr(void *arg)\n\x7b\n" ++ "\tswitch ((long)arg) \x7b\n") ++
      concat (calls.enum.map (fun ic =>
        "\tcase " ++ fmtV ic.1 ++ ":\n" ++ replaceTabs ic.2 ++ "\t\tbreak;\n")) ++
      ("\t\x7d\n" ++ "\treturn 0;\n\x7d\n\n" ++ "int main()\n\x7b\n" ++ "\tlong i;\n" ++
        ("\tpthread_t th[" ++ fmtV calls.length ++ "];\n") ++ "\n" ++
        "\tmemset(r, -1, sizeof(r));\n" ++
        ("\tfor (i = 0; i < " ++ fmtV calls.length ++ "; i++) \x7b\n") ++
        "\t\tpthread_create(&th[i], 0, thr, (void*)i);\n" ++ "\t\tusleep(10000);\n" ++
        "\t\x7d\n" ++ "\tusleep(100000);\n" ++ "\treturn 0;\n\x7d\n"))) ∧
    Write env tbl p ⟨false, false⟩ = some (.ok (
      (macroLoop tbl p.Calls [] header ++ "\n" ++ ("long r[" ++ fmtV n ++ "];\n\n") ++
        "int main()\n\x7b\n" ++ "\tmemset(r, -1, sizeof(r));\n") ++
      concat calls ++ "\treturn 0;\n\x7d\n")) ∧
    (calls.enum.map Prod.fst = List.range calls.length) ∧
    (∀ c, removeTabs (replaceTabs c) = removeTabs c ∧
      (replaceTabs c).length = c.length + c.data.count '\t') := by
  refine ⟨?_, ?_, ?_, fun c => ⟨removeTabs_replaceTabs c, length_replaceTabs c⟩⟩
  · unfold Write
    simp only [h, Bool.not_true, Bool.not_false, Bool.and_true, Bool.false_and, Bool.false_eq_true,
      if_false, caseLoop_eq, String.append_assoc, List.enum]
  · unfold Write
    simp only [h, Bool.not_false, Bool.and_self, if_true, seqLoop_eq, String.append_assoc]
  · simp [List.enum, List.enumFrom_map_fst, List.range_eq_range']

set_option maxRecDepth 100000 in
/-- C6 on `sampleProg`. -/
theorem threaded_branch_per_fragment_witness :
    generateCalls sampleEnv sampleProg.exec = some (.ok (sampleFragments, 4)) ∧
    (Write sampleEnv sampleNewSyscalls sampleProg ⟨true, false⟩ = some (.ok (
      (macroLoop sampleNewSyscalls sampleProg.Calls [] header ++ "\n" ++ ("long r[" ++ fmtV 4 ++ "];\n\n") ++
        "void *thr(void *arg)\n\x7b\n" ++ "\tswitch ((long)arg) \x7b\n") ++
      concat (sampleFragments.enum.map (fun ic =>
        "\tcase " ++ fmtV ic.1 ++ ":\n" ++ replaceTabs ic.2 ++ "\t\tbreak;\n")) ++
      ("\t\x7d\n" ++ "\treturn 0;\n\x7d\n\n" ++ "int main()\n\x7b\n" ++ "\tlong i;\n" ++
        ("\tpthread_t th[" ++ fmtV sampleFragments.length ++ "];\n") ++ "\n" ++
        "\tmemset(r, -1, sizeof(r));\n" ++
        ("\tfor (i = 0; i < " ++ fmtV sampleFragments.length ++ "; i++) \x7b\n") ++
        "\t\tpthread_create(&th[i], 0, thr, (void*)i);\n" ++ "\t\tusleep(10000);\n" ++
        "\t\x7d\n" ++ "\tusleep(100000);\n" ++ "\treturn 0;\n\x7d\n"))) ∧
    Write sampleEnv sampleNewSyscalls sampleProg ⟨false, false⟩ = some (.ok (
      (macroLoop sampleNewSyscalls sampleProg.Calls [] header ++ "\n" ++ ("long r[" ++ fmtV 4 ++ "];\n\n") ++
        "int main()\n\x7b\n" ++ "\tmemset(r, -1, sizeof(r));\n") ++
      concat sampleFragments ++ "\treturn 0;\n\x7d\n")) ∧
    (sampleFragments.enum.map Prod.fst = List.range sampleFragments.length) ∧
    (∀ c, removeTabs (replaceTabs c) = removeTabs c ∧
      (replaceTabs c).length = c.length + c.data.count '\t')) :=
  ⟨by rfl, threaded_branch_per_fragment sampleEnv sampleNewSyscalls sampleProg sampleFragments 4 (by rfl)⟩

/-! ## C7: the second spawn loop -/

/-- C7: the Collision output is the Threaded output with a second spawn loop
inserted right before the final `usleep(100000);`. Both loops run `i` from 0
to the number of fragments and create one thread per iteration; the first
sleeps on every iteration, the second only under `if (i%2==0)`. -/
theorem collision_adds_second_spawn_loop (env : Env) (tbl : String → Option Nat) (p : Prog)
    (calls : List String) (n : Nat) (h : generateCalls env p.exec = some (.ok (calls, n))) :
    ∃ pre : String,
      Write env tbl p ⟨true, false⟩ = some (.ok (pre ++
        (("\tfor (i = 0; i < " ++ fmtV calls.length ++ "; i++) \x7b\n") ++
          "\t\tpthread_create(&th[i], 0, thr, (void*)i);\n" ++ "\t\tusleep(10000);\n" ++
          "\t\x7d\n") ++
        ("\tusleep(100000);\n" ++ "\treturn 0;\n\x7d\n"))) ∧
      Write env tbl p ⟨true, true⟩ = some (.ok (pre ++
        (("\tfor (i = 0; i < " ++ fmtV calls.length ++ "; i++) \x7b\n") ++
          "\t\tpthread_create(&th[i], 0, thr, (void*)i);\n" ++ "\t\tusleep(10000);\n" ++
          "\t\x7d\n") ++
        (("\tfor (i = 0; i < " ++ fmtV calls.length ++ "; i++) \x7b\n") ++
          "\t\tpthread_create(&th[i], 0, thr, (void*)i);\n" ++ "\t\tif (i%2==0)\n" ++
          "\t\t\tusleep(10000);\n" ++ "\t\x7d\n") ++
        ("\tusleep(100000);\n" ++ "\treturn 0;\n\x7d\n"))) := by
  refine ⟨caseLoop 0 calls (macroLoop tbl p.Calls [] header ++ "\n" ++
      ("long r[" ++ fmtV n ++ "];\n\n") ++ "void *thr(void *arg)\n\x7b\n" ++
      "\tswitch ((long)arg) \x7b\n") ++ "\t\x7d\n" ++ "\treturn 0;\n\x7d\n\n" ++
      "int main()\n\x7b\n" ++ "\tlong i;\n" ++
      ("\tpthread_t th[" ++ fmtV calls.length ++ "];\n") ++ "\n" ++
      "\tmemset(r, -1, sizeof(r));\n", ?_, ?_⟩
  · unfold Write
    simp only [h, Bool.not_true, Bool.not_false, Bool.and_true, Bool.false_and, Bool.false_eq_true,
      if_false, String.append_assoc]
  · unfold Write
    simp only [h, Bool.not_true, Bool.and_self, Bool.false_eq_true, if_false, if_true,
      String.append_assoc]

set_option maxRecDepth 100000 in
/-- C7 on `sampleProg`. -/
theorem collision_adds_second_spawn_loop_witness :
    generateCalls sampleEnv sampleProg.exec = some (.ok (sampleFragments, 4)) ∧
    (∃ pre : String,
      Write sampleEnv sampleNewSyscalls sampleProg ⟨true, false⟩ = some (.ok (pre ++
        (("\tfor (i = 0; i < " ++ fmtV sampleFragments.length ++ "; i++) \x7b\n") ++
          "\t\tpthread_create(&th[i], 0, thr, (void*)i);\n" ++ "\t\tusleep(10000);\n" ++
          "\t\x7d\n") ++
        ("\tusleep(100000);\n" ++ "\treturn 0;\n\x7d\n"))) ∧
      Write sampleEnv sampleNewSyscalls sampleProg ⟨true, true⟩ = some (.ok (pre ++
        (("\tfor (i = 0; i < " ++ fmtV sampleFragments.length ++ "; i++) \x7b\n") ++
          "\t\tpthread_create(&th[i], 0, thr, (void*)i);\n" ++ "\t\tusleep(10000);\n" ++
          "\t\x7d\n") ++
        (("\tfor (i = 0; i < " ++ fmtV sampleFragments.length ++ "; i++) \x7b\n") ++
          "\t\tpthread_create(&th[i], 0, thr, (void*)i);\n" ++ "\t\tif (i%2==0)\n" ++
          "\t\t\tusleep(10000);\n" ++ "\t\x7d\n") ++
        ("\tusleep(100000);\n" ++ "\treturn 0;\n\x7d\n")))) :=
  ⟨by rfl, collision_adds_second_spawn_loop sampleEnv sampleNewSyscalls sampleProg sampleFragments 4 (by rfl)⟩

/-! ## C8: `Collide` without `Threaded` -/

set_option maxRecDepth 100000 in
/-- C8, as stated, fails: with `Collide` alone the output on the empty program
is the Collision text, not the Sequential one. -/
theorem collide_alone_counterexample :
    Write sampleEnv sampleNewSyscalls emptyProg ⟨false, true⟩ = some (.ok (
      "// autogenerated by syzkaller (http://github.com/google/syzkaller)\n" ++
      "#include <unistd.h>\n#include <sys/syscall.h>\n#include <string.h>\n" ++
      "#include <stdint.h>\n#include <pthread.h>\n\n\nlong r[0];\n\n" ++
      "void *thr(void *arg)\n\x7b\n\tswitch ((long)arg) \x7b\n\t\x7d\n" ++
      "\treturn 0;\n\x7d\n\nint main()\n\x7b\n\tlong i;\n" ++
      "\tpthread_t th[0];\n\n\tmemset(r, -1, sizeof(r));\n" ++
      "\tfor (i = 0; i < 0; i++) \x7b\n" ++
      "\t\tpthread_create(&th[i], 0, thr, (void*)i);\n\t\tusleep(10000);\n" ++
      "\t\x7d\n\tfor (i = 0; i < 0; i++) \x7b\n" ++
      "\t\tpthread_create(&th[i], 0, thr, (void*)i);\n\t\tif (i%2==0)\n" ++
      "\t\t\tusleep(10000);\n\t\x7d\n\tusleep(100000);\n\treturn 0;\n\x7d\n")) ∧
    Write sampleEnv sampleNewSyscalls emptyProg ⟨false, false⟩ = some (.ok (
      "// autogenerated by syzkaller (http://github.com/google/syzkaller)\n" ++
      "#include <unistd.h>\n#include <sys/syscall.h>\n#include <string.h>\n" ++
      "#include <stdint.h>\n#include <pthread.h>\n\n\nlong r[0];\n\n" ++
      "int main()\n\x7b\n\tmemset(r, -1, sizeof(r));\n\treturn 0;\n\x7d\n")) ∧
    Write sampleEnv sampleNewSyscalls emptyProg ⟨false, true⟩ ≠
      Write sampleEnv sampleNewSyscalls emptyProg ⟨false, false⟩ := by
  refine ⟨by rfl, by rfl, ?_⟩
  intro heq
  have hlen := congrArg (fun r => match r with
    | some (.ok s) => s.length
    | _ => 0) heq
  exact absurd hlen (by decide!)

/-- C8 (amended): `Collide` alone already selects the threaded branch: the
output for `Threaded: false, Collide: true` is the Collision output. -/
theorem collide_alone_is_collision (env : Env) (tbl : String → Option Nat) (p : Prog) :
    Write env tbl p ⟨false, true⟩ = Write env tbl p ⟨true, true⟩ := by
  unfold Write
  rfl

/-! ## C9: what the fragments hold -/

/-- C9, as stated, fails: the statement of a copy-in decoded after the last
syscall is in no fragment. -/
theorem concat_fragments_counterexample :
    generateCalls sampleEnv trailingCopyin =
      some (.ok (["\tr[0] = syscall(SYS_X, 0, 0, 0, 0, 0, 0);\n"], 2)) ∧
    decode sampleEnv trailingCopyin =
      some (.ok ([.syscall 0 "X" [], .copyinConst 4096 4 42], [])) ∧
    render (statements [.syscall 0 "X" [], .copyinConst 4096 4 42]) =
      "\tr[0] = syscall(SYS_X, 0, 0, 0, 0, 0, 0);\n" ++
        "\t*(uint32_t*)0x1000 = (uint32_t)0x2a;\n" ∧
    concat ["\tr[0] = syscall(SYS_X, 0, 0, 0, 0, 0, 0);\n"] ≠
      render (statements [.syscall 0 "X" [], .copyinConst 4096 4 42]) :=
  ⟨by rfl, by rfl, by rfl, by decide⟩

/-- C9 (amended): the concatenation of the returned fragments is the
concatenation, in decode order, of the texts of the kept statements: all
statements up to the first `CopyIn` or `SetPad` after the last syscall, and
none when no syscall is decoded. -/
theorem generateCalls_concat_kept (env : Env) (exec : List UInt8)
    (calls : List String) (n : Nat) (h : generateCalls env exec = some (.ok (calls, n))) :
    ∃ (is : List Instr) (rest : List UInt8),
      decode env exec = some (.ok (is, rest)) ∧
      concat calls = render (kept (statements is)) ∧
      kept (statements is) <+: statements is := by
  obtain ⟨is, rest, hd, hcalls, -⟩ := generateCalls_ok h
  obtain ⟨groups, lost, hg, hS, hgood, hfree, hhead⟩ := final_grouped exec is
  rw [← hcalls] at hg
  have hk : kept (statements is) = groups.flatten := by
    rw [hS]; exact kept_flatten groups lost hgood hfree hhead
  refine ⟨is, rest, hd, ?_, ?_⟩
  · rw [hk, hg]
    clear hS hk hg hgood hhead
    induction groups with
    | nil => rfl
    | cons g gs ih => simp [concat, render_append, ih]
  · rw [hk]; exact ⟨lost, hS.symm⟩

/-- C9 (amended) on `trailingCopyin`: the trailing copy-in is not kept. -/
theorem generateCalls_concat_kept_witness :
    generateCalls sampleEnv trailingCopyin =
      some (.ok (["\tr[0] = syscall(SYS_X, 0, 0, 0, 0, 0, 0);\n"], 2)) ∧
    ∃ (is : List Instr) (rest : List UInt8),
      decode sampleEnv trailingCopyin = some (.ok (is, rest)) ∧
      concat ["\tr[0] = syscall(SYS_X, 0, 0, 0, 0, 0, 0);\n"] = render (kept (statements is)) ∧
      kept (statements is) <+: statements is :=
  ⟨by rfl, generateCalls_concat_kept sampleEnv trailingCopyin _ 2 (by rfl)⟩

/-! ## C10: short streams -/

theorem read_short {exec : List UInt8} (h : exec.length < 8) : read exec = .error .overflow := by
  unfold read; rw [if_pos h]

theorem decodeInstr_short (env : Env) {exec : List UInt8} (h : exec.length < 8) :
    decodeInstr env exec = .error .overflow := by
  unfold decodeInstr; rw [read_short h]

theorem decodeInstr_none {env : Env} {exec rest : List UInt8}
    (h : decodeInstr env exec = .ok (none, rest)) :
    read exec = .ok (env.ExecInstrEOF, rest) := by
  unfold decodeInstr at h
  split at h
  · cases h
  · rename_i instr e0 h0
    split at h
    · rename_i hE
      simp only [Except.ok.injEq, Prod.mk.injEq, true_and] at h
      rw [h0, hE, h]
    · exfalso
      repeat' split at h
      all_goals first
        | (simp at h; done)
        | (simp only at h; split at h <;> simp at h)

/-- A successful decoding ends on an end marker: the consumed bytes are the
bytes of the instructions followed by the eight bytes of the marker. -/
theorem decodeAll_eof (env : Env) {fuel : Nat} {exec rest : List UInt8} {is : List Instr}
    (h : decodeAll env fuel exec = some (.ok (is, rest))) :
    ∃ body marker, exec = body ++ marker ++ rest ∧ marker.length = 8 ∧
      leValue marker = env.ExecInstrEOF := by
  induction fuel generalizing exec is with
  | zero => simp [decodeAll] at h
  | succ fuel ih =>
    unfold decodeAll at h
    cases hd : decodeInstr env exec with
    | error f => rw [hd] at h; cases h
    | ok p =>
      obtain ⟨oi, r1⟩ := p
      rw [hd] at h
      cases oi with
      | none =>
        simp only [Option.some.injEq, Except.ok.injEq, Prod.mk.injEq] at h
        obtain ⟨-, rfl⟩ := h
        obtain ⟨c, hc, rfl, hv, -⟩ := read_inv (decodeInstr_none hd)
        exact ⟨[], c, by simp, hc, hv.symm⟩
      | some i =>
        simp only at h
        obtain ⟨c1, -, rfl, -⟩ := decodeInstr_inv env hd
        cases hd2 : decodeAll env fuel r1 with
        | none => rw [hd2] at h; cases h
        | some r2 =>
          rw [hd2] at h
          cases r2 with
          | error f => cases h
          | ok q =>
            obtain ⟨is2, rest2⟩ := q
            simp only [Option.some.injEq, Except.ok.injEq, Prod.mk.injEq] at h
            obtain ⟨-, rfl⟩ := h
            obtain ⟨body, marker, rfl, hm, hv⟩ := ih hd2
            exact ⟨c1 ++ body, marker, by simp, hm, hv⟩

theorem generateCalls_error_of_decode {env : Env} {exec : List UInt8} {f : Fault}
    (h : decode env exec = some (.error f)) : generateCalls env exec = some (.error f) := by
  rw [generateCalls_eq, h]

/-- C10: generation is all-or-nothing on short streams. For a buffer of a
length that a slice can have (below `2 ^ 63`): a buffer shorter than 8 bytes
faults; a successful call has consumed a run of bytes that ends with the end
marker, read at an instruction boundary, and on every strict prefix of the
consumed bytes the call faults (a fault carries no fragments). -/
theorem generateCalls_all_or_nothing (env : Env) (exec : List UInt8)
    (hlen : exec.length < 2 ^ 63) :
    (exec.length < 8 → generateCalls env exec = some (.error .overflow)) ∧
    (∀ calls n, generateCalls env exec = some (.ok (calls, n)) →
      ∃ (is : List Instr) (body marker rest : List UInt8),
        decode env exec = some (.ok (is, rest)) ∧
        exec = body ++ marker ++ rest ∧
        decode env (body ++ marker) = some (.ok (is, [])) ∧
        read (marker ++ rest) = .ok (env.ExecInstrEOF, rest) ∧
        ∀ p, p <+: body ++ marker → p ≠ body ++ marker →
          ∃ f, generateCalls env p = some (.error f)) := by
  constructor
  · intro h8
    apply generateCalls_error_of_decode
    unfold decode decodeAll
    rw [decodeInstr_short env h8]
  · intro calls n h
    obtain ⟨is, rest, hd, -, -⟩ := generateCalls_ok h
    have hd0 := hd
    unfold decode at hd0
    obtain ⟨body, marker, hexec, hm, hv⟩ := decodeAll_eof env hd0
    obtain ⟨c, -, hc, k⟩ := decodeAll_inv env hd0
    have hcb : c = body ++ marker := by
      have := hexec.symm.trans hc
      exact (List.append_cancel_right this).symm
    subst hcb
    have k0 := k hlen
    have hfull : decodeAll env (exec.length + 1) (body ++ marker) = some (.ok (is, [])) := by
      simpa using k0 []
    have hlen2 : (body ++ marker).length ≤ exec.length := by
      rw [hexec]; simp
    refine ⟨is, body, marker, rest, hd, hexec, ?_, ?_, ?_⟩
    · -- the consumed bytes decode on their own
      unfold decode
      cases hq : decodeAll env ((body ++ marker).length + 1) (body ++ marker) with
      | none => exact absurd hq (decodeAll_ne_none env _ _ (by omega))
      | some r =>
        have := decodeAll_mono env (by omega : (body ++ marker).length + 1 ≤ exec.length + 1) hq
        rw [hfull] at this
        rw [← Option.some.inj this]
    · unfold read
      have h1 : ¬ (marker ++ rest).length < 8 := by simp [hm]
      rw [if_neg h1, List.take_left' hm, List.drop_left' hm, hv]
    · intro p hp hne
      obtain ⟨y, hy⟩ := hp
      have hyne : y ≠ [] := by
        intro h0; apply hne; rw [← hy, h0, List.append_nil]
      have hplen : p.length < 2 ^ 63 := by
        have := congrArg List.length hy
        simp only [List.length_append] at this hlen2
        omega
      have hple : p.length + 1 ≤ exec.length + 1 := by
        have := congrArg List.length hy
        simp only [List.length_append] at this hlen2
        omega
      cases hq : decode env p with
      | none => exact absurd hq (decodeAll_ne_none env _ _ (by omega))
      | some r =>
        cases r with
        | error f => exact ⟨f, generateCalls_error_of_decode hq⟩
        | ok q =>
          exfalso
          obtain ⟨is2, r2⟩ := q
          unfold decode at hq
          obtain ⟨c2, -, hc2, k2⟩ := decodeAll_inv env hq
          have h3 := k2 hplen (r2 ++ y)
          rw [← List.append_assoc, ← hc2, hy] at h3
          have h4 := decodeAll_mono env hple h3
          rw [hfull] at h4
          simp only [Option.some.injEq, Except.ok.injEq, Prod.mk.injEq] at h4
          have := h4.2
          simp at this
          exact hyne this.2

/-- C10 on `trailingCopyin`: every strict prefix of the consumed bytes faults. -/
theorem generateCalls_all_or_nothing_witness :
    trailingCopyin.length < 2 ^ 63 ∧
    generateCalls sampleEnv trailingCopyin =
      some (.ok (["\tr[0] = syscall(SYS_X, 0, 0, 0, 0, 0, 0);\n"], 2)) ∧
    ∃ (is : List Instr) (body marker rest : List UInt8),
      decode sampleEnv trailingCopyin = some (.ok (is, rest)) ∧
      trailingCopyin = body ++ marker ++ rest ∧
      decode sampleEnv (body ++ marker) = some (.ok (is, [])) ∧
      read (marker ++ rest) = .ok (sampleEnv.ExecInstrEOF, rest) ∧
      ∀ p, p <+: body ++ marker → p ≠ body ++ marker →
        ∃ f, generateCalls sampleEnv p = some (.error f) :=
  ⟨by decide, by rfl,
    (generateCalls_all_or_nothing sampleEnv trailingCopyin (by decide)).2 _ 2 (by rfl)⟩

/-! ## Faults inside a run -/

theorem step_consumes {env : Env} {st st2 : GenState} (h : step env st = .ok (.next st2)) :
    st2.exec.length + 8 ≤ st.exec.length := by
  rw [step_eq] at h
  cases hd : decodeInstr env st.exec with
  | error f => rw [hd] at h; cases h
  | ok p =>
    obtain ⟨oi, rest⟩ := p
    rw [hd] at h
    obtain ⟨c, hc, hexec, -⟩ := decodeInstr_inv env hd
    cases oi with
    | none => cases h
    | some i =>
      simp only [Except.ok.injEq, Step.next.injEq] at h
      rw [← h, hexec, List.length_append]
      simp only
      omega

theorem Reaches.length_le {env : Env} {exec : List UInt8} {is : List Instr} {st : GenState}
    (h : Reaches env exec is st) : st.exec.length + 8 * is.length ≤ exec.length := by
  induction h with
  | init => simp [initState]
  | pass hr hd hs ih =>
    have := step_consumes hs
    simp only [List.length_append, List.length_singleton]
    omega

theorem Reaches.loop_resume {env : Env} {exec : List UInt8} {is : List Instr} {st : GenState}
    (h : Reaches env exec is st) (fuel : Nat) :
    loop env (fuel + is.length) (initState exec) = loop env fuel st := by
  induction h generalizing fuel with
  | init => rfl
  | pass hr hd hs ih =>
    rename_i is0 st0 st2 i0 rest0
    have e : fuel + (is0 ++ [i0]).length = (fuel + 1) + is0.length := by
      rw [List.length_append, List.length_singleton]; omega
    rw [e, ih (fuel + 1), loop, hs]

/-- A fault of the loop body in a reached state is the result of the call. -/
theorem Reaches.fault {env : Env} {exec : List UInt8} {is : List Instr} {st : GenState}
    {f : Fault} (h : Reaches env exec is st) (hs : step env st = .error f) :
    generateCalls env exec = some (.error f) := by
  have hlen := h.length_le
  obtain ⟨k, hk⟩ : ∃ k, exec.length + 1 = (k + 1) + is.length := ⟨exec.length - is.length, by omega⟩
  unfold generateCalls generateCallsState
  rw [hk, h.loop_resume (k + 1), loop, hs]

theorem decodeArgs_add (env : Env) (j k : Nat) (exec : List UInt8) :
    decodeArgs env (j + k) exec =
      match decodeArgs env j exec with
      | .error f => .error f
      | .ok (args, rest) =>
        match decodeArgs env k rest with
        | .error f => .error f
        | .ok (args2, rest2) => .ok (args ++ args2, rest2) := by
  induction j generalizing exec with
  | zero =>
    simp only [Nat.zero_add, decodeArgs, List.nil_append]
    cases decodeArgs env k exec with
    | error f => rfl
    | ok p => rfl
  | succ j ih =>
    have hjk : j + 1 + k = (j + k) + 1 := by omega
    rw [hjk]
    simp only [decodeArgs]
    cases read exec with
    | error f => rfl
    | ok p1 =>
      obtain ⟨typ, e1⟩ := p1
      simp only
      cases read e1 with
      | error f => rfl
      | ok p2 =>
        obtain ⟨sz, e2⟩ := p2
        simp only
        split_ifs with hc hr
        · cases read e2 with
          | error f => rfl
          | ok p3 =>
            obtain ⟨v, e3⟩ := p3
            simp only [ih]
            cases decodeArgs env j e3 with
            | error f => rfl
            | ok p4 =>
              obtain ⟨a, e4⟩ := p4
              simp only
              cases decodeArgs env k e4 with
              | error f => rfl
              | ok p5 => rfl
        · cases readRef e2 with
          | error f => rfl
          | ok p3 =>
            obtain ⟨⟨s, d, a⟩, e3⟩ := p3
            simp only [ih]
            cases decodeArgs env j e3 with
            | error f => rfl
            | ok p4 =>
              obtain ⟨a, e4⟩ := p4
              simp only
              cases decodeArgs env k e4 with
              | error f => rfl
              | ok p5 => rfl
        · rfl

theorem decodeArgs_bad_type (env : Env) (k : Nat) (typ size : Nat) (e0 e1 e2 : List UInt8)
    (h1 : read e0 = .ok (typ, e1)) (h2 : read e1 = .ok (size, e2))
    (hc : typ ≠ env.ExecArgConst) (hr : typ ≠ env.ExecArgResult) :
    decodeArgs env (k + 1) e0 = .error .unknownArgType := by
  simp only [decodeArgs, h1, h2, if_neg hc, if_neg hr]

/-! ## C11: unknown argument types -/

/-- C11: in a state reached by the loop, a syscall whose `j`-th argument is
present with a type tag that is neither `Constant` nor `ResultReference`, and a
copy-in whose address, type and size words are present with a type tag that is
none of `Constant`, `ResultReference`, `InlineData`, make the loop body panic,
and the call returns that fault and no fragments. -/
theorem unknown_argument_type_fatal (env : Env) (exec : List UInt8) (is : List Instr)
    (st : GenState) (hr : Reaches env exec is st) :
    (∀ c name nargs j args typ size (e0 e1 e2 e3 e4 : List UInt8),
      read st.exec = .ok (c, e0) →
      c ≠ env.ExecInstrEOF → c ≠ env.ExecInstrCopyin → c ≠ env.ExecInstrCopyout →
      c ≠ env.ExecInstrSetPad → c ≠ env.ExecInstrCheckPad →
      env.Calls.get? c = some name → read e0 = .ok (nargs, e1) → j < nargs →
      decodeArgs env j e1 = .ok (args, e2) →
      read e2 = .ok (typ, e3) → read e3 = .ok (size, e4) →
      typ ≠ env.ExecArgConst → typ ≠ env.ExecArgResult →
      step env st = .error .unknownArgType ∧
        generateCalls env exec = some (.error .unknownArgType)) ∧
    (∀ addr typ size (e0 e1 e2 e3 : List UInt8),
      read st.exec = .ok (env.ExecInstrCopyin, e0) →
      env.ExecInstrCopyin ≠ env.ExecInstrEOF →
      read e0 = .ok (addr, e1) → read e1 = .ok (typ, e2) → read e2 = .ok (size, e3) →
      typ ≠ env.ExecArgConst → typ ≠ env.ExecArgResult → typ ≠ env.ExecArgData →
      step env st = .error .badArgType ∧
        generateCalls env exec = some (.error .badArgType)) := by
  constructor
  · intro c name nargs j args typ size e0 e1 e2 e3 e4 h0 n1 n2 n3 n4 n5 hname hn hj hargs ht hs
      hc hres
    have hstep : step env st = .error .unknownArgType := by
      obtain ⟨k, hk⟩ : ∃ k, nargs = j + (k + 1) := ⟨nargs - j - 1, by omega⟩
      rw [step_eq]
      simp only [decodeInstr, h0, if_neg n1, if_neg n2, if_neg n3, if_neg n4, if_neg n5, hname,
        hn, hk, decodeArgs_add env j (k + 1) e1, hargs,
        decodeArgs_bad_type env k typ size e2 e3 e4 ht hs hc hres]
    exact ⟨hstep, hr.fault hstep⟩
  · intro addr typ size e0 e1 e2 e3 h0 n1 ha ht hs hc hres hdata
    have hstep : step env st = .error .badArgType := by
      rw [step_eq]
      simp only [decodeInstr, h0, if_neg n1, if_true, ha, ht, hs, if_neg hc, if_neg hres,
        if_neg hdata]
    exact ⟨hstep, hr.fault hstep⟩

/-- C11 on a syscall argument with the inline-data tag and on a copy-in with
the type tag 7. -/
theorem unknown_argument_type_fatal_witness :
    (Reaches sampleEnv dataArgProgram [] (initState dataArgProgram) ∧
      step sampleEnv (initState dataArgProgram) = .error .unknownArgType ∧
      generateCalls sampleEnv dataArgProgram = some (.error .unknownArgType)) ∧
    (Reaches sampleEnv badCopyinProgram [] (initState badCopyinProgram) ∧
      step sampleEnv (initState badCopyinProgram) = .error .badArgType ∧
      generateCalls sampleEnv badCopyinProgram = some (.error .badArgType)) :=
  ⟨⟨Reaches.init,
    (unknown_argument_type_fatal sampleEnv dataArgProgram [] _ Reaches.init).1
      0 "X" 1 0 [] sampleEnv.ExecArgData 8 (encode [1, 2, 8, 0, 2 ^ 64 - 1])
      (encode [2, 8, 0, 2 ^ 64 - 1]) (encode [2, 8, 0, 2 ^ 64 - 1]) (encode [8, 0, 2 ^ 64 - 1])
      (encode [0, 2 ^ 64 - 1])
      (by rfl) (by decide) (by decide) (by decide) (by decide) (by decide) (by rfl) (by rfl)
      (by decide) (by rfl) (by rfl) (by rfl) (by decide) (by decide)⟩,
   ⟨Reaches.init,
    (unknown_argument_type_fatal sampleEnv badCopyinProgram [] _ Reaches.init).2
      4096 7 4 (encode [4096, 7, 4, 42, 2 ^ 64 - 1]) (encode [7, 4, 42, 2 ^ 64 - 1])
      (encode [4, 42, 2 ^ 64 - 1]) (encode [42, 2 ^ 64 - 1])
      (by rfl) (by decide) (by rfl) (by rfl) (by rfl) (by decide) (by decide) (by decide)⟩⟩

/-! ## C12: result references -/

/-- C12: resolving a result reference consumes exactly three words, the slot,
the divisor and the adder in that order, and yields `r[slot]` in decimal,
followed by `/div` exactly when `div` is not zero and by `+add` exactly when
`add` is not zero; it succeeds for every slot value, which is emitted as read. -/
theorem resultRef_three_words (slot opDiv opAdd : Nat) (rest : List UInt8)
    (hs : slot < 2 ^ 64) (hd : opDiv < 2 ^ 64) (ha : opAdd < 2 ^ 64) :
    resultRef (encode [slot, opDiv, opAdd] ++ rest) =
      .ok ("r[" ++ fmtV slot ++ "]" ++ (if opDiv ≠ 0 then "/" ++ fmtV opDiv else "") ++
            (if opAdd ≠ 0 then "+" ++ fmtV opAdd else ""), rest) ∧
    (encode [slot, opDiv, opAdd]).length = 3 * 8 := by
  constructor
  · unfold resultRef
    simp only [encode_cons, encode_nil, List.append_nil, List.append_assoc, read_wordBytes hs,
      read_wordBytes hd, read_wordBytes ha]
    by_cases h1 : opDiv = 0 <;> by_cases h2 : opAdd = 0 <;>
      simp only [h1, h2, ne_eq, not_true_eq_false, not_false_eq_true, if_true, if_false,
        String.append_assoc, String.append_empty]
  · simp [encode_cons, encode_nil, wordBytes_length]

/-- C12 on the words 5, 0, 3 and on a slot far out of any range. -/
theorem resultRef_three_words_witness :
    ((5 < 2 ^ 64 ∧ 0 < 2 ^ 64 ∧ 3 < 2 ^ 64) ∧
      resultRef (encode [5, 0, 3] ++ [7]) = .ok ("r[5]+3", [7])) ∧
    ((2 ^ 64 - 1 < 2 ^ 64 ∧ 2 < 2 ^ 64 ∧ 0 < 2 ^ 64) ∧
      resultRef (encode [2 ^ 64 - 1, 2, 0] ++ []) = .ok ("r[18446744073709551615]/2", [])) :=
  ⟨⟨by decide, (resultRef_three_words 5 0 3 [7] (by decide) (by decide) (by decide)).1⟩,
   ⟨by decide,
    (resultRef_three_words (2 ^ 64 - 1) 2 0 [] (by decide) (by decide) (by decide)).1⟩⟩

/-! ## C13: inline data -/

theorem hex_eq_digitChar (k : Nat) (h : k < 16) : hex k = Nat.digitChar k := by
  have hall : ∀ k, k < 16 → hex k = Nat.digitChar k := by decide
  exact hall k h

theorem hexValue_digitChar (k : Nat) (h : k < 16) : hexValue (Nat.digitChar k) = k := by
  have hall : ∀ k, k < 16 → hexValue (Nat.digitChar k) = k := by decide
  exact hall k h

theorem escByte_eq (b : UInt8) :
    escByte b = ['\\', 'x', Nat.digitChar (b.toNat / 16), Nat.digitChar (b.toNat % 16)] := by
  have hb : b.toNat < 256 := b.val.isLt
  have h1 : b.toNat / 16 < 16 := by omega
  have h2 : b.toNat * 16 % 256 / 16 = b.toNat % 16 := by omega
  have h3 : b.toNat % 16 < 16 := by omega
  rw [escByte, h2, hex_eq_digitChar _ h1, hex_eq_digitChar _ h3]

theorem escData_eq (data : List UInt8) :
    escData data = String.mk (data.flatMap (fun b =>
      ['\\', 'x', Nat.digitChar (b.toNat / 16), Nat.digitChar (b.toNat % 16)])) := by
  unfold escData
  congr 1
  induction data with
  | nil => rfl
  | cons b l ih => rw [List.flatMap_cons, List.flatMap_cons, ih, escByte_eq]

theorem escData_length (data : List UInt8) : (escData data).length = 4 * data.length := by
  unfold escData
  show (data.flatMap escByte).length = _
  induction data with
  | nil => rfl
  | cons b l ih =>
    rw [List.flatMap_cons, List.length_append, ih, List.length_cons]
    simp only [escByte, List.length_cons, List.length_nil]
    omega

theorem unescape_escData (data : List UInt8) : unescape (escData data).data = data := by
  rw [escData_eq]
  show unescape (data.flatMap _) = data
  induction data with
  | nil => rfl
  | cons b l ih =>
    have hb : b.toNat < 256 := b.val.isLt
    have h1 : b.toNat / 16 < 16 := by omega
    have h3 : b.toNat % 16 < 16 := by omega
    rw [List.flatMap_cons]
    simp only [List.cons_append, List.nil_append, unescape, ih, hexValue_digitChar _ h1,
      hexValue_digitChar _ h3]
    congr 1
    apply UInt8.toNat.inj
    rw [UInt8.toNat_ofNat_of_lt (by show 16 * (b.toNat / 16) + b.toNat % 16 < 256; omega)]
    omega

/-- C13: a copy-in with the inline-data type, address `a` and size `s`, with at
least `ceil(s/8)*8` bytes after the size word, appends the `memcpy` statement
whose string is, for each of the first `s` data bytes in order, a backslash,
`x` and the two lower-case hexadecimal digits of the byte, high nibble first.
The string has length `4 * s`, reading its digit pairs gives back the `s`
bytes, and the input advances by `ceil(s/8)*8` bytes, padding included. -/
theorem copyin_data_statement (env : Env) (st : GenState) (addr size : Nat)
    (e0 e1 e2 e3 : List UInt8)
    (hlen : st.exec.length < 2 ^ 63)
    (h0 : read st.exec = .ok (env.ExecInstrCopyin, e0))
    (hne : env.ExecInstrCopyin ≠ env.ExecInstrEOF)
    (h1 : read e0 = .ok (addr, e1)) (h2 : read e1 = .ok (env.ExecArgData, e2))
    (hd1 : env.ExecArgData ≠ env.ExecArgConst) (hd2 : env.ExecArgData ≠ env.ExecArgResult)
    (h3 : read e2 = .ok (size, e3)) (hrem : (size + 7) / 8 * 8 ≤ e3.length) :
    ∃ (st2 : GenState) (esc : String),
      step env st = .ok (.next st2) ∧
      st2.w = (newCall st).w ++
        ("\tmemcpy((void*)0x" ++ fmtX addr ++ ", \"" ++ esc ++ "\", " ++ fmtV size ++ ");\n") ∧
      esc = String.mk ((e3.take size).flatMap (fun b =>
        ['\\', 'x', Nat.digitChar (b.toNat / 16), Nat.digitChar (b.toNat % 16)])) ∧
      esc.length = 4 * size ∧
      unescape esc.data = e3.take size ∧
      st2.exec = e3.drop ((size + 7) / 8 * 8) ∧
      st2.exec.length + (size + 7) / 8 * 8 = e3.length ∧
      st2.n = st.n + 1 := by
  obtain ⟨c0, l0, hx0, -, -⟩ := read_inv h0
  obtain ⟨c1, l1, hx1, -, -⟩ := read_inv h1
  obtain ⟨c2, l2, hx2, -, -⟩ := read_inv h2
  obtain ⟨c3, l3, hx3, -, -⟩ := read_inv h3
  have hlen3 : e3.length < 2 ^ 63 := by
    rw [hx0, hx1, hx2, hx3] at hlen
    simp only [List.length_append] at hlen
    omega
  have hsz : size ≤ e3.length := by omega
  have hoff : (size + 7) % wordMod / 8 * 8 % wordMod = (size + 7) / 8 * 8 := by
    unfold wordMod; omega
  have hn1 : ¬ e3.length < size := by omega
  have hn2 : ¬ e3.length < (size + 7) / 8 * 8 := by omega
  refine ⟨{ newCall st with
      exec := e3.drop ((size + 7) / 8 * 8)
      w := (newCall st).w ++ copyinDataText addr size (escData (e3.take size))
      n := (newCall st).n + 1 },
    escData (e3.take size), ?_, ?_, escData_eq _, ?_, unescape_escData _, ?_, ?_, ?_⟩
  · unfold step
    simp only [h0, if_neg hne, if_true, h1, h2, h3, if_neg hd1, if_neg hd2, hoff, if_neg hn1,
      if_neg hn2]
  · simp only [copyinDataText, String.append_assoc]
  · rw [escData_length, List.length_take]; omega
  · rfl
  · simp only [List.length_drop]; omega
  · simp only [newCall_n]

set_option maxRecDepth 100000 in
/-- C13 on a copy-in of the three bytes `01 ab ff`: the string is
`\x01\xab\xff` and eight bytes of input are skipped. -/
theorem copyin_data_statement_witness :
    (dataCopyinProgram.length < 2 ^ 63 ∧
      read (initState dataCopyinProgram).exec =
        .ok (sampleEnv.ExecInstrCopyin,
          encode [8192, 2, 3] ++ [1, 171, 255, 9, 9, 9, 9, 9] ++ encode [2 ^ 64 - 1]) ∧
      sampleEnv.ExecInstrCopyin ≠ sampleEnv.ExecInstrEOF ∧
      read (encode [8192, 2, 3] ++ [1, 171, 255, 9, 9, 9, 9, 9] ++ encode [2 ^ 64 - 1]) =
        .ok (8192, encode [2, 3] ++ [1, 171, 255, 9, 9, 9, 9, 9] ++ encode [2 ^ 64 - 1]) ∧
      read (encode [2, 3] ++ [1, 171, 255, 9, 9, 9, 9, 9] ++ encode [2 ^ 64 - 1]) =
        .ok (sampleEnv.ExecArgData,
          encode [3] ++ [1, 171, 255, 9, 9, 9, 9, 9] ++ encode [2 ^ 64 - 1]) ∧
      sampleEnv.ExecArgData ≠ sampleEnv.ExecArgConst ∧
      sampleEnv.ExecArgData ≠ sampleEnv.ExecArgResult ∧
      read (encode [3] ++ [1, 171, 255, 9, 9, 9, 9, 9] ++ encode [2 ^ 64 - 1]) =
        .ok (3, [1, 171, 255, 9, 9, 9, 9, 9] ++ encode [2 ^ 64 - 1]) ∧
      (3 + 7) / 8 * 8 ≤ ([1, 171, 255, 9, 9, 9, 9, 9] ++ encode [2 ^ 64 - 1]).length) ∧
    copyinDataText 8192 3 (escData [1, 171, 255]) =
      "\tmemcpy((void*)0x2000, \"\\x01\\xab\\xff\", 3);\n" ∧
    ∃ (st2 : GenState) (esc : String),
      step sampleEnv (initState dataCopyinProgram) = .ok (.next st2) ∧
      st2.w = (newCall (initState dataCopyinProgram)).w ++
        ("\tmemcpy((void*)0x" ++ fmtX 8192 ++ ", \"" ++ esc ++ "\", " ++ fmtV 3 ++ ");\n") ∧
      esc = String.mk ((([1, 171, 255, 9, 9, 9, 9, 9] ++ encode [2 ^ 64 - 1]).take 3).flatMap
        (fun b => ['\\', 'x', Nat.digitChar (b.toNat / 16), Nat.digitChar (b.toNat % 16)])) ∧
      esc.length = 4 * 3 ∧
      unescape esc.data = ([1, 171, 255, 9, 9, 9, 9, 9] ++ encode [2 ^ 64 - 1]).take 3 ∧
      st2.exec = ([1, 171, 255, 9, 9, 9, 9, 9] ++ encode [2 ^ 64 - 1]).drop ((3 + 7) / 8 * 8) ∧
      st2.exec.length + (3 + 7) / 8 * 8 =
        ([1, 171, 255, 9, 9, 9, 9, 9] ++ encode [2 ^ 64 - 1]).length ∧
      st2.n = (initState dataCopyinProgram).n + 1 :=
  ⟨⟨by decide, by rfl, by decide, by rfl, by rfl, by decide, by decide, by rfl, by decide⟩,
    by rfl,
    copyin_data_statement sampleEnv (initState dataCopyinProgram) 8192 3 _ _ _ _
      (by decide) (by rfl) (by decide) (by rfl) (by rfl) (by decide) (by decide) (by rfl)
      (by decide)⟩

/-! ## C14: copy-in statements and their place -/

theorem Instr.isSetup_of_isCopyin {i : Instr} (h : i.isCopyin = true) : i.isSetup = true := by
  cases i <;> simp_all [Instr.isCopyin, Instr.isSetup]

theorem Instr.not_syscall_of_isCopyin {i : Instr} (h : i.isCopyin = true) :
    i.isSyscall = false := by
  cases i <;> simp_all [Instr.isCopyin, Instr.isSyscall]

/-- An element of `G.flatten ++ lost` lies in `lost` or in one of the lists of `G`. -/
theorem split_flatten {α : Type} (G : List (List α)) (lost a b : List α) (x : α)
    (h : G.flatten ++ lost = a ++ x :: b) :
    (∃ l1, a = G.flatten ++ l1 ∧ lost = l1 ++ x :: b) ∨
    (∃ G1 g1 g2 G2, G = G1 ++ (g1 ++ x :: g2) :: G2 ∧ a = G1.flatten ++ g1 ∧
      b = g2 ++ G2.flatten ++ lost) := by
  induction G generalizing a with
  | nil => exact Or.inl ⟨a, by simp, by simpa using h⟩
  | cons g G ih =>
    rw [List.flatten_cons, List.append_assoc] at h
    rcases List.append_eq_append_iff.1 h with ⟨a2, ha, h2⟩ | ⟨c, hg, h2⟩
    · rcases ih a2 h2 with ⟨l1, hl1, hl2⟩ | ⟨G1, g1, g2, G2, hG, ha2, hb⟩
      · exact Or.inl ⟨l1, by rw [ha, hl1, List.flatten_cons, List.append_assoc], hl2⟩
      · right
        refine ⟨g :: G1, g1, g2, G2, by rw [hG, List.cons_append], ?_, hb⟩
        rw [ha, ha2, List.flatten_cons, List.append_assoc]
    · cases c with
      | nil =>
        rw [List.nil_append] at h2
        rw [List.append_nil] at hg
        rcases ih [] (by simpa using h2.symm) with ⟨l1, hl1, hl2⟩ | ⟨G1, g1, g2, G2, hG, ha2, hb⟩
        · left
          refine ⟨l1, ?_, hl2⟩
          have : G.flatten ++ l1 = [] := hl1.symm
          rw [List.flatten_cons, List.append_assoc, this, List.append_nil, hg]
        · right
          refine ⟨g :: G1, g1, g2, G2, by rw [hG, List.cons_append], ?_, hb⟩
          have : G1.flatten ++ g1 = [] := ha2.symm
          rw [List.flatten_cons, List.append_assoc, this, List.append_nil, hg]
      | cons c0 c =>
        rw [List.cons_append, List.cons.injEq] at h2
        obtain ⟨rfl, hb⟩ := h2
        right
        exact ⟨[], a, c, G, by rw [List.nil_append, hg], by simp, by rw [hb, List.append_assoc]⟩

/-- Inside a fragment group a copy-in stands before the syscall. -/
theorem copyin_before_syscall {g1 g2 pre post : List Stmt} {x s : Stmt}
    (h : g1 ++ x :: g2 = pre ++ s :: post) (hx : x.instr.isCopyin = true)
    (hs : s.isSyscall = true) (hpost : ∀ y ∈ post, y.isSyscall = false ∧ y.isSetup = false) :
    ∃ pre2, pre = g1 ++ x :: pre2 ∧ g2 = pre2 ++ s :: post := by
  have hxs : x.isSyscall = false := Instr.not_syscall_of_isCopyin hx
  have hxp : x.isSetup = true := Instr.isSetup_of_isCopyin hx
  rcases List.append_eq_append_iff.1 h with ⟨c, hpre, h2⟩ | ⟨c, hg1, h2⟩
  · cases c with
    | nil =>
      rw [List.nil_append, List.cons.injEq] at h2
      rw [h2.1, hs] at hxs; cases hxs
    | cons c0 c =>
      rw [List.cons_append, List.cons.injEq] at h2
      obtain ⟨rfl, h3⟩ := h2
      exact ⟨c, hpre, h3⟩
  · cases c with
    | nil =>
      rw [List.nil_append, List.cons.injEq] at h2
      rw [← h2.1, hs] at hxs; cases hxs
    | cons c0 c =>
      rw [List.cons_append, List.cons.injEq] at h2
      obtain ⟨-, h3⟩ := h2
      have hmem : x ∈ post := by rw [h3]; simp
      have := (hpost x hmem).2
      rw [hxp] at this; cases this

/-- C14: a copy-in with the constant type, address `a`, size `s` and value `v`
appends `*(uint<8*s>_t*)0x<a> = (uint<8*s>_t)0x<v>;` (the width is `s*8` as a
machine word). When `generateCalls` succeeds, the fragments are groups of
decoded statements in which no copy-in follows the syscall statement, and a
copy-in that is followed by a later syscall stands in the fragment of the
first syscall decoded after it, before the statement of that syscall. -/
theorem copyin_const_before_syscall (env : Env) (exec : List UInt8) (calls : List String)
    (n : Nat) (h : generateCalls env exec = some (.ok (calls, n))) :
    (∀ (st : GenState) addr size arg (e0 e1 e2 e3 e4 : List UInt8),
      read st.exec = .ok (env.ExecInstrCopyin, e0) →
      env.ExecInstrCopyin ≠ env.ExecInstrEOF →
      read e0 = .ok (addr, e1) → read e1 = .ok (env.ExecArgConst, e2) →
      read e2 = .ok (size, e3) → read e3 = .ok (arg, e4) →
      ∃ st2, step env st = .ok (.next st2) ∧ st2.exec = e4 ∧
        st2.w = (newCall st).w ++
          ("\t*(uint" ++ fmtV (size * 8 % 2 ^ 64) ++ "_t*)0x" ++ fmtX addr ++ " = (uint" ++
            fmtV (size * 8 % 2 ^ 64) ++ "_t)0x" ++ fmtX arg ++ ";\n")) ∧
    ∃ (is : List Instr) (rest : List UInt8) (groups : List (List Stmt)),
      decode env exec = some (.ok (is, rest)) ∧
      calls = groups.map render ∧ groups.flatten <+: statements is ∧
      (∀ g ∈ groups, ∃ pre s post, g = pre ++ s :: post ∧ s.isSyscall = true ∧
        (∀ y ∈ pre, y.isSyscall = false) ∧
        (∀ y ∈ post, y.isSyscall = false ∧ y.instr.isCopyin = false)) ∧
      (∀ a x b, statements is = a ++ x :: b → x.instr.isCopyin = true →
        (∃ y ∈ b, y.isSyscall = true) →
        ∃ G1 pre1 pre2 s post G2,
          groups = G1 ++ (pre1 ++ x :: pre2 ++ s :: post) :: G2 ∧
          a = G1.flatten ++ pre1 ∧ s.isSyscall = true ∧ (∀ y ∈ pre2, y.isSyscall = false) ∧
          calls[G1.length]? =
            some (render pre1 ++ x.text ++ render pre2 ++ s.text ++ render post)) := by
  constructor
  · intro st addr size arg e0 e1 e2 e3 e4 h0 hne h1 h2 h3 h4
    refine ⟨{ newCall st with
        exec := e4
        w := (newCall st).w ++ copyinConstText addr size arg
        n := (newCall st).n + 1 }, ?_, rfl, ?_⟩
    · unfold step
      simp only [h0, if_neg hne, if_true, h1, h2, h3, h4]
    · simp only [copyinConstText, bits, wordMod, String.append_assoc]
  · obtain ⟨is, rest, hd, hcalls, -⟩ := generateCalls_ok h
    obtain ⟨groups, lost, hg, hS, hgood, hfree, -⟩ := final_grouped exec is
    rw [← hcalls] at hg
    refine ⟨is, rest, groups, hd, hg, ⟨lost, hS.symm⟩, ?_, ?_⟩
    · intro g hgm
      obtain ⟨pre, s, post, hgeq, hs, hpre, hpost⟩ := hgood g hgm
      refine ⟨pre, s, post, hgeq, hs, hpre, fun y hy => ⟨(hpost y hy).1, ?_⟩⟩
      cases hc : y.instr.isCopyin with
      | false => rfl
      | true =>
        have h1 : y.isSetup = true := Instr.isSetup_of_isCopyin hc
        have h2 := (hpost y hy).2
        rw [h1] at h2; cases h2
    · intro a x b hsplit hx ⟨y, hyb, hys⟩
      rw [hS] at hsplit
      rcases split_flatten groups lost a b x hsplit with
        ⟨l1, -, hl⟩ | ⟨G1, g1, g2, G2, hG, ha, hb⟩
      · exfalso
        have : y ∈ lost := by rw [hl]; simp [hyb]
        have := hfree y this
        rw [hys] at this; cases this
      · obtain ⟨pre, s, post, hgeq, hs, hpre, hpost⟩ :=
          hgood (g1 ++ x :: g2) (by rw [hG]; simp)
        obtain ⟨pre2, hp1, hp2⟩ := copyin_before_syscall hgeq hx hs hpost
        have hG2 : groups = G1 ++ (g1 ++ x :: pre2 ++ s :: post) :: G2 := by
          rw [hG, hp2]; simp
        refine ⟨G1, g1, pre2, s, post, G2, hG2, ha, hs, ?_, ?_⟩
        · intro z hz
          exact hpre z (by rw [hp1]; simp [hz])
        · rw [hg, hG2, List.map_append, List.map_cons]
          rw [List.getElem?_append_right (by simp)]
          simp [render, concat_append, concat, String.append_assoc]

set_option maxRecDepth 100000 in
/-- C14 on a 4-byte copy-in at `0x1000` followed by a call: the write goes
through `(uint32_t*)0x1000` and stands before the syscall statement. -/
theorem copyin_const_before_syscall_witness :
    generateCalls sampleEnv copyinThenCall =
      some (.ok (["\t*(uint32_t*)0x1000 = (uint32_t)0x2a;\n" ++
        "\tr[1] = syscall(SYS_X, 0, 0, 0, 0, 0, 0);\n"], 2)) ∧
    (∃ st2, step sampleEnv (initState copyinThenCall) = .ok (.next st2) ∧
      st2.exec = encode [0, 0, 2 ^ 64 - 1] ∧
      st2.w = (newCall (initState copyinThenCall)).w ++
        ("\t*(uint" ++ fmtV (4 * 8 % 2 ^ 64) ++ "_t*)0x" ++ fmtX 4096 ++ " = (uint" ++
          fmtV (4 * 8 % 2 ^ 64) ++ "_t)0x" ++ fmtX 42 ++ ";\n")) ∧
    "\t*(uint" ++ fmtV (4 * 8 % 2 ^ 64) ++ "_t*)0x" ++ fmtX 4096 ++ " = (uint" ++
        fmtV (4 * 8 % 2 ^ 64) ++ "_t)0x" ++ fmtX 42 ++ ";\n" =
      "\t*(uint32_t*)0x1000 = (uint32_t)0x2a;\n" :=
  ⟨by rfl,
    (copyin_const_before_syscall sampleEnv copyinThenCall _ 2 (by rfl)).1
      (initState copyinThenCall) 4096 4 42 (encode [4096, 0, 4, 42, 0, 0, 2 ^ 64 - 1])
      (encode [0, 4, 42, 0, 0, 2 ^ 64 - 1]) (encode [4, 42, 0, 0, 2 ^ 64 - 1])
      (encode [42, 0, 0, 2 ^ 64 - 1]) (encode [0, 0, 2 ^ 64 - 1])
      (by rfl) (by decide) (by rfl) (by rfl) (by rfl) (by rfl),
    by decide⟩

/-! ## C15: the Sequential output -/

theorem parenOK_of_p {l : List Char} (prev : Char) (h : parenOK 'p' l = true) :
    parenOK prev l = true := by
  cases l with
  | nil => rfl
  | cons c s =>
    simp only [parenOK, Bool.and_eq_true, Bool.or_eq_true, Bool.not_eq_true'] at h ⊢
    refine ⟨?_, h.2⟩
    rcases h.1 with h1 | h1
    · exact Or.inl h1
    · simp at h1

theorem parenOK_append {a b : List Char} (prev : Char) (ha : parenOK prev a = true)
    (hb : parenOK 'p' b = true) : parenOK prev (a ++ b) = true := by
  induction a generalizing prev with
  | nil => exact parenOK_of_p prev hb
  | cons c a ih =>
    simp only [List.cons_append, parenOK, Bool.and_eq_true] at ha ⊢
    exact ⟨ha.1, ih c ha.2⟩

theorem parenOK_of_not_mem {l : List Char} (prev : Char) (h : '(' ∉ l) :
    parenOK prev l = true := by
  induction l generalizing prev with
  | nil => rfl
  | cons c s ih =>
    have hc : (c == '(') = false := by
      simpa using fun hc : c = '(' => h (hc ▸ List.mem_cons_self _ _)
    simp only [parenOK, hc, Bool.not_false, Bool.true_or, Bool.true_and]
    exact ih c (fun hm => h (List.mem_cons_of_mem _ hm))

theorem ParenSafe_append {a b : String} (ha : ParenSafe a) (hb : ParenSafe b) :
    ParenSafe (a ++ b) := by
  unfold ParenSafe at *
  rw [String.data_append]
  exact parenOK_append 'p' ha hb

theorem ParenSafe_of_NoParen {s : String} (h : NoParen s) : ParenSafe s :=
  parenOK_of_not_mem 'p' h

theorem ParenSafe_concat {l : List String} (h : ∀ s ∈ l, ParenSafe s) :
    ParenSafe (concat l) := by
  induction l with
  | nil => rfl
  | cons s l ih =>
    rw [concat]
    exact ParenSafe_append (h s (List.mem_cons_self _ _))
      (ih (fun t ht => h t (List.mem_cons_of_mem _ ht)))

theorem digitChar_ne_paren (d : Nat) : Nat.digitChar d ≠ '(' := by
  by_cases h : d < 16
  · have hall : ∀ k, k < 16 → Nat.digitChar k ≠ '(' := by decide
    exact hall d h
  · unfold Nat.digitChar
    iterate 16 rw [if_neg (by omega)]
    decide

theorem toDigitsCore_no_paren (b : Nat) (fuel n : Nat) (ds : List Char) (h : '(' ∉ ds) :
    '(' ∉ Nat.toDigitsCore b fuel n ds := by
  induction fuel generalizing n ds with
  | zero => simpa [Nat.toDigitsCore] using h
  | succ fuel ih =>
    have hcons : '(' ∉ Nat.digitChar (n % b) :: ds := by
      intro hm
      rcases List.mem_cons.1 hm with hm | hm
      · exact digitChar_ne_paren _ hm.symm
      · exact h hm
    unfold Nat.toDigitsCore
    simp only
    split
    · exact hcons
    · exact ih _ _ hcons

theorem ParenSafe_fmtV (n : Nat) : ParenSafe (fmtV n) :=
  ParenSafe_of_NoParen (toDigitsCore_no_paren 10 _ _ _ (by simp))

theorem ParenSafe_fmtX (n : Nat) : ParenSafe (fmtX n) :=
  ParenSafe_of_NoParen (toDigitsCore_no_paren 16 _ _ _ (by simp))

theorem ParenSafe_escData (data : List UInt8) : ParenSafe (escData data) := by
  apply ParenSafe_of_NoParen
  rw [escData_eq]
  show '(' ∉ data.flatMap _
  intro hm
  obtain ⟨b, -, hb⟩ := List.mem_flatMap.1 hm
  simp only [List.mem_cons, List.mem_singleton, List.not_mem_nil, or_false] at hb
  rcases hb with hb | hb | hb | hb
  · exact absurd hb (by decide)
  · exact absurd hb (by decide)
  · exact digitChar_ne_paren _ hb.symm
  · exact digitChar_ne_paren _ hb.symm

theorem ParenSafe_refText (slot opDiv opAdd : Nat) : ParenSafe (refText slot opDiv opAdd) := by
  unfold refText
  simp only
  have h0 : ParenSafe ("r[" ++ fmtV slot ++ "]") :=
    ParenSafe_append (ParenSafe_append (by decide) (ParenSafe_fmtV _)) (by decide)
  have h1 : ParenSafe (if opDiv ≠ 0 then "r[" ++ fmtV slot ++ "]" ++ "/" ++ fmtV opDiv
      else "r[" ++ fmtV slot ++ "]") := by
    split
    · exact ParenSafe_append (ParenSafe_append h0 (by decide)) (ParenSafe_fmtV _)
    · exact h0
  split
  · exact ParenSafe_append (ParenSafe_append h1 (by decide)) (ParenSafe_fmtV _)
  · exact h1

theorem ParenSafe_argText (a : Arg) : ParenSafe (argText a) := by
  cases a with
  | const v =>
    exact ParenSafe_append (ParenSafe_append (by decide) (ParenSafe_fmtX _)) (by decide)
  | result slot opDiv opAdd =>
    exact ParenSafe_append (by decide) (ParenSafe_refText _ _ _)

theorem ParenSafe_instrText (names : List String) (hn : ∀ nm ∈ names, NoParen nm)
    (n lc : Nat) (i : Instr) (hi : i.NamesIn names) : ParenSafe (instrText n lc i) := by
  cases i with
  | copyinConst addr size arg =>
    simp only [instrText, copyinConstText]
    repeat' apply ParenSafe_append
    all_goals first
      | exact ParenSafe_fmtV _
      | exact ParenSafe_fmtX _
      | decide
  | copyinResult addr size slot opDiv opAdd =>
    simp only [instrText, copyinResultText]
    repeat' apply ParenSafe_append
    all_goals first
      | exact ParenSafe_fmtV _
      | exact ParenSafe_fmtX _
      | exact ParenSafe_refText _ _ _
      | decide
  | copyinData addr size data =>
    simp only [instrText, copyinDataText]
    repeat' apply ParenSafe_append
    all_goals first
      | exact ParenSafe_fmtV _
      | exact ParenSafe_fmtX _
      | exact ParenSafe_escData _
      | decide
  | copyout addr size =>
    simp only [instrText, copyoutText, copyoutGuardText, copyoutAssignText]
    repeat' apply ParenSafe_append
    all_goals first
      | exact ParenSafe_fmtV _
      | exact ParenSafe_fmtX _
      | decide
  | setPad addr size => exact (by decide : ParenSafe "")
  | checkPad addr size => exact (by decide : ParenSafe "")
  | syscall c name args =>
    simp only [instrText, syscallText, syscallHeadText]
    repeat' apply ParenSafe_append
    all_goals first
      | exact ParenSafe_fmtV _
      | exact ParenSafe_of_NoParen (hn name hi)
      | exact ParenSafe_concat (fun s hs => by
          obtain ⟨a, -, rfl⟩ := List.mem_map.1 hs
          exact ParenSafe_argText a)
      | exact ParenSafe_concat (fun s hs => by
          rw [List.eq_of_mem_replicate hs]; decide)
      | decide

theorem decodeInstr_names (env : Env) {exec rest : List UInt8} {oi : Option Instr}
    (h : decodeInstr env exec = .ok (oi, rest)) : ∀ i, oi = some i → i.NamesIn env.Calls := by
  unfold decodeInstr at h
  try dsimp only at h
  repeat' split at h
  all_goals first
    | (simp only [Except.ok.injEq, Prod.mk.injEq] at h
       obtain ⟨rfl, -⟩ := h
       intro i hi
       cases hi <;> first
         | exact True.intro
         | exact List.get?_mem (by assumption))
    | cases h

theorem decodeAll_names (env : Env) {fuel : Nat} {exec rest : List UInt8} {is : List Instr}
    (h : decodeAll env fuel exec = some (.ok (is, rest))) : ∀ i ∈ is, i.NamesIn env.Calls := by
  induction fuel generalizing exec is rest with
  | zero => simp [decodeAll] at h
  | succ fuel ih =>
    unfold decodeAll at h
    cases h1 : decodeInstr env exec with
    | error f => simp [h1] at h
    | ok r =>
      obtain ⟨oi, e1⟩ := r
      cases oi with
      | none =>
        simp only [h1, Option.some.injEq, Except.ok.injEq, Prod.mk.injEq] at h
        rw [← h.1]; simp
      | some i =>
        simp only [h1] at h
        cases h2 : decodeAll env fuel e1 with
        | none => simp [h2] at h
        | some r2 =>
          cases r2 with
          | error f => simp [h2] at h
          | ok q =>
            obtain ⟨is2, e2⟩ := q
            simp only [h2, Option.some.injEq, Except.ok.injEq, Prod.mk.injEq] at h
            rw [← h.1]
            intro j hj
            rcases List.mem_cons.1 hj with hj | hj
            · rw [hj]; exact decodeInstr_names env h1 i rfl
            · exact ih h2 j hj

theorem newCall_safe {st : GenState} (h : st.Safe) : (newCall st).Safe := by
  unfold newCall
  split
  · refine ⟨(by decide : ParenSafe ""), ?_⟩
    intro c hc
    rcases List.mem_append.1 hc with hc | hc
    · exact h.2 c hc
    · rw [List.mem_singleton.1 hc]; exact h.1
  · exact h

theorem applyInstr_safe (names : List String) (hn : ∀ nm ∈ names, NoParen nm)
    {st : GenState} (h : st.Safe) (i : Instr) (hi : i.NamesIn names) :
    (applyInstr st i).Safe := by
  have hs := newCall_safe h
  cases i with
  | copyout addr size =>
    exact ⟨ParenSafe_append h.1 (ParenSafe_instrText names hn _ _ _ hi), h.2⟩
  | checkPad addr size => exact h
  | syscall c name args =>
    exact ⟨ParenSafe_append hs.1 (ParenSafe_instrText names hn _ _ _ hi), hs.2⟩
  | copyinConst addr size arg =>
    exact ⟨ParenSafe_append hs.1 (ParenSafe_instrText names hn _ _ _ hi), hs.2⟩
  | copyinResult addr size slot opDiv opAdd =>
    exact ⟨ParenSafe_append hs.1 (ParenSafe_instrText names hn _ _ _ hi), hs.2⟩
  | copyinData addr size data =>
    exact ⟨ParenSafe_append hs.1 (ParenSafe_instrText names hn _ _ _ hi), hs.2⟩
  | setPad addr size =>
    exact ⟨ParenSafe_append hs.1 (ParenSafe_instrText names hn _ _ _ hi), hs.2⟩

theorem run_safe (names : List String) (hn : ∀ nm ∈ names, NoParen nm)
    (is : List Instr) (his : ∀ i ∈ is, i.NamesIn names) {st : GenState} (h : st.Safe) :
    (run st is).Safe := by
  induction is generalizing st with
  | nil => exact h
  | cons i is ih =>
    show (run (applyInstr st i) is).Safe
    exact ih (fun j hj => his j (List.mem_cons_of_mem _ hj))
      (applyInstr_safe names hn h i (his i (List.mem_cons_self _ _)))

/-- The fragments returned by `generateCalls` are paren-safe when the names of
the call table contain no opening parenthesis. -/
theorem generateCalls_safe (env : Env) (hn : ∀ nm ∈ env.Calls, NoParen nm)
    {exec : List UInt8} {calls : List String} {n : Nat}
    (h : generateCalls env exec = some (.ok (calls, n))) : ∀ c ∈ calls, ParenSafe c := by
  rw [generateCalls_eq] at h
  cases hd : decode env exec with
  | none => simp [hd] at h
  | some r =>
    cases r with
    | error f => simp [hd] at h
    | ok q =>
      obtain ⟨is, rest⟩ := q
      simp only [hd, Option.some.injEq, Except.ok.injEq, Prod.mk.injEq] at h
      rw [← h.1]
      have hs : (initState exec).Safe := ⟨(by decide : ParenSafe ""), by simp [initState]⟩
      exact (newCall_safe (run_safe env.Calls hn is (decodeAll_names env hd) hs)).2

theorem macroLoop_append (tbl : String → Option Nat) (cs handled : List String) (w : String) :
    macroLoop tbl cs handled w = w ++ macroLoop tbl cs handled "" := by
  induction cs generalizing handled w with
  | nil => simp [macroLoop]
  | cons c cs ih =>
    unfold macroLoop
    cases tbl c with
    | none => exact ih handled w
    | some nr =>
      simp only
      split
      · exact ih handled w
      · rw [ih (c :: handled) (w ++ macroBlock c nr), ih (c :: handled) ("" ++ macroBlock c nr),
          String.append_assoc, String.empty_append]

theorem ParenSafe_macroLoop (tbl : String → Option Nat) (cs handled : List String)
    (w : String) (hw : ParenSafe w) (hcs : ∀ nm ∈ cs, NoParen nm) :
    ParenSafe (macroLoop tbl cs handled w) := by
  induction cs generalizing handled w with
  | nil => exact hw
  | cons c cs ih =>
    have hcs2 : ∀ nm ∈ cs, NoParen nm := fun nm h => hcs nm (List.mem_cons_of_mem _ h)
    have hc : ParenSafe c := ParenSafe_of_NoParen (hcs c (List.mem_cons_self _ _))
    unfold macroLoop
    cases tbl c with
    | none => exact ih handled w hw hcs2
    | some nr =>
      simp only
      split
      · exact ih handled w hw hcs2
      · refine ih (c :: handled) _ (ParenSafe_append hw ?_) hcs2
        unfold macroBlock
        repeat' apply ParenSafe_append
        all_goals first
          | exact ParenSafe_fmtV _
          | exact hc
          | decide

theorem parenOK_false_of_isPrefixOf (q : List Char) (x : Char)
    (hx : x = 'p' ∨ x = 'e' ∨ x = 'r') (prev : Char) (l : List Char)
    (h : (q ++ [x, '(']).isPrefixOf l = true) : parenOK prev l = false := by
  induction q generalizing prev l with
  | nil =>
    cases l with
    | nil => simp [List.isPrefixOf] at h
    | cons a l =>
      cases l with
      | nil => simp [List.isPrefixOf] at h
      | cons b rest =>
        simp only [List.nil_append, List.isPrefixOf, Bool.and_eq_true, beq_iff_eq] at h
        obtain ⟨h1, h2, -⟩ := h
        subst h1 h2
        rcases hx with hx | hx | hx <;> subst hx <;> simp [parenOK]
  | cons a q ih =>
    cases l with
    | nil => simp [List.isPrefixOf] at h
    | cons b rest =>
      simp only [List.cons_append, List.isPrefixOf, Bool.and_eq_true] at h
      simp [parenOK, ih b rest h.2]

/-- A paren-safe text has no occurrence of a pattern that ends in `p(`, `e(`
or `r(`. -/
theorem occurrences_of_parenOK (q : List Char) (x : Char)
    (hx : x = 'p' ∨ x = 'e' ∨ x = 'r') (prev : Char) (s : List Char)
    (h : parenOK prev s = true) : occurrences (q ++ [x, '(']) s = 0 := by
  induction s generalizing prev with
  | nil => rfl
  | cons c s ih =>
    have hp : (q ++ [x, '(']).isPrefixOf (c :: s) = false := by
      cases hpre : (q ++ [x, '(']).isPrefixOf (c :: s) with
      | false => rfl
      | true => rw [parenOK_false_of_isPrefixOf q x hx prev _ hpre] at h; cases h
    have h2 : parenOK c s = true := by
      simp only [parenOK, Bool.and_eq_true] at h
      exact h.2
    rw [occurrences, hp, ih c h2]
    rfl

/-- C15. For a program whose decoding succeeds with fragments `calls` and slot
count `n`, the Sequential output (`Threaded = false`, `Collide = false`) is
exactly the header, the macro section, a blank line, the declaration
`long r[n];`, the opening of `main`, the one `memset` statement on the result
array, the fragments in order and the closing `return 0;`. When no call name
holds an opening parenthesis, that output has no `thr(`, no `pthread_create(`
and no `usleep(`. -/
theorem sequential_output (env : Env) (tbl : String → Option Nat) (p : Prog)
    (calls : List String) (n : Nat)
    (h : generateCalls env p.exec = some (.ok (calls, n))) :
    Write env tbl p ⟨false, false⟩ = some (.ok (
      header ++ macroLoop tbl p.Calls [] "" ++ "\n" ++ ("long r[" ++ fmtV n ++ "];\n\n") ++
        "int main()\n\x7b\n" ++ "\tmemset(r, -1, sizeof(r));\n" ++ concat calls ++
        "\treturn 0;\n\x7d\n")) ∧
    ((∀ nm ∈ env.Calls, NoParen nm) → (∀ nm ∈ p.Calls, NoParen nm) →
      ∀ out, Write env tbl p ⟨false, false⟩ = some (.ok out) →
        occurrences "thr(".data out.data = 0 ∧
        occurrences "pthread_create(".data out.data = 0 ∧
        occurrences "usleep(".data out.data = 0) := by
  have hW : Write env tbl p ⟨false, false⟩ = some (.ok (
      header ++ macroLoop tbl p.Calls [] "" ++ "\n" ++ ("long r[" ++ fmtV n ++ "];\n\n") ++
        "int main()\n\x7b\n" ++ "\tmemset(r, -1, sizeof(r));\n" ++ concat calls ++
        "\treturn 0;\n\x7d\n")) := by
    unfold Write
    simp only [h, Bool.not_false, Bool.and_self, if_true, seqLoop_eq]
    rw [macroLoop_append tbl p.Calls [] header]
  refine ⟨hW, ?_⟩
  intro hn hp out hout
  rw [hW] at hout
  simp only [Option.some.injEq, Except.ok.injEq] at hout
  have hsafe : ParenSafe out := by
    rw [← hout, ← macroLoop_append tbl p.Calls [] header]
    repeat' apply ParenSafe_append
    all_goals first
      | exact ParenSafe_fmtV _
      | exact ParenSafe_macroLoop tbl p.Calls [] header (by decide) hp
      | exact ParenSafe_concat (generateCalls_safe env hn h)
      | decide
  exact ⟨occurrences_of_parenOK ['t', 'h'] 'r' (by simp) 'p' out.data hsafe,
    occurrences_of_parenOK "pthread_creat".data 'e' (by simp) 'p' out.data hsafe,
    occurrences_of_parenOK "uslee".data 'p' (by simp) 'p' out.data hsafe⟩

set_option maxRecDepth 100000 in
/-- C15 on `sampleProg`. -/
theorem sequential_output_witness :
    generateCalls sampleEnv sampleProg.exec = some (.ok (sampleFragments, 4)) ∧
    Write sampleEnv sampleNewSyscalls sampleProg ⟨false, false⟩ = some (.ok (
      header ++ macroLoop sampleNewSyscalls sampleProg.Calls [] "" ++ "\n" ++
        ("long r[" ++ fmtV 4 ++ "];\n\n") ++
        "int main()\n\x7b\n" ++ "\tmemset(r, -1, sizeof(r));\n" ++ concat sampleFragments ++
        "\treturn 0;\n\x7d\n")) ∧
    (∀ out, Write sampleEnv sampleNewSyscalls sampleProg ⟨false, false⟩ = some (.ok out) →
      occurrences "thr(".data out.data = 0 ∧
      occurrences "pthread_create(".data out.data = 0 ∧
      occurrences "usleep(".data out.data = 0) :=
  ⟨by rfl, (sequential_output sampleEnv sampleNewSyscalls sampleProg sampleFragments 4
    (by rfl)).1, (sequential_output sampleEnv sampleNewSyscalls sampleProg sampleFragments 4
    (by rfl)).2 (by decide) (by decide)⟩

/-! ## C16: initialization of the result array -/

set_option maxRecDepth 100000 in
/-- C16, as stated, fails: the Sequential output for the empty program
initializes the array with `memset(r, -1, sizeof(r))`, which sets every slot
to -1, and holds no statement that sets it to 0. -/
theorem zero_initialization_counterexample :
    Write sampleEnv sampleNewSyscalls emptyProg ⟨false, false⟩ = some (.ok (
      "// autogenerated by syzkaller (http://github.com/google/syzkaller)\n" ++
      "#include <unistd.h>\n#include <sys/syscall.h>\n#include <string.h>\n" ++
      "#include <stdint.h>\n#include <pthread.h>\n\n\nlong r[0];\n\n" ++
      "int main()\n\x7b\n\tmemset(r, -1, sizeof(r));\n\treturn 0;\n\x7d\n")) ∧
    occurrences "memset(r, 0".data
      ("// autogenerated by syzkaller (http://github.com/google/syzkaller)\n" ++
      "#include <unistd.h>\n#include <sys/syscall.h>\n#include <string.h>\n" ++
      "#include <stdint.h>\n#include <pthread.h>\n\n\nlong r[0];\n\n" ++
      "int main()\n\x7b\n\tmemset(r, -1, sizeof(r));\n\treturn 0;\n\x7d\n").data = 0 ∧
    occurrences "memset(r, -1, sizeof(r));".data
      ("// autogenerated by syzkaller (http://github.com/google/syzkaller)\n" ++
      "#include <unistd.h>\n#include <sys/syscall.h>\n#include <string.h>\n" ++
      "#include <stdint.h>\n#include <pthread.h>\n\n\nlong r[0];\n\n" ++
      "int main()\n\x7b\n\tmemset(r, -1, sizeof(r));\n\treturn 0;\n\x7d\n").data = 1 :=
  ⟨by rfl, by decide!, by decide!⟩

/-- C16 (amended): in the Sequential, Threaded and Collision topologies the
entry point sets the result array with `memset(r, -1, sizeof(r))`, every slot
to the unset value -1, right after the opening of `main` and before the first
fragment statement, respectively before the first spawn loop. -/
theorem result_array_set_to_minus_one (env : Env) (tbl : String → Option Nat) (p : Prog)
    (calls : List String) (n : Nat) (h : generateCalls env p.exec = some (.ok (calls, n))) :
    (∃ pre : String,
      Write env tbl p ⟨false, false⟩ = some (.ok (
        (pre ++ "int main()\n\x7b\n") ++ "\tmemset(r, -1, sizeof(r));\n" ++
          (concat calls ++ "\treturn 0;\n\x7d\n")))) ∧
    (∃ pre : String,
      Write env tbl p ⟨true, false⟩ = some (.ok (
        (pre ++ "int main()\n\x7b\n" ++ "\tlong i;\n" ++
          ("\tpthread_t th[" ++ fmtV calls.length ++ "];\n") ++ "\n") ++
        "\tmemset(r, -1, sizeof(r));\n" ++
        (("\tfor (i = 0; i < " ++ fmtV calls.length ++ "; i++) \x7b\n") ++
          "\t\tpthread_create(&th[i], 0, thr, (void*)i);\n" ++ "\t\tusleep(10000);\n" ++
          "\t\x7d\n" ++ "\tusleep(100000);\n" ++ "\treturn 0;\n\x7d\n"))) ∧
      Write env tbl p ⟨true, true⟩ = some (.ok (
        (pre ++ "int main()\n\x7b\n" ++ "\tlong i;\n" ++
          ("\tpthread_t th[" ++ fmtV calls.length ++ "];\n") ++ "\n") ++
        "\tmemset(r, -1, sizeof(r));\n" ++
        (("\tfor (i = 0; i < " ++ fmtV calls.length ++ "; i++) \x7b\n") ++
          "\t\tpthread_create(&th[i], 0, thr, (void*)i);\n" ++ "\t\tusleep(10000);\n" ++
          "\t\x7d\n" ++
          (("\tfor (i = 0; i < " ++ fmtV calls.length ++ "; i++) \x7b\n") ++
            "\t\tpthread_create(&th[i], 0, thr, (void*)i);\n" ++ "\t\tif (i%2==0)\n" ++
            "\t\t\tusleep(10000);\n" ++ "\t\x7d\n") ++
          "\tusleep(100000);\n" ++ "\treturn 0;\n\x7d\n")))) := by
  constructor
  · refine ⟨macroLoop tbl p.Calls [] header ++ "\n" ++ ("long r[" ++ fmtV n ++ "];\n\n"), ?_⟩
    unfold Write
    simp only [h, Bool.not_false, Bool.and_self, if_true, seqLoop_eq, String.append_assoc]
  · refine ⟨caseLoop 0 calls (macroLoop tbl p.Calls [] header ++ "\n" ++
      ("long r[" ++ fmtV n ++ "];\n\n") ++ "void *thr(void *arg)\n\x7b\n" ++
      "\tswitch ((long)arg) \x7b\n") ++ "\t\x7d\n" ++ "\treturn 0;\n\x7d\n\n", ?_, ?_⟩
    · unfold Write
      simp only [h, Bool.not_true, Bool.not_false, Bool.and_true, Bool.false_and,
        Bool.false_eq_true, if_false, String.append_assoc]
    · unfold Write
      simp only [h, Bool.not_true, Bool.and_self, Bool.false_eq_true, if_false, if_true,
        String.append_assoc]

set_option maxRecDepth 100000 in
/-- C16 (amended) on `sampleProg`. -/
theorem result_array_set_to_minus_one_witness :
    generateCalls sampleEnv sampleProg.exec = some (.ok (sampleFragments, 4)) ∧
    (∃ pre : String,
      Write sampleEnv sampleNewSyscalls sampleProg ⟨false, false⟩ = some (.ok (
        (pre ++ "int main()\n\x7b\n") ++ "\tmemset(r, -1, sizeof(r));\n" ++
          (concat sampleFragments ++ "\treturn 0;\n\x7d\n")))) :=
  ⟨by rfl,
    (result_array_set_to_minus_one sampleEnv sampleNewSyscalls sampleProg sampleFragments 4
      (by rfl)).1⟩

/-! ## C17: the word reader -/

theorem leValue_take_eight (b : List UInt8) (h : 8 ≤ b.length) :
    leValue (b.take 8) = wordValue b := by
  match b, h with
  | b0 :: b1 :: b2 :: b3 :: b4 :: b5 :: b6 :: b7 :: rest, _ =>
    have hr : List.range 8 = [0, 1, 2, 3, 4, 5, 6, 7] := by decide
    simp only [wordValue, hr, List.take, leValue, List.map, List.sum_cons, List.sum_nil,
      List.getD_cons_zero, List.getD_cons_succ]
    ring

/-- C17: on a buffer of at least 8 bytes the word reader returns the
little-endian value of the first 8 bytes and leaves the buffer without them;
it fails exactly on buffers of fewer than 8 bytes, with the overflow panic,
which is raised before the buffer is advanced. -/
theorem read_little_endian_word (b : List UInt8) :
    (8 ≤ b.length → read b = .ok (wordValue b, b.drop 8)) ∧
    (8 ≤ b.length → (b.drop 8).length + 8 = b.length ∧ b.take 8 ++ b.drop 8 = b) ∧
    ((∃ f, read b = .error f) ↔ b.length < 8) ∧
    (b.length < 8 → read b = .error .overflow) := by
  refine ⟨?_, ?_, ?_, ?_⟩
  · intro h
    unfold read
    rw [if_neg (by omega), leValue_take_eight b h]
  · intro h
    exact ⟨by rw [List.length_drop]; omega, List.take_append_drop 8 b⟩
  · constructor
    · rintro ⟨f, hf⟩
      unfold read at hf
      split at hf
      · assumption
      · cases hf
    · intro h
      exact ⟨.overflow, by unfold read; rw [if_pos h]⟩
  · intro h
    unfold read; rw [if_pos h]

/-- C17 on the eight bytes `1, 2, 0, ..., 0` followed by one more byte. -/
theorem read_little_endian_word_witness :
    read [1, 2, 0, 0, 0, 0, 0, 0, 9] = .ok (513, [9]) ∧
    wordValue [1, 2, 0, 0, 0, 0, 0, 0, 9] = 513 ∧
    read [1, 2, 0, 0, 0, 0, 0] = .error .overflow :=
  ⟨by
    have h := (read_little_endian_word [1, 2, 0, 0, 0, 0, 0, 0, 9]).1 (by decide)
    rw [h]; rfl,
   by rfl, (read_little_endian_word [1, 2, 0, 0, 0, 0, 0]).2.2.2 (by decide)⟩

/-! ## C18: termination -/

theorem decodeArgs_consumes (env : Env) {k : Nat} {exec rest : List UInt8} {args : List Arg}
    (h : decodeArgs env k exec = .ok (args, rest)) : rest.length + 24 * k ≤ exec.length := by
  induction k generalizing exec args rest with
  | zero =>
    simp only [decodeArgs, Except.ok.injEq, Prod.mk.injEq] at h
    rw [h.2]; omega
  | succ k ih =>
    unfold decodeArgs at h
    split at h
    · cases h
    · rename_i typ e1 h1
      split at h
      · cases h
      · rename_i sz e2 h2
        obtain ⟨c1, l1, rfl, -, -⟩ := read_inv h1
        obtain ⟨c2, l2, rfl, -, -⟩ := read_inv h2
        split at h
        · split at h
          · cases h
          · rename_i v e3 h3
            obtain ⟨c3, l3, rfl, -, -⟩ := read_inv h3
            split at h
            · cases h
            · rename_i as e4 h4
              simp only [Except.ok.injEq, Prod.mk.injEq] at h
              have := ih h4
              rw [← h.2]
              simp only [List.length_append] at this ⊢
              omega
        · split at h
          · split at h
            · cases h
            · rename_i slot opDiv opAdd e3 h3
              obtain ⟨c3, l3, rfl, -⟩ := readRef_inv h3
              split at h
              · cases h
              · rename_i as e4 h4
                simp only [Except.ok.injEq, Prod.mk.injEq] at h
                have := ih h4
                rw [← h.2]
                simp only [List.length_append] at this ⊢
                omega
          · cases h

theorem loop_fuel (env : Env) (st : GenState) (fuel : Nat) (h : st.exec.length + 1 ≤ fuel) :
    loop env fuel st = loop env (st.exec.length + 1) st := by
  rw [loop_eq, loop_eq]
  cases hd : decodeAll env (st.exec.length + 1) st.exec with
  | none => exact absurd hd (decodeAll_ne_none env _ _ (Nat.lt_succ_self _))
  | some r => rw [decodeAll_mono env h hd]

/-- C18: `generateCalls` terminates on every buffer. Each pass of the
instruction loop that does not stop consumes at least 8 bytes, so the fuel
`exec.length + 1` is never exhausted and any larger fuel gives the same
result; `k` iterations of the argument loop succeed only on at least `24 * k`
bytes, so an argument count beyond the buffer ends in a fault. -/
theorem generateCalls_terminates (env : Env) (exec : List UInt8) :
    (∃ r, generateCalls env exec = some r) ∧
    (∀ fuel, exec.length + 1 ≤ fuel →
      loop env fuel (initState exec) = loop env (exec.length + 1) (initState exec)) ∧
    (∀ st st2, step env st = .ok (.next st2) → st2.exec.length + 8 ≤ st.exec.length) ∧
    (∀ k w e w2 rest, argsLoop env k w e = .ok (w2, rest) → rest.length + 24 * k ≤ e.length) ∧
    (∀ k w e, e.length < 24 * k → ∃ f, argsLoop env k w e = .error f) := by
  have hargs : ∀ k w e w2 rest, argsLoop env k w e = .ok (w2, rest) →
      rest.length + 24 * k ≤ e.length := by
    intro k w e w2 rest h
    rw [argsLoop_eq] at h
    cases hd : decodeArgs env k e with
    | error f => rw [hd] at h; cases h
    | ok p =>
      obtain ⟨args, r⟩ := p
      rw [hd] at h
      simp only [Except.ok.injEq, Prod.mk.injEq] at h
      rw [← h.2]
      exact decodeArgs_consumes env hd
  refine ⟨?_, ?_, ?_, hargs, ?_⟩
  · cases h : generateCalls env exec with
    | none => exact absurd h (generateCalls_ne_none env exec)
    | some r => exact ⟨r, rfl⟩
  · intro fuel h
    exact loop_fuel env (initState exec) fuel h
  · intro st st2 h
    exact step_consumes h
  · intro k w e hlt
    cases h : argsLoop env k w e with
    | error f => exact ⟨f, rfl⟩
    | ok p =>
      obtain ⟨w2, rest⟩ := p
      have := hargs k w e w2 rest h
      omega

/-- C18 on a stream with the largest argument count and no end marker. -/
theorem generateCalls_terminates_witness :
    generateCalls sampleEnv hugeCountProgram = some (.error .overflow) ∧
    ∃ r, generateCalls sampleEnv hugeCountProgram = some r :=
  ⟨by rfl, (generateCalls_terminates sampleEnv hugeCountProgram).1⟩

/-! ## C19: slots are decode positions -/

theorem annotate_getElem? (n lc : Nat) (is : List Instr) (j : Nat) :
    (annotate n lc is)[j]? =
      (is[j]?).map (fun i =>
        (⟨n + j, i, instrText (n + j) (lastCallAfter n lc (is.take j)) i⟩ : Stmt)) := by
  induction is generalizing n lc j with
  | nil => simp [annotate]
  | cons i is ih =>
    cases j with
    | zero => simp [annotate, lastCallAfter]
    | succ j =>
      simp only [annotate, List.getElem?_cons_succ, ih, List.take_succ_cons, lastCallAfter]
      have : n + 1 + j = n + (j + 1) := by omega
      rw [this]

theorem annotate_length (n lc : Nat) (is : List Instr) : (annotate n lc is).length = is.length := by
  induction is generalizing n lc with
  | nil => rfl
  | cons i is ih => simp [annotate, ih]

theorem annotate_pos (n lc : Nat) (is : List Instr) :
    (annotate n lc is).map Stmt.pos = List.range' n is.length := by
  induction is generalizing n lc with
  | nil => rfl
  | cons i is ih => simp [annotate, ih, List.range']

theorem toDigitsCore_append (b f n : Nat) (ds : List Char) :
    Nat.toDigitsCore b f n ds = Nat.toDigitsCore b f n [] ++ ds := by
  induction f generalizing n ds with
  | zero => simp [Nat.toDigitsCore]
  | succ f ih =>
    simp only [Nat.toDigitsCore]
    split
    · rfl
    · rw [ih (n / b) (Nat.digitChar (n % b) :: ds), ih (n / b) [Nat.digitChar (n % b)]]
      simp

theorem digitChar_value (k : Nat) (h : k < 10) : (Nat.digitChar k).toNat - 48 = k := by
  have hall : ∀ k, k < 10 → (Nat.digitChar k).toNat - 48 = k := by decide
  exact hall k h

theorem decimalValue_toDigitsCore (f n : Nat) (h : n < f) :
    decimalValue (Nat.toDigitsCore 10 f n []) = n := by
  induction f generalizing n with
  | zero => omega
  | succ f ih =>
    simp only [Nat.toDigitsCore]
    split
    · rename_i h0
      simp only [decimalValue, List.foldl_cons, List.foldl_nil, Nat.mul_zero, Nat.zero_add]
      rw [digitChar_value _ (Nat.mod_lt _ (by decide))]
      omega
    · rename_i h0
      rw [toDigitsCore_append]
      have hlt : n / 10 < f := by omega
      have := ih (n / 10) hlt
      simp only [decimalValue, List.foldl_append, List.foldl_cons, List.foldl_nil] at this ⊢
      rw [this, digitChar_value _ (Nat.mod_lt _ (by decide))]
      omega

/-- Distinct numbers are printed differently by `%v`. -/
theorem fmtV_injective (a b : Nat) (h : fmtV a = fmtV b) : a = b := by
  have ha : decimalValue (fmtV a).data = a := decimalValue_toDigitsCore (a + 1) a (by omega)
  have hb : decimalValue (fmtV b).data = b := decimalValue_toDigitsCore (b + 1) b (by omega)
  rw [← ha, ← hb, h]

/-- C19: when `generateCalls` succeeds with slot count `N`, the fragments are
made of the statements of the decoded instructions, and the statement of the
`j`-th decoded instruction assigns slot `j` when the instruction is a syscall
(`r[j] = syscall(...)`) or a copy-out (`r[j] = *(uint..._t*)...`); the
positions are `0, ..., N-1`, hence pairwise distinct and below `N`, and
distinct positions are printed as distinct slot numbers. -/
theorem slot_is_decode_position (env : Env) (exec : List UInt8) (calls : List String) (n : Nat)
    (h : generateCalls env exec = some (.ok (calls, n))) :
    ∃ (is : List Instr) (rest : List UInt8) (groups : List (List Stmt)),
      decode env exec = some (.ok (is, rest)) ∧ n = is.length ∧
      calls = groups.map render ∧ groups.flatten <+: statements is ∧
      (statements is).map Stmt.pos = List.range n ∧
      ((statements is).map Stmt.pos).Nodup ∧
      (∀ a b, fmtV a = fmtV b → a = b) ∧
      ∀ j s, (statements is)[j]? = some s →
        s.pos = j ∧ j < n ∧ is[j]? = some s.instr ∧
        (∀ c name args, s.instr = .syscall c name args →
          ∃ tail, s.text = "\tr[" ++ fmtV j ++ "] = syscall(SYS_" ++ name ++ tail) ∧
        (∀ addr size, s.instr = .copyout addr size →
          ∃ m, s.text = "\tif (r[" ++ fmtV m ++ "] != -1)\n" ++
            ("\t\tr[" ++ fmtV j ++ "] = *(uint" ++ fmtV (size * 8 % 2 ^ 64) ++ "_t*)0x" ++
              fmtX addr ++ ";\n")) := by
  obtain ⟨is, rest, hd, hcalls, hn⟩ := generateCalls_ok h
  obtain ⟨groups, lost, hg, hS, -, -, -⟩ := final_grouped exec is
  rw [← hcalls] at hg
  have hpos : (statements is).map Stmt.pos = List.range n := by
    rw [statements, annotate_pos, hn, List.range_eq_range']
  refine ⟨is, rest, groups, hd, hn, hg, ⟨lost, hS.symm⟩, hpos, ?_, fmtV_injective, ?_⟩
  · rw [hpos]; exact List.nodup_range n
  · intro j s hs
    rw [statements, annotate_getElem?] at hs
    cases hi : is[j]? with
    | none => rw [hi] at hs; cases hs
    | some i =>
      rw [hi] at hs
      simp only [Option.map_some', Option.some.injEq, Nat.zero_add] at hs
      have hj : j < is.length := by
        by_contra hc
        rw [List.getElem?_eq_none (by omega)] at hi
        cases hi
      subst hs
      refine ⟨rfl, by omega, rfl, ?_, ?_⟩
      · intro c name args hinstr
        simp only at hinstr
        subst hinstr
        refine ⟨concat (args.map argText) ++
          concat (List.replicate (6 - args.length) ", 0") ++ ");\n", ?_⟩
        simp only [instrText, syscallText, syscallHeadText, String.append_assoc]
      · intro addr size hinstr
        simp only at hinstr
        subst hinstr
        exact ⟨lastCallAfter 0 0 (is.take j), rfl⟩

set_option maxRecDepth 100000 in
/-- C19 on `sampleProgram`: slots 1, 2 and 3 are assigned, the slot count is 4. -/
theorem slot_is_decode_position_witness :
    generateCalls sampleEnv sampleProgram = some (.ok (sampleFragments, 4)) ∧
    ∃ (is : List Instr) (rest : List UInt8) (groups : List (List Stmt)),
      decode sampleEnv sampleProgram = some (.ok (is, rest)) ∧ 4 = is.length ∧
      sampleFragments = groups.map render ∧ groups.flatten <+: statements is ∧
      (statements is).map Stmt.pos = List.range 4 ∧
      ((statements is).map Stmt.pos).Nodup ∧
      (∀ a b, fmtV a = fmtV b → a = b) ∧
      ∀ j s, (statements is)[j]? = some s →
        s.pos = j ∧ j < 4 ∧ is[j]? = some s.instr ∧
        (∀ c name args, s.instr = .syscall c name args →
          ∃ tail, s.text = "\tr[" ++ fmtV j ++ "] = syscall(SYS_" ++ name ++ tail) ∧
        (∀ addr size, s.instr = .copyout addr size →
          ∃ m, s.text = "\tif (r[" ++ fmtV m ++ "] != -1)\n" ++
            ("\t\tr[" ++ fmtV j ++ "] = *(uint" ++ fmtV (size * 8 % 2 ^ 64) ++ "_t*)0x" ++
              fmtX addr ++ ";\n")) :=
  ⟨by rfl, slot_is_decode_position sampleEnv sampleProgram sampleFragments 4 (by rfl)⟩

/-! ## C20: more than six arguments -/

theorem readRef_words {slot opDiv opAdd : Nat} (hs : slot < 2 ^ 64) (hd : opDiv < 2 ^ 64)
    (ha : opAdd < 2 ^ 64) (rest : List UInt8) :
    readRef (wordBytes slot ++ (wordBytes opDiv ++ (wordBytes opAdd ++ rest))) =
      .ok ((slot, opDiv, opAdd), rest) := by
  simp only [readRef, read_wordBytes hs, read_wordBytes hd, read_wordBytes ha]

theorem decodeArgs_encoded (env : Env) (args : List (Nat × Arg)) (rest : List UInt8)
    (hargs : ∀ a ∈ args, a.1 < 2 ^ 64 ∧ a.2.IsWord)
    (hconst : env.ExecArgConst < 2 ^ 64) (hres : env.ExecArgResult < 2 ^ 64)
    (hne : env.ExecArgResult ≠ env.ExecArgConst) :
    decodeArgs env args.length
        (encode (args.flatMap (fun a => argWords env a.1 a.2)) ++ rest) =
      .ok (args.map Prod.snd, rest) := by
  induction args with
  | nil => rfl
  | cons a args ih =>
    obtain ⟨h1, h2⟩ := hargs a (List.mem_cons_self _ _)
    have ih2 := ih (fun b hb => hargs b (List.mem_cons_of_mem _ hb))
    obtain ⟨sz, arg⟩ := a
    have h1b : sz < 2 ^ 64 := h1
    rw [List.flatMap_cons, encode_append]
    cases arg with
    | const v =>
      have hv : v < 2 ^ 64 := h2
      have hw : argWords env sz (.const v) = [env.ExecArgConst, sz, v] := rfl
      simp only [hw, encode_cons, encode_nil, List.append_nil, List.append_assoc,
        List.length_cons, decodeArgs, read_wordBytes hconst, read_wordBytes h1b,
        read_wordBytes hv, if_true, ih2, List.map_cons]
    | result slot opDiv opAdd =>
      obtain ⟨hs, hd, ha⟩ := h2
      have hw : argWords env sz (.result slot opDiv opAdd) =
          [env.ExecArgResult, sz, slot, opDiv, opAdd] := rfl
      simp only [hw, encode_cons, encode_nil, List.append_nil, List.append_assoc,
        List.length_cons, decodeArgs, read_wordBytes hres, read_wordBytes h1b, if_neg hne,
        if_true, readRef_words hs hd ha, ih2, List.map_cons]

theorem generateCalls_callProgram (env : Env) (c : Nat) (name : String)
    (args : List (Nat × Arg))
    (hname : env.Calls.get? c = some name) (hc : c < 2 ^ 64)
    (hres : c ≠ env.ExecInstrEOF ∧ c ≠ env.ExecInstrCopyin ∧ c ≠ env.ExecInstrCopyout ∧
      c ≠ env.ExecInstrSetPad ∧ c ≠ env.ExecInstrCheckPad)
    (hargs : ∀ a ∈ args, a.1 < 2 ^ 64 ∧ a.2.IsWord) (hlen : args.length < 2 ^ 64)
    (hconst : env.ExecArgConst < 2 ^ 64) (hresult : env.ExecArgResult < 2 ^ 64)
    (hne : env.ExecArgResult ≠ env.ExecArgConst) (heof : env.ExecInstrEOF < 2 ^ 64) :
    generateCalls env (callProgram env c args) =
      some (.ok ([syscallText 0 name (args.map Prod.snd)], 1)) := by
  obtain ⟨r1, r2, r3, r4, r5⟩ := hres
  have hfuel : 2 ≤ (callProgram env c args).length + 1 := by
    simp only [callProgram, encode_append, encode_cons, List.length_append, wordBytes_length,
      List.cons_append, List.nil_append]
    omega
  have hmain : decodeAll env 2 (callProgram env c args) =
      some (.ok ([.syscall c name (args.map Prod.snd)], [])) := by
    have hd := decodeArgs_encoded env args (wordBytes env.ExecInstrEOF) hargs hconst hresult hne
    simp only [callProgram, encode_append, encode_cons, encode_nil, List.append_nil,
      List.cons_append, List.nil_append, List.append_assoc, decodeAll, decodeInstr,
      read_wordBytes hc, read_wordBytes hlen, if_neg r1, if_neg r2, if_neg r3, if_neg r4,
      if_neg r5, hname, hd]
    have := read_wordBytes heof []
    rw [List.append_nil] at this
    simp only [this, if_true]
  have hdec : decode env (callProgram env c args) =
      some (.ok ([.syscall c name (args.map Prod.snd)], [])) := decodeAll_mono env hfuel hmain
  rw [generateCalls_eq, hdec]
  simp [run, applyInstr, newCall, initState, instrText]

theorem step_call_encoded (env : Env) (c : Nat) (name : String)
    (args : List (Nat × Arg))
    (hname : env.Calls.get? c = some name) (hc : c < 2 ^ 64)
    (hres : c ≠ env.ExecInstrEOF ∧ c ≠ env.ExecInstrCopyin ∧ c ≠ env.ExecInstrCopyout ∧
      c ≠ env.ExecInstrSetPad ∧ c ≠ env.ExecInstrCheckPad)
    (hargs : ∀ a ∈ args, a.1 < 2 ^ 64 ∧ a.2.IsWord) (hlen : args.length < 2 ^ 64)
    (hconst : env.ExecArgConst < 2 ^ 64) (hresult : env.ExecArgResult < 2 ^ 64)
    (hne : env.ExecArgResult ≠ env.ExecArgConst) (st : GenState) (rest : List UInt8)
    (hst : st.exec =
      encode ([c, args.length] ++ args.flatMap (fun a => argWords env a.1 a.2)) ++ rest) :
    step env st = .ok (.next { applyInstr st (.syscall c name (args.map Prod.snd)) with
      exec := rest }) := by
  obtain ⟨r1, r2, r3, r4, r5⟩ := hres
  have hd := decodeArgs_encoded env args rest hargs hconst hresult hne
  have hdec : decodeInstr env st.exec =
      .ok (some (.syscall c name (args.map Prod.snd)), rest) := by
    rw [hst]
    simp only [encode_append, encode_cons, encode_nil, List.append_nil,
      List.cons_append, List.nil_append, List.append_assoc, decodeInstr,
      read_wordBytes hc, read_wordBytes hlen, if_neg r1, if_neg r2, if_neg r3, if_neg r4,
      if_neg r5, hname, hd]
  rw [step_eq, hdec]

/-- C20: the six-argument limit is not enforced. The program of one call with
`k` arguments, each a constant or a result reference, decodes to one statement
with `max k 6` argument positions after `SYS_name`: the `k` decoded arguments
followed by `6 - k` literal zeros, hence exactly the `k` arguments, without
truncation, padding or fault, when `k > 6`. The same statement, with the
decode position as slot, is appended by the loop body in every state whose
input starts with the words of that call. -/
theorem syscall_argument_positions (env : Env) (c : Nat) (name : String)
    (args : List (Nat × Arg))
    (hname : env.Calls.get? c = some name) (hc : c < 2 ^ 64)
    (hres : c ≠ env.ExecInstrEOF ∧ c ≠ env.ExecInstrCopyin ∧ c ≠ env.ExecInstrCopyout ∧
      c ≠ env.ExecInstrSetPad ∧ c ≠ env.ExecInstrCheckPad)
    (hargs : ∀ a ∈ args, a.1 < 2 ^ 64 ∧ a.2.IsWord) (hlen : args.length < 2 ^ 64)
    (hconst : env.ExecArgConst < 2 ^ 64) (hresult : env.ExecArgResult < 2 ^ 64)
    (hne : env.ExecArgResult ≠ env.ExecArgConst) (heof : env.ExecInstrEOF < 2 ^ 64) :
    ∃ positions : List String,
      positions = args.map (fun a => argText a.2) ++ List.replicate (6 - args.length) ", 0" ∧
      positions.length = max args.length 6 ∧
      (6 < args.length →
        positions = args.map (fun a => argText a.2) ∧ positions.length = args.length) ∧
      generateCalls env (callProgram env c args) =
        some (.ok (["\tr[0] = syscall(SYS_" ++ name ++ concat positions ++ ");\n"], 1)) ∧
      (∀ (st : GenState) (rest : List UInt8),
        st.exec =
          encode ([c, args.length] ++ args.flatMap (fun a => argWords env a.1 a.2)) ++ rest →
        ∃ st2, step env st = .ok (.next st2) ∧ st2.exec = rest ∧ st2.n = st.n + 1 ∧
          st2.w = (newCall st).w ++ ("\tr[" ++ fmtV st.n ++ "] = syscall(SYS_" ++ name ++
            concat positions ++ ");\n")) := by
  refine ⟨_, rfl, ?_, ?_, ?_, ?_⟩
  · rw [List.length_append, List.length_map, List.length_replicate]; omega
  · intro hk
    have h0 : 6 - args.length = 0 := by omega
    rw [h0]
    simp
  · rw [generateCalls_callProgram env c name args hname hc hres hargs hlen hconst hresult hne
      heof]
    have h1 : syscallHeadText 0 name = "\tr[0] = syscall(SYS_" ++ name := rfl
    rw [syscallText, h1, concat_append, List.map_map, List.length_map]
    simp only [String.append_assoc]
    rfl
  · intro st rest hst
    refine ⟨_, step_call_encoded env c name args hname hc hres hargs hlen hconst hresult hne
      st rest hst, rfl, ?_, ?_⟩
    · simp only [applyInstr, newCall_n]
    · have h1 : ∀ k, syscallHeadText k name = "\tr[" ++ fmtV k ++ "] = syscall(SYS_" ++ name :=
        fun _ => rfl
      simp only [applyInstr, instrText, newCall_n]
      rw [syscallText, h1, concat_append, List.map_map, List.length_map]
      simp only [String.append_assoc]
      rfl

set_option maxRecDepth 100000 in
/-- C20 on a call of `X` with seven arguments. -/
theorem syscall_argument_positions_witness :
    (sampleEnv.Calls.get? 0 = some "X" ∧ 0 < 2 ^ 64 ∧
      (0 ≠ sampleEnv.ExecInstrEOF ∧ 0 ≠ sampleEnv.ExecInstrCopyin ∧
        0 ≠ sampleEnv.ExecInstrCopyout ∧ 0 ≠ sampleEnv.ExecInstrSetPad ∧
        0 ≠ sampleEnv.ExecInstrCheckPad) ∧
      (∀ a ∈ sevenArgs, a.1 < 2 ^ 64 ∧ a.2.IsWord) ∧ sevenArgs.length < 2 ^ 64 ∧
      sampleEnv.ExecArgConst < 2 ^ 64 ∧ sampleEnv.ExecArgResult < 2 ^ 64 ∧
      sampleEnv.ExecArgResult ≠ sampleEnv.ExecArgConst ∧ sampleEnv.ExecInstrEOF < 2 ^ 64) ∧
    generateCalls sampleEnv (callProgram sampleEnv 0 sevenArgs) =
      some (.ok (["\tr[0] = syscall(SYS_X, 0x1ul, 0x2ul, 0x3ul, 0x4ul, 0x5ul, 0x6ul, r[0]+7);\n"],
        1)) ∧
    ∃ positions : List String,
      positions = sevenArgs.map (fun a => argText a.2) ++
        List.replicate (6 - sevenArgs.length) ", 0" ∧
      positions.length = max sevenArgs.length 6 ∧
      (6 < sevenArgs.length →
        positions = sevenArgs.map (fun a => argText a.2) ∧
          positions.length = sevenArgs.length) ∧
      generateCalls sampleEnv (callProgram sampleEnv 0 sevenArgs) =
        some (.ok (["\tr[0] = syscall(SYS_" ++ "X" ++ concat positions ++ ");\n"], 1)) ∧
      (∀ (st : GenState) (rest : List UInt8),
        st.exec =
          encode ([0, sevenArgs.length] ++
            sevenArgs.flatMap (fun a => argWords sampleEnv a.1 a.2)) ++ rest →
        ∃ st2, step sampleEnv st = .ok (.next st2) ∧ st2.exec = rest ∧ st2.n = st.n + 1 ∧
          st2.w = (newCall st).w ++ ("\tr[" ++ fmtV st.n ++ "] = syscall(SYS_" ++ "X" ++
            concat positions ++ ");\n")) :=
  have hargs : ∀ a ∈ sevenArgs, a.1 < 2 ^ 64 ∧ a.2.IsWord := by
    intro a ha
    simp only [sevenArgs, List.mem_cons, List.mem_singleton, List.not_mem_nil, or_false] at ha
    rcases ha with h | h | h | h | h | h | h <;> subst h <;>
      simp only [Arg.IsWord] <;> decide
  ⟨⟨by rfl, by decide, by decide, hargs, by decide, by decide, by decide, by decide,
      by decide⟩,
    by rfl,
    syscall_argument_positions sampleEnv 0 "X" sevenArgs (by rfl) (by decide) (by decide)
      hargs (by decide) (by decide) (by decide) (by decide) (by decide)⟩

end Csource
